import Mathlib

/-! # Routing graph construction, way-position resolver and shortest-path search

A shallow embedding of `src/dijkstra.cc` and a verification of its specification.

Conventions of the embedding.

* `double` values are rationals: every statement about distances is a statement in exact
  arithmetic.  The primitive `distance` (a square root of a sum that involves a cosine) is a
  parameter `distance : Coord → Coord → ℚ` of every function that calls it; the theorems
  that need it assume `0 ≤ distance a b`.  The concrete runs use `meridian_distance` on
  points of one meridian, where `distance` is the absolute difference of the latitudes.
  Where rounding makes a difference, a second set of definitions (names ending in
  `_double`) rounds the result of every operation to the nearest binary64 value.
* A pointer into one of the vectors of `Routing_Data` is the index of the element it points
  to; the null pointer is `none`.
* A run that leaves defined behaviour (an index outside a vector, a null pointer that is
  dereferenced, an iterator moved before `begin()`) has no result: the function returns
  `none`.  The main loop of the search additionally takes a fuel argument and returns `none`
  when the fuel is used up; the theorems give the fuel from which the result is `some`.
* `std::lower_bound` and `std::sort` are taken by their contracts: `lower_bound` returns the
  first position whose element is not less than the value, and the search is run with any
  function `sort` that returns a rearrangement of its argument ordered by
  `Open_Node::operator<`, so that nothing depends on the order of equal values.
* Ids (`Id_Type`) and the element counters are natural numbers; vectors are lists.  The
  lengths of vectors and the tallies of `node_count` are taken to stay below `2 ^ 32`, so
  the `unsigned int` loop variables and counters do not wrap; the one place where the source
  wraps on ordinary input, `nds.size() - 1` for an empty `nds`, is modelled by
  `size_minus_one`.
-/

namespace ChangingTrains

structure Coord where
  lat : ℚ
  lon : ℚ
deriving DecidableEq

/-- An OSM node of `Parsing_State` (declared in `read_input.h`): the fields the routing code
reads. -/
structure Node where
  id : Nat
  lat : ℚ
  lon : ℚ
deriving DecidableEq

/-- An OSM way of `Parsing_State` (declared in `read_input.h`): the fields the routing code
reads. -/
structure Way where
  id : Nat
  nds : List Nat
deriving DecidableEq

structure Parsing_State where
  nodes : List Node
  ways : List Way
deriving DecidableEq

structure Routing_Edge where
  trace : List Coord
  valuation : ℚ
  start : Option Nat
  end_ : Option Nat
deriving DecidableEq

structure Routing_Node where
  id : Nat
  edges : List Nat
deriving DecidableEq

structure Routing_Data where
  nodes : List Routing_Node
  edges : List Routing_Edge
  way_dictionary : List (Nat × List (Nat × Nat))
deriving DecidableEq

/-- The function `std::lower_bound` on a range ordered by `key`, by its contract: the first
position whose element is not less than `v` (the length of the range when there is none).
The standard defines the result for ranges partitioned by `key x < v`; the ranges the
theorems search are sorted. -/
def lower_bound {α : Type} (key : α → Nat) : List α → Nat → Nat
  | [], _ => 0
  | x :: xs, v => if key x < v then lower_bound key xs v + 1 else 0

/-- The value of `size() - 1` in `size_t` arithmetic. -/
def size_minus_one (n : Nat) : Nat := if n = 0 then 2 ^ 64 - 1 else n - 1

/-! ## `Routing_Data::edge_from_way` -/

/-- One round of the trace loop of `edge_from_way`; the state is
`(edge.trace, edge.valuation, last_coord)`. -/
def trace_step (distance : Coord → Coord → ℚ) (data : Parsing_State) (way : Way) (start : Nat)
    (st : List Coord × ℚ × Coord) (i : Nat) : Option (List Coord × ℚ × Coord) :=
  match way.nds[i]? with
  | none => none
  | some nd =>
    match data.nodes[lower_bound Node.id data.nodes nd]? with
    | none => some st
    | some n =>
      if n.id = nd then
        some (st.1 ++ [⟨n.lat, n.lon⟩],
          (if start < i then st.2.1 + distance st.2.2 ⟨n.lat, n.lon⟩ else st.2.1),
          ⟨n.lat, n.lon⟩)
      else some st

/-- The pointer `&(*n_it)` taken after `lower_bound` when `n_it != nodes.end()`, else null. -/
def node_ptr (nodes : List Routing_Node) (id : Nat) : Option Nat :=
  if lower_bound Routing_Node.id nodes id < nodes.length then
    some (lower_bound Routing_Node.id nodes id)
  else none

def edge_from_way (distance : Coord → Coord → ℚ) (nodes : List Routing_Node) (way : Way)
    (start end_ : Nat) (data : Parsing_State) : Option Routing_Edge :=
  match way.nds[start]? with
  | none => none
  | some first =>
    match way.nds[end_]? with
    | none => none
    | some last =>
      match (List.range' start (end_ + 1 - start)).foldlM
          (trace_step distance data way start) ([], 0, ⟨0, 0⟩) with
      | none => none
      | some st => some ⟨st.1, st.2.1, node_ptr nodes first, node_ptr nodes last⟩

/-! ## `Routing_Data::Routing_Data` -/

/-- The statement `node_count[k] += d` on a `std::map` kept as a list in key order. -/
def node_count_add : List (Nat × Nat) → Nat → Nat → List (Nat × Nat)
  | [], k, d => [(k, d)]
  | (k', c) :: rest, k, d =>
    if k < k' then (k, d) :: (k', c) :: rest
    else if k = k' then (k', c + d) :: rest
    else (k', c) :: node_count_add rest k d

/-- The value read by `node_count[k]`: zero for a key that is not in the map (the entry
`operator[]` then adds holds zero and changes no later read). -/
def node_count_get : List (Nat × Nat) → Nat → Nat
  | [], _ => 0
  | (k', c) :: rest, k => if k' = k then c else node_count_get rest k

/-- The body of the first loop of the constructor for one way with nd list `nds`: the first
and the last nd count 2, the nds in between count 1. -/
def count_way (m : List (Nat × Nat)) : List Nat → List (Nat × Nat)
  | [] => m
  | x :: xs =>
    node_count_add
      (xs.dropLast.foldl (fun acc nd => node_count_add acc nd 1) (node_count_add m x 2))
      ((x :: xs).getLast (List.cons_ne_nil x xs)) 2

def node_count_of (data : Parsing_State) : List (Nat × Nat) :=
  data.ways.foldl (fun m w => count_way m w.nds) []

/-- The vector `nodes` after the second loop of the constructor. -/
def node_store (data : Parsing_State) : List Routing_Node :=
  ((node_count_of data).filter (fun p => 1 < p.2)).map (fun p => ⟨p.1, []⟩)

/-- One round of the loop over the nds of a way; the state is
`(start, dictionary_entry, edges)`. -/
def way_step (distance : Coord → Coord → ℚ) (node_count : List (Nat × Nat))
    (nodes : List Routing_Node) (data : Parsing_State) (way : Way)
    (st : Nat × List (Nat × Nat) × List Routing_Edge) (i : Nat) :
    Option (Nat × List (Nat × Nat) × List Routing_Edge) :=
  match way.nds[i]? with
  | none => none
  | some nd =>
    if 1 < node_count_get node_count nd then
      match edge_from_way distance nodes way st.1 i data with
      | none => none
      | some e => some (i, st.2.1 ++ [(st.1, st.2.2.length)], st.2.2 ++ [e])
    else some st

/-- The body of the third loop of the constructor for one way: the dictionary entry of the
way and the edge store after the way. -/
def process_way (distance : Coord → Coord → ℚ) (node_count : List (Nat × Nat))
    (nodes : List Routing_Node) (data : Parsing_State) (edges : List Routing_Edge) (way : Way) :
    Option (List (Nat × Nat) × List Routing_Edge) :=
  match (List.range' 1 (way.nds.length - 1)).foldlM
      (way_step distance node_count nodes data way) (0, [], edges) with
  | none => none
  | some st =>
    if st.1 < size_minus_one way.nds.length then
      match edge_from_way distance nodes way st.1 (size_minus_one way.nds.length % 2 ^ 32)
          data with
      | none => none
      | some e => some (st.2.1 ++ [(st.1, st.2.2.length)], st.2.2 ++ [e])
    else some (st.2.1, st.2.2)

/-- The third loop of the constructor; the state is `(edges, way_dictionary)`. -/
def ways_step (distance : Coord → Coord → ℚ) (node_count : List (Nat × Nat))
    (nodes : List Routing_Node) (data : Parsing_State)
    (st : List Routing_Edge × List (Nat × List (Nat × Nat))) (way : Way) :
    Option (List Routing_Edge × List (Nat × List (Nat × Nat))) :=
  match process_way distance node_count nodes data st.1 way with
  | none => none
  | some r => some (r.2, st.2 ++ [(way.id, r.1)])

/-- The statements `n_it = lower_bound(nodes, *p); if (n_it != nodes.end())
n_it->edges.push_back(edge)` of the last loop, for the pointer `p` to a node and the edge
with index `ei`. -/
def attach_end (nodes : List Routing_Node) (p : Option Nat) (ei : Nat) :
    Option (List Routing_Node) :=
  match p with
  | none => none
  | some a =>
    match nodes[a]? with
    | none => none
    | some n =>
      match nodes[lower_bound Routing_Node.id nodes n.id]? with
      | none => some nodes
      | some m =>
        some (nodes.set (lower_bound Routing_Node.id nodes n.id)
          ⟨m.id, m.edges ++ [ei]⟩)

/-- One round of the last loop of the constructor. -/
def attach_edge (edges : List Routing_Edge) (nodes : List Routing_Node) (ei : Nat) :
    Option (List Routing_Node) :=
  match edges[ei]? with
  | none => none
  | some e =>
    match attach_end nodes e.start ei with
    | none => none
    | some nodes1 => attach_end nodes1 e.end_ ei

/-- The constructor `Routing_Data::Routing_Data(const Parsing_State&)`. -/
def Routing_Data.build (distance : Coord → Coord → ℚ) (data : Parsing_State) :
    Option Routing_Data :=
  match data.ways.foldlM (ways_step distance (node_count_of data) (node_store data) data)
      ([], []) with
  | none => none
  | some st =>
    match (List.range st.1.length).foldlM (attach_edge st.1) (node_store data) with
    | none => none
    | some nodes => some ⟨nodes, st.1, st.2⟩

/-! ## `Routing_Data::resolve_way_pos` and `Route_Ref` -/

/-- The function `Routing_Data::resolve_way_pos`; the result is the pair of the edge pointer
and the index within the edge. -/
def resolve_way_pos (rd : Routing_Data) (way_id index : Nat) : Option (Option Nat × Nat) :=
  match rd.way_dictionary[lower_bound Prod.fst rd.way_dictionary way_id]? with
  | none => some (none, 0)
  | some w =>
    match (w.2.takeWhile (fun p => p.1 ≤ index)).length with
    | 0 => none
    | j + 1 =>
      match w.2[j]? with
      | none => none
      | some entry => if entry.2 < rd.edges.length then some (some entry.2, index - entry.1)
        else none

/-- The result of anchoring a coordinate to a way (declared in `geocode.h`): the fields the
routing code reads. -/
structure Way_Reference where
  way_ref : Nat
  index : Nat
  pos : ℚ
deriving DecidableEq

structure Route_Ref where
  label : String
  edge : Option Nat
  index : Nat
  pos : ℚ
deriving DecidableEq

/-- The constructor `Route_Ref::Route_Ref`. -/
def Route_Ref.make (rd : Routing_Data) (way_ref : Way_Reference) (label : String) :
    Option Route_Ref :=
  match resolve_way_pos rd way_ref.way_ref way_ref.index with
  | none => none
  | some r => some ⟨label, r.1, r.2, way_ref.pos⟩

/-- The function `distance` restricted to points of one meridian, where
`sqrt((b.lat - a.lat)^2 + 0)` is `|b.lat - a.lat|`. -/
def meridian_distance (a b : Coord) : ℚ := |b.lat - a.lat|

/-- The function `distance` restricted to points of the parallel of latitude 60 degrees,
where `lon_scale = 1 / cos(60°)` is 2 and `sqrt(0 + ((b.lon - a.lon) * 2)^2)` is
`|b.lon - a.lon| * 2`. -/
def parallel_60_distance (a b : Coord) : ℚ := |b.lon - a.lon| * 2

/-! ## `Route_Ref::proportionate_valuation` -/

/-- The loop of `proportionate_valuation` over the consecutive points of the trace: `i` is
the loop variable, the state is `(total_length, partial_length)`. -/
def pv_loop (distance : Coord → Coord → ℚ) (index : Nat) (pos : ℚ) :
    List Coord → Nat → ℚ × ℚ → ℚ × ℚ
  | a :: b :: rest, i, st =>
    pv_loop distance index pos (b :: rest) (i + 1)
      (st.1 + distance a b, if i = (index + 1) % 2 ^ 32 then st.1 + pos else st.2)
  | _, _, st => st

/-- The body of `proportionate_valuation` once the edge pointer is known not to be null, in
exact arithmetic; `Routing_Edge.proportionate_valuation_double` rounds the product and the
quotient. -/
def Routing_Edge.proportionate_valuation (distance : Coord → Coord → ℚ) (edge : Routing_Edge)
    (index : Nat) (pos : ℚ) : ℚ :=
  if (pv_loop distance index pos edge.trace 1 (0, 0)).1 = 0 then edge.valuation
  else edge.valuation * (pv_loop distance index pos edge.trace 1 (0, 0)).2
    / (pv_loop distance index pos edge.trace 1 (0, 0)).1

/-- The function `Route_Ref::proportionate_valuation`. -/
def Route_Ref.proportionate_valuation (distance : Coord → Coord → ℚ) (rd : Routing_Data)
    (r : Route_Ref) : Option ℚ :=
  match r.edge with
  | none => some 0
  | some ei =>
    match rd.edges[ei]? with
    | none => none
    | some e => some (e.proportionate_valuation distance r.index r.pos)

/-! ## `Route_Tree::Route_Tree` -/

structure Route where
  start : Route_Ref
  end_ : Route_Ref
  edges : List Nat
  value : ℚ
deriving DecidableEq

structure Open_Node where
  node : Option Nat
  arrived_from : Option Nat
  value : ℚ
deriving DecidableEq

structure Closed_Node where
  arrived_from : Option Nat
  value : ℚ
deriving DecidableEq

/-- The contract of `std::sort` with `Open_Node::operator<`: the result is a rearrangement
of the argument in which no later element has a larger value than an earlier one.  How
elements of equal value are ordered is left open. -/
def Sorts (sort : List Open_Node → List Open_Node) : Prop :=
  ∀ l, (sort l).Perm l ∧ (sort l).Pairwise (fun a b => b.value ≤ a.value)

/-- One sorting function that meets the contract, used for the concrete runs. -/
def insertion_sort (l : List Open_Node) : List Open_Node :=
  l.insertionSort (fun a b => b.value ≤ a.value)

/-- The new content of the slot of destination `d`, whose slot holds `r`, in
`eval_edge_for_destinations` for the edge `edge` with index `ei`. -/
def eval_route (distance : Coord → Coord → ℚ) (ei : Nat) (edge : Routing_Edge)
    (origin : Route_Ref) (start_value end_value : ℚ) (d : Route_Ref) (r : Route) : Route :=
  if d.edge = some ei ∧ r.value = 180 then
    if start_value + edge.proportionate_valuation distance d.index d.pos
        < end_value + edge.valuation - edge.proportionate_valuation distance d.index d.pos then
      ⟨origin, d, [ei], start_value + edge.proportionate_valuation distance d.index d.pos⟩
    else
      ⟨origin, d, [ei],
        end_value + edge.valuation - edge.proportionate_valuation distance d.index d.pos⟩
  else r

def eval_edge_for_destinations (distance : Coord → Coord → ℚ) (ei : Nat) (edge : Routing_Edge)
    (destinations : List Route_Ref) (origin : Route_Ref) (start_value end_value : ℚ)
    (routes : List Route) : List Route :=
  List.zipWith (eval_route distance ei edge origin start_value end_value) destinations routes

/-- The call `final_tree.find(p)`: the entry of the node `p` points to, if there is one. -/
def final_tree_find (final_tree : List (Nat × Closed_Node)) (p : Option Nat) :
    Option Closed_Node :=
  match p with
  | none => none
  | some n => final_tree.lookup n

/-- One round of the loop over the incident edges of the node `cur` that has just been
closed with value `cur_value`; the state is `(open_nodes, routes)`.  The sum
`current.value + (*it)->valuation` is exact here; `visit_edge_double` rounds it. -/
def visit_edge (distance : Coord → Coord → ℚ) (rd : Routing_Data)
    (destinations : List Route_Ref) (origin : Route_Ref)
    (final_tree : List (Nat × Closed_Node)) (cur : Nat) (cur_value : ℚ)
    (st : List Open_Node × List Route) (ei : Nat) : Option (List Open_Node × List Route) :=
  match rd.edges[ei]? with
  | none => none
  | some e =>
    if e.start = some cur then
      match final_tree_find final_tree e.end_ with
      | none => some (st.1 ++ [⟨e.end_, some ei, cur_value + e.valuation⟩], st.2)
      | some c =>
        some (st.1, eval_edge_for_destinations distance ei e destinations origin cur_value
          c.value st.2)
    else if e.end_ = some cur then
      match final_tree_find final_tree e.start with
      | none => some (st.1 ++ [⟨e.start, some ei, cur_value + e.valuation⟩], st.2)
      | some c =>
        some (st.1, eval_edge_for_destinations distance ei e destinations origin c.value
          cur_value st.2)
    else some st

/-- The main loop of `Route_Tree::Route_Tree`, run for at most `fuel` rounds. -/
def main_loop (sort : List Open_Node → List Open_Node) (distance : Coord → Coord → ℚ)
    (rd : Routing_Data) (destinations : List Route_Ref) (origin : Route_Ref) :
    Nat → List (Nat × Closed_Node) → List Open_Node → List Route → Option (List Route)
  | _, _, [], routes => some routes
  | 0, _, _ :: _, _ => none
  | fuel + 1, final_tree, o :: os, routes =>
    match (sort (o :: os)).getLast? with
    | none => none
    | some current =>
      match current.node with
      | none => none
      | some cur =>
        match final_tree.lookup cur with
        | some _ => main_loop sort distance rd destinations origin fuel final_tree
            (sort (o :: os)).dropLast routes
        | none =>
          match rd.nodes[cur]? with
          | none => none
          | some node =>
            match node.edges.foldlM
                (visit_edge distance rd destinations origin
                  ((cur, ⟨current.arrived_from, current.value⟩) :: final_tree)
                  cur current.value)
                ((sort (o :: os)).dropLast, routes) with
            | none => none
            | some st =>
              main_loop sort distance rd destinations origin fuel
                ((cur, ⟨current.arrived_from, current.value⟩) :: final_tree) st.1 st.2

/-- The vector `routes` after the first loop of the constructor. -/
def initial_routes (origin : Route_Ref) (destinations : List Route_Ref) : List Route :=
  destinations.map (fun d =>
    if d.edge = origin.edge ∧ d.index = origin.index then
      ⟨origin, d, [], |d.pos - origin.pos|⟩
    else ⟨origin, d, [], 180⟩)

/-- The constructor `Route_Tree::Route_Tree`: the vector `routes` it leaves, when the main
loop is run for at most `fuel` rounds. -/
def Route_Tree (sort : List Open_Node → List Open_Node) (distance : Coord → Coord → ℚ)
    (rd : Routing_Data) (origin : Route_Ref) (destinations : List Route_Ref) (fuel : Nat) :
    Option (List Route) :=
  match origin.edge with
  | none => none
  | some oe =>
    match rd.edges[oe]? with
    | none => none
    | some e =>
      main_loop sort distance rd destinations origin fuel []
        [⟨e.start, some oe, e.proportionate_valuation distance origin.index origin.pos⟩,
         ⟨e.end_, some oe,
           e.valuation - e.proportionate_valuation distance origin.index origin.pos⟩]
        (initial_routes origin destinations)

/-! ## Specification vocabulary for the graph builder -/

/-- The usage tally one way with nd list `nds` gives to the id `y`: 2 when `y` is the first
nd, 2 when it is the last nd, 1 for each occurrence in between. -/
def way_tally (y : Nat) : List Nat → Nat
  | [] => 0
  | x :: xs =>
    (if x = y then 2 else 0) + xs.dropLast.count y
      + (if (x :: xs).getLast (List.cons_ne_nil x xs) = y then 2 else 0)

/-- The usage tally of the id `y` over all ways. -/
def usage_tally (data : Parsing_State) (y : Nat) : Nat :=
  (data.ways.map (fun w => way_tally y w.nds)).sum

/-- The number of interior way positions (neither first nor last) holding the id `y`. -/
def interior_occurrences (data : Parsing_State) (y : Nat) : Nat :=
  (data.ways.map (fun w => ((w.nds.drop 1).dropLast).count y)).sum

/-- The nd at position `i` of the way has a tally above 1 in `nc`. -/
def promoted_at (nc : List (Nat × Nat)) (way : Way) (i : Nat) : Prop :=
  ∃ nd, way.nds[i]? = some nd ∧ 1 < node_count_get nc nd

/-- The list `segs` of index ranges leads from `a` to `b`: each range starts where the one
before it ends, and no range is empty. -/
def Chain : Nat → List (Nat × Nat) → Nat → Prop
  | a, [], b => a = b
  | a, seg :: rest, b => seg.1 = a ∧ a < seg.2 ∧ Chain seg.2 rest b

/-- The dictionary entry written for the ranges `segs` when the first of their edges goes to
slot `base`. -/
def entries_of : Nat → List (Nat × Nat) → List (Nat × Nat)
  | _, [] => []
  | base, seg :: rest => (seg.1, base) :: entries_of (base + 1) rest

/-- The end of the index range of entry `j` of a dictionary entry list: the segment start of
the next entry, or `final` for the last entry. -/
def seg_end (entry : List (Nat × Nat)) (j : Nat) (final : Nat) : Nat :=
  match entry[j + 1]? with
  | some p => p.1
  | none => final

/-- What the loop over the nds of one way leaves behind for the ranges `segs`: the edges
`es` are those built by `edge_from_way` for the ranges, and every range ends inside the way
at a promoted nd. -/
def Segs_Built (distance : Coord → Coord → ℚ) (nc : List (Nat × Nat))
    (nodes : List Routing_Node) (data : Parsing_State) (way : Way)
    (segs : List (Nat × Nat)) (es : List Routing_Edge) : Prop :=
  es.map some = segs.map (fun seg => edge_from_way distance nodes way seg.1 seg.2 data) ∧
  ∀ seg ∈ segs, promoted_at nc way seg.1 ∧ promoted_at nc way seg.2

/-- The record of one way in the finished structures: its dictionary entry is the one
written for the ranges `segs` with first slot `base`, the ranges lead from the first to the
last nd, they start and end at promoted nds, and the edge store holds at slot `base + j` the
edge built for range `j`. -/
def Way_Built (distance : Coord → Coord → ℚ) (nc : List (Nat × Nat))
    (nodes : List Routing_Node) (data : Parsing_State) (edges : List Routing_Edge) (w : Way)
    (entry : List (Nat × Nat)) (segs : List (Nat × Nat)) (base : Nat) : Prop :=
  entry = entries_of base segs ∧ Chain 0 segs (w.nds.length - 1) ∧
  (∀ seg ∈ segs, promoted_at nc w seg.1 ∧ promoted_at nc w seg.2) ∧
  ∀ j seg, segs[j]? = some seg →
    ∃ e, edges[base + j]? = some e ∧ edge_from_way distance nodes w seg.1 seg.2 data = some e

/-- The number of times the edge with index `ei` belongs in the incident list of the node
with index `i`: once for `start`, once for `end`. -/
def incidence (edges : List Routing_Edge) (i ei : Nat) : Nat :=
  match edges[ei]? with
  | some e => (if e.start = some i then 1 else 0) + (if e.end_ = some i then 1 else 0)
  | none => 0

/-- What the constructor establishes for the `Routing_Data` `rd` built from `data`. -/
structure Built (distance : Coord → Coord → ℚ) (data : Parsing_State) (rd : Routing_Data) :
    Prop where
  nonempty : ∀ w ∈ data.ways, w.nds ≠ []
  ids : rd.nodes.map Routing_Node.id = (node_store data).map Routing_Node.id
  dict_length : rd.way_dictionary.length = data.ways.length
  ways : ∀ (k : Nat) (w : Way), data.ways[k]? = some w →
    ∃ (entry segs : List (Nat × Nat)) (base : Nat),
      rd.way_dictionary[k]? = some (w.id, entry) ∧
      Way_Built distance (node_count_of data) rd.nodes data rd.edges w entry segs base
  slots : ∀ ei, ei < rd.edges.length →
    ∃ (k : Nat) (w : Way) (entry segs : List (Nat × Nat)) (base j : Nat),
      data.ways[k]? = some w ∧ rd.way_dictionary[k]? = some (w.id, entry) ∧
      Way_Built distance (node_count_of data) rd.nodes data rd.edges w entry segs base ∧
      j < segs.length ∧ ei = base + j
  incident : ∀ (i : Nat) (n : Routing_Node), rd.nodes[i]? = some n →
    ∀ ei, n.edges.count ei = incidence rd.edges i ei

/-! ## Concrete inputs of the graph builder -/

/-- Four nodes on one meridian and two ways that meet at node 2, the second way ending
there. -/
def t_junction : Parsing_State :=
  ⟨[⟨1, 0, 0⟩, ⟨2, 1, 0⟩, ⟨3, 3, 0⟩, ⟨4, 2, 0⟩], [⟨7, [1, 2, 3]⟩, ⟨8, [4, 2]⟩]⟩

/-- The `Routing_Data` the constructor builds from `t_junction`. -/
def t_junction_rd : Routing_Data :=
  ⟨[⟨1, [0]⟩, ⟨2, [0, 1, 2]⟩, ⟨3, [1]⟩, ⟨4, [2]⟩],
   [⟨[⟨0, 0⟩, ⟨1, 0⟩], 1, some 0, some 1⟩, ⟨[⟨1, 0⟩, ⟨3, 0⟩], 2, some 1, some 2⟩,
    ⟨[⟨2, 0⟩, ⟨1, 0⟩], 1, some 3, some 1⟩],
   [(7, [(0, 0), (1, 1)]), (8, [(0, 2)])]⟩

/-- One way with id 5 between two nodes. -/
def single_way : Parsing_State := ⟨[⟨1, 0, 0⟩, ⟨2, 1, 0⟩], [⟨5, [1, 2]⟩]⟩

/-- The `Routing_Data` the constructor builds from `single_way`. -/
def single_way_rd : Routing_Data :=
  ⟨[⟨1, [0]⟩, ⟨2, [0]⟩], [⟨[⟨0, 0⟩, ⟨1, 0⟩], 1, some 0, some 1⟩], [(5, [(0, 0)])]⟩

/-! ## Specification vocabulary for the search -/

/-- The edge `e` has the nodes `a` and `b` as its two ends, in either direction. -/
def Connects (e : Routing_Edge) (a b : Nat) : Prop :=
  (e.start = some a ∧ e.end_ = some b) ∨ (e.start = some b ∧ e.end_ = some a)

/-- `Reaches rd seeds n w`: some path along edges of `rd` begins at a node `m` with
`(m, v)` among `seeds`, ends at the node `n`, and `w` is `v` plus the sum of the valuations
of its edges. -/
inductive Reaches (rd : Routing_Data) (seeds : List (Nat × ℚ)) : Nat → ℚ → Prop
  | seed (n : Nat) (v : ℚ) : (n, v) ∈ seeds → Reaches rd seeds n v
  | step (a b : Nat) (v : ℚ) (ei : Nat) (e : Routing_Edge) :
      Reaches rd seeds a v → rd.edges[ei]? = some e → Connects e a b →
      Reaches rd seeds b (v + e.valuation)

/-- `Walk rd a b w`: some node-to-node path along edges of `rd` leads from `a` to `b` and
the sum of the valuations of its edges is `w`. -/
def Walk (rd : Routing_Data) (a b : Nat) (w : ℚ) : Prop := Reaches rd [(a, 0)] b w

/-- `Shortest rd a b d`: `d` is the least sum of edge valuations over the node-to-node
paths from `a` to `b` (and there is such a path). -/
def Shortest (rd : Routing_Data) (a b : Nat) (d : ℚ) : Prop :=
  Walk rd a b d ∧ ∀ w, Walk rd a b w → d ≤ w

/-- The properties of a `Routing_Data` the search relies on: edge ends are non-null and
point into the node store, valuations are not negative, and the incident lists hold each
edge once per end. -/
structure Graph_OK (rd : Routing_Data) : Prop where
  ends : ∀ (ei : Nat) (e : Routing_Edge), rd.edges[ei]? = some e →
    ∃ a b, e.start = some a ∧ e.end_ = some b ∧ a < rd.nodes.length ∧ b < rd.nodes.length
  nonneg : ∀ (ei : Nat) (e : Routing_Edge), rd.edges[ei]? = some e → 0 ≤ e.valuation
  incident : ∀ (i : Nat) (n : Routing_Node), rd.nodes[i]? = some n →
    ∀ ei, n.edges.count ei = incidence rd.edges i ei

/-- The value `eval_edge_for_destinations` writes for an anchor at proportionate valuation
`p` on an edge of valuation `val` whose ends are closed with `start_value` and
`end_value`. -/
def anchor_value (start_value end_value p val : ℚ) : ℚ :=
  if start_value + p < end_value + val - p then start_value + p else end_value + val - p

/-- The value the evaluator assigns to the destination `d` once both ends of its edge are
in `final_tree`; `none` while they are not (or when `d` has no edge in the edge store). -/
def settled_value (distance : Coord → Coord → ℚ) (rd : Routing_Data)
    (final_tree : List (Nat × Closed_Node)) (d : Route_Ref) : Option ℚ :=
  match d.edge with
  | none => none
  | some de =>
    match rd.edges[de]? with
    | none => none
    | some ed =>
      match final_tree_find final_tree ed.start, final_tree_find final_tree ed.end_ with
      | some cs, some ce =>
        some (anchor_value cs.value ce.value
          (ed.proportionate_valuation distance d.index d.pos) ed.valuation)
      | _, _ => none

/-- The value of the slot of destination `d` in the initial routes vector. -/
def init_value (origin d : Route_Ref) : ℚ :=
  if d.edge = origin.edge ∧ d.index = origin.index then |d.pos - origin.pos| else 180

/-- The value a slot holds when it started with `init` and the evaluator has assigned
`settled` (if anything). -/
def route_value (init : ℚ) (settled : Option ℚ) : ℚ :=
  if init = 180 then
    match settled with
    | some v => v
    | none => 180
  else init

/-- The sum of the lengths of the incident lists of the nodes of `ns` (the nodes with
indices `i`, `i + 1`, ...) that are not in `final_tree`. -/
def pending (final_tree : List (Nat × Closed_Node)) : Nat → List Routing_Node → Nat
  | _, [] => 0
  | i, n :: ns =>
    (if (final_tree.lookup i).isSome then 0 else n.edges.length) + pending final_tree (i + 1) ns

/-- A number of rounds that suffices for the main loop: two seeds and one push per entry of
an incident list. -/
def fuel_bound (rd : Routing_Data) : Nat := 2 + pending [] 0 rd.nodes

/-- The loop invariant of the main loop. -/
structure Inv (distance : Coord → Coord → ℚ) (rd : Routing_Data) (seeds : List (Nat × ℚ))
    (origin : Route_Ref) (destinations : List Route_Ref)
    (final_tree : List (Nat × Closed_Node)) (open_nodes : List Open_Node)
    (routes : List Route) : Prop where
  closed_reach : ∀ (n : Nat) (c : Closed_Node), final_tree.lookup n = some c →
    Reaches rd seeds n c.value
  closed_least : ∀ (n : Nat) (c : Closed_Node), final_tree.lookup n = some c →
    ∀ w, Reaches rd seeds n w → c.value ≤ w
  open_reach : ∀ o ∈ open_nodes, ∃ n, o.node = some n ∧ n < rd.nodes.length ∧
    Reaches rd seeds n o.value
  seeds_cov : ∀ (n : Nat) (v : ℚ), (n, v) ∈ seeds →
    (∃ c, final_tree.lookup n = some c) ∨ ∃ o ∈ open_nodes, o.node = some n ∧ o.value ≤ v
  frontier : ∀ (a : Nat) (c : Closed_Node), final_tree.lookup a = some c →
    ∀ (ei : Nat) (e : Routing_Edge) (b : Nat), rd.edges[ei]? = some e → Connects e a b →
    (∃ c1, final_tree.lookup b = some c1) ∨
      ∃ o ∈ open_nodes, o.node = some b ∧ o.value ≤ c.value + e.valuation
  routes_length : routes.length = destinations.length
  routes_value : ∀ (k : Nat) (d : Route_Ref) (r : Route), destinations[k]? = some d →
    routes[k]? = some r →
    r.value = route_value (init_value origin d) (settled_value distance rd final_tree d)

/-- How one round, or a run of rounds over the edges `L`, of the loop over the incident
edges changes the value of the slot of destination `d` from `x` to `y`, where `settled` is
the value the evaluator assigns to `d` for the closed nodes of these rounds. -/
structure Route_Run (L : List Nat) (settled : Option ℚ) (d : Route_Ref) (x y : ℚ) : Prop where
  keep_other : x ≠ 180 → y = x
  keep_unsettled : settled = none → y = x
  keep_off : (∀ de, d.edge = some de → de ∉ L) → y = x
  assign : ∀ de v, d.edge = some de → de ∈ L → settled = some v → x = 180 → y = v
  stay : ∀ v, settled = some v → x = v → y = v

/-- The two seeds of the search from an anchor on the edge `eo` at proportionate valuation
`pv`: the start of the edge at `pv`, the end at `valuation - pv`. -/
def seeds_of (sa ta : Nat) (eo : Routing_Edge) (pv : ℚ) : List (Nat × ℚ) :=
  [(sa, pv), (ta, eo.valuation - pv)]

/-- What a finished run of the search from `origin` leaves: `routes` and the closed nodes
`ft` agree with the seeded least path sums. -/
structure Search_Done (distance : Coord → Coord → ℚ) (rd : Routing_Data)
    (seeds : List (Nat × ℚ)) (origin : Route_Ref) (dests : List Route_Ref)
    (ft : List (Nat × Closed_Node)) (routes : List Route) : Prop where
  length : routes.length = dests.length
  value : ∀ (k : Nat) (d : Route_Ref) (r : Route), dests[k]? = some d → routes[k]? = some r →
    r.value = route_value (init_value origin d) (settled_value distance rd ft d)
  closed_reach : ∀ (n : Nat) (c : Closed_Node), ft.lookup n = some c →
    Reaches rd seeds n c.value
  closed_all : ∀ (n : Nat) (w : ℚ), Reaches rd seeds n w →
    ∃ c, ft.lookup n = some c ∧ c.value ≤ w

/-- `Through rd seeds_a seeds_b w`: `w` is the length of a route that leaves the first
anchor through one of its seeds, follows a node-to-node path, and enters the second anchor
through one of its seeds. -/
def Through (rd : Routing_Data) (seeds_a seeds_b : List (Nat × ℚ)) (w : ℚ) : Prop :=
  ∃ (x : Nat) (vx : ℚ) (y : Nat) (vy c : ℚ), (x, vx) ∈ seeds_a ∧ (y, vy) ∈ seeds_b ∧
    Walk rd x y c ∧ w = vx + c + vy

/-! ## Concrete inputs of the search -/

/-- An anchor in the middle of the edge in slot 0 of `t_junction_rd` (between the nodes 1
and 2). -/
def anchor_a : Route_Ref := ⟨"A", some 0, 0, 1 / 2⟩

/-- An anchor on the edge in slot 2 of `t_junction_rd` (from node 4 to node 2), a quarter
of a degree from node 4. -/
def anchor_b : Route_Ref := ⟨"B", some 2, 0, 1 / 4⟩

/-- The edge in slot 0 of `t_junction_rd`. -/
def t_edge_0 : Routing_Edge := ⟨[⟨0, 0⟩, ⟨1, 0⟩], 1, some 0, some 1⟩

/-- The edge in slot 2 of `t_junction_rd`. -/
def t_edge_2 : Routing_Edge := ⟨[⟨2, 0⟩, ⟨1, 0⟩], 1, some 3, some 1⟩

/-- One way with an interior node that is no junction: a single edge with two segments. -/
def two_segment_way : Parsing_State :=
  ⟨[⟨1, 0, 0⟩, ⟨2, 1, 0⟩, ⟨3, 2, 0⟩], [⟨5, [1, 2, 3]⟩]⟩

/-- The `Routing_Data` the constructor builds from `two_segment_way`. -/
def two_segment_rd : Routing_Data :=
  ⟨[⟨1, [0]⟩, ⟨3, [0]⟩], [⟨[⟨0, 0⟩, ⟨1, 0⟩, ⟨2, 0⟩], 2, some 0, some 1⟩], [(5, [(0, 0)])]⟩

/-- One way of a single segment along the parallel of latitude 60 degrees, from longitude
-50 to longitude 50: its length is 200. -/
def long_segment : Parsing_State := ⟨[⟨1, 60, -50⟩, ⟨2, 60, 50⟩], [⟨5, [1, 2]⟩]⟩

/-- The `Routing_Data` the constructor builds from `long_segment`. -/
def long_segment_rd : Routing_Data :=
  ⟨[⟨1, [0]⟩, ⟨2, [0]⟩], [⟨[⟨60, -50⟩, ⟨60, 50⟩], 200, some 0, some 1⟩], [(5, [(0, 0)])]⟩

/-! ## Specification vocabulary for traces -/

/-- The sum of the distances between the consecutive points of a trace. -/
def seg_sum (distance : Coord → Coord → ℚ) : List Coord → ℚ
  | a :: b :: rest => distance a b + seg_sum distance (b :: rest)
  | _ => 0

/-! ## Further concrete inputs -/

/-- One way whose first nd, the id 1, is not among the parsed nodes; the nodes 2 and 3 lie
on the prime meridian at the latitudes 1 and 2. -/
def unresolved_first : Parsing_State := ⟨[⟨2, 1, 0⟩, ⟨3, 2, 0⟩], [⟨5, [1, 2, 3]⟩]⟩

/-- The `Routing_Data` the constructor builds from `unresolved_first`. -/
def unresolved_first_rd : Routing_Data :=
  ⟨[⟨1, [0]⟩, ⟨3, [0]⟩], [⟨[⟨1, 0⟩, ⟨2, 0⟩], 2, some 0, some 1⟩], [(5, [(0, 0)])]⟩

/-- Two ways that share no node: the nodes 1 and 2 and the nodes 3 and 4, all on one
meridian. -/
def two_ways : Parsing_State :=
  ⟨[⟨1, 0, 0⟩, ⟨2, 1, 0⟩, ⟨3, 5, 0⟩, ⟨4, 6, 0⟩], [⟨5, [1, 2]⟩, ⟨6, [3, 4]⟩]⟩

/-- The `Routing_Data` the constructor builds from `two_ways`. -/
def two_ways_rd : Routing_Data :=
  ⟨[⟨1, [0]⟩, ⟨2, [0]⟩, ⟨3, [1]⟩, ⟨4, [1]⟩],
   [⟨[⟨0, 0⟩, ⟨1, 0⟩], 1, some 0, some 1⟩, ⟨[⟨5, 0⟩, ⟨6, 0⟩], 1, some 2, some 3⟩],
   [(5, [(0, 0)]), (6, [(0, 1)])]⟩

/-- One way with a single nd. -/
def one_nd_way : Parsing_State := ⟨[⟨1, 0, 0⟩], [⟨5, [1]⟩]⟩

/-- The `Routing_Data` the constructor builds from `one_nd_way`: no edge, and an empty
entry list for the way. -/
def one_nd_way_rd : Routing_Data := ⟨[⟨1, []⟩], [], [(5, [])]⟩

/-- Two ways over three nodes of one meridian, listed with the larger way id first. -/
def descending_ways : Parsing_State :=
  ⟨[⟨1, 0, 0⟩, ⟨2, 1, 0⟩, ⟨3, 2, 0⟩], [⟨8, [1, 2]⟩, ⟨7, [2, 3]⟩]⟩

/-- The `Routing_Data` the constructor builds from `descending_ways`. -/
def descending_ways_rd : Routing_Data :=
  ⟨[⟨1, [0]⟩, ⟨2, [0, 1]⟩, ⟨3, [1]⟩],
   [⟨[⟨0, 0⟩, ⟨1, 0⟩], 1, some 0, some 1⟩, ⟨[⟨1, 0⟩, ⟨2, 0⟩], 1, some 1, some 2⟩],
   [(8, [(0, 0)]), (7, [(0, 1)])]⟩

/-! ## The main loop with counters -/

/-- The main loop of `Route_Tree::Route_Tree` as in `main_loop`, returning besides `routes`
the map `final_tree` it leaves (each `insert` puts one entry in front) and the number of
`open_nodes.push_back` calls; `pushes` is that number on entry.  The loop over the incident
edges only appends to `open_nodes`, so the calls of one round are counted by the growth of
the list. -/
def main_loop_counted (sort : List Open_Node → List Open_Node)
    (distance : Coord → Coord → ℚ) (rd : Routing_Data) (destinations : List Route_Ref)
    (origin : Route_Ref) :
    Nat → List (Nat × Closed_Node) → List Open_Node → List Route → Nat →
      Option (List Route × List (Nat × Closed_Node) × Nat)
  | _, final_tree, [], routes, pushes => some (routes, final_tree, pushes)
  | 0, _, _ :: _, _, _ => none
  | fuel + 1, final_tree, o :: os, routes, pushes =>
    match (sort (o :: os)).getLast? with
    | none => none
    | some current =>
      match current.node with
      | none => none
      | some cur =>
        match final_tree.lookup cur with
        | some _ => main_loop_counted sort distance rd destinations origin fuel final_tree
            (sort (o :: os)).dropLast routes pushes
        | none =>
          match rd.nodes[cur]? with
          | none => none
          | some node =>
            match node.edges.foldlM
                (visit_edge distance rd destinations origin
                  ((cur, ⟨current.arrived_from, current.value⟩) :: final_tree)
                  cur current.value)
                ((sort (o :: os)).dropLast, routes) with
            | none => none
            | some st =>
              main_loop_counted sort distance rd destinations origin fuel
                ((cur, ⟨current.arrived_from, current.value⟩) :: final_tree) st.1 st.2
                (pushes + (st.1.length - (sort (o :: os)).dropLast.length))

/-- The constructor `Route_Tree::Route_Tree` as in `Route_Tree`, with the counters of
`main_loop_counted`; the two seeds are the first two calls of `push_back`. -/
def Route_Tree_counted (sort : List Open_Node → List Open_Node)
    (distance : Coord → Coord → ℚ) (rd : Routing_Data) (origin : Route_Ref)
    (destinations : List Route_Ref) (fuel : Nat) :
    Option (List Route × List (Nat × Closed_Node) × Nat) :=
  match origin.edge with
  | none => none
  | some oe =>
    match rd.edges[oe]? with
    | none => none
    | some e =>
      main_loop_counted sort distance rd destinations origin fuel []
        [⟨e.start, some oe, e.proportionate_valuation distance origin.index origin.pos⟩,
         ⟨e.end_, some oe,
           e.valuation - e.proportionate_valuation distance origin.index origin.pos⟩]
        (initial_routes origin destinations) 2

/-- Three anchors on the single segment of `long_segment_rd`, at the offsets 10, 100 and
190 of its length 200. -/
def long_a : Route_Ref := ⟨"A", some 0, 0, 10⟩

def long_b : Route_Ref := ⟨"B", some 0, 0, 100⟩

def long_c : Route_Ref := ⟨"C", some 0, 0, 190⟩

/-- A second anchor on the edge in slot 0 of `t_junction_rd`, in the same segment as
`anchor_a`, a quarter of a degree from node 1. -/
def anchor_a2 : Route_Ref := ⟨"A2", some 0, 0, 1 / 4⟩

/-- The function `distance` restricted to pairs of points on one meridian, on the parallel
of latitude 60 degrees (where `lon_scale` is 2) or on the equator (where `lon_scale` is 1);
the inputs below hold no other pairs. -/
def grid_distance (a b : Coord) : ℚ :=
  if a.lon = b.lon then |b.lat - a.lat|
  else if a.lat = 60 ∧ b.lat = 60 then |b.lon - a.lon| * 2
  else if a.lat = 0 ∧ b.lat = 0 then |b.lon - a.lon|
  else 0

/-- Two ways between the nodes 1 and 2 on the parallel of 60 degrees, at the longitudes -65
and 65: way 5 follows the parallel in one segment of length 260, way 6 goes down the
meridian to the equator, along the equator and up again, with length 60 + 130 + 60. -/
def detour : Parsing_State :=
  ⟨[⟨1, 60, -65⟩, ⟨2, 60, 65⟩, ⟨3, 0, -65⟩, ⟨4, 0, 65⟩], [⟨5, [1, 2]⟩, ⟨6, [1, 3, 4, 2]⟩]⟩

/-- The `Routing_Data` the constructor builds from `detour`. -/
def detour_rd : Routing_Data :=
  ⟨[⟨1, [0, 1]⟩, ⟨2, [0, 1]⟩],
   [⟨[⟨60, -65⟩, ⟨60, 65⟩], 260, some 0, some 1⟩,
    ⟨[⟨60, -65⟩, ⟨0, -65⟩, ⟨0, 65⟩, ⟨60, 65⟩], 250, some 0, some 1⟩],
   [(5, [(0, 0)]), (6, [(0, 1)])]⟩

/-! ## Double arithmetic

The definitions above read every `double` operation as the exact operation on rationals.
The definitions of this section and the next round the result of every operation to the
nearest binary64 value, ties to even, as the machine does; a `double` is the rational it
stands for.  Infinities and NaN are left out: the magnitudes of the inputs used below stay
far from the overflow threshold. -/

/-- The power `2 ^ e` as a rational. -/
def pow2 : Int → ℚ
  | Int.ofNat k => ((2 ^ k : Nat) : ℚ)
  | Int.negSucc k => 1 / ((2 ^ (k + 1) : Nat) : ℚ)

/-- The loop of `floor_log2`, run for at most `fuel` halvings. -/
def floor_log2_loop : Nat → Nat → Nat
  | 0, _ => 0
  | fuel + 1, n => if n < 2 then 0 else floor_log2_loop fuel (n / 2) + 1

/-- The number `k` with `2 ^ k ≤ n < 2 ^ (k + 1)`, for `n ≠ 0`. -/
def floor_log2 (n : Nat) : Nat := floor_log2_loop n n

/-- The integer `e` with `2 ^ e ≤ |q| < 2 ^ (e + 1)`, for `q ≠ 0`: the difference of the
binary lengths of numerator and denominator, or one less. -/
def ilog2 (q : ℚ) : Int :=
  if pow2 ((floor_log2 q.num.natAbs : Int) - (floor_log2 q.den : Int)) ≤ |q| then
    (floor_log2 q.num.natAbs : Int) - (floor_log2 q.den : Int)
  else (floor_log2 q.num.natAbs : Int) - (floor_log2 q.den : Int) - 1

/-- The integer nearest to `x`, the even one of the two when `x` lies halfway. -/
def round_half_even (x : ℚ) : Int :=
  if 2 * Int.fmod x.num x.den < x.den then Int.fdiv x.num x.den
  else if (x.den : Int) < 2 * Int.fmod x.num x.den then Int.fdiv x.num x.den + 1
  else if Int.fdiv x.num x.den % 2 = 0 then Int.fdiv x.num x.den
  else Int.fdiv x.num x.den + 1

/-- The binary64 value nearest to `q`, ties to even: a multiple of `2 ^ (e - 52)` for
`2 ^ e ≤ |q| < 2 ^ (e + 1)`, and of `2 ^ (-1074)` in the subnormal range.  It is also the
value a decimal literal is read as. -/
def round_double (q : ℚ) : ℚ :=
  if q = 0 then 0
  else (round_half_even (q / pow2 (max (ilog2 q - 52) (-1074))) : ℚ)
    * pow2 (max (ilog2 q - 52) (-1074))

/-- The operator `+` on `double`. -/
def fl_add (a b : ℚ) : ℚ := round_double (a + b)

/-- The operator `-` on `double`. -/
def fl_sub (a b : ℚ) : ℚ := round_double (a - b)

/-- The operator `*` on `double`. -/
def fl_mul (a b : ℚ) : ℚ := round_double (a * b)

/-- The operator `/` on `double`, for a divisor that is not 0. -/
def fl_div (a b : ℚ) : ℚ := round_double (a / b)

/-- The loop of `isqrt`: the bits of the root from bit `k - 1` down. -/
def isqrt_loop (n : Nat) : Nat → Nat → Nat
  | 0, r => r
  | k + 1, r => if (r + 2 ^ k) ^ 2 ≤ n then isqrt_loop n k (r + 2 ^ k) else isqrt_loop n k r

/-- The largest `r` with `r ^ 2 ≤ n`. -/
def isqrt (n : Nat) : Nat := isqrt_loop n (floor_log2 n / 2 + 1) 0

/-- The 53-bit significand of the rounded square root of `x`, for `2 ^ 104 ≤ x < 2 ^ 106`:
`x` is compared with the square of the midpoint `isqrt ⌊x⌋ + 1/2`. -/
def sqrt_significand (x : ℚ) : Nat :=
  if x < (isqrt (Int.fdiv x.num x.den).toNat : ℚ) * (isqrt (Int.fdiv x.num x.den).toNat : ℚ)
      + (isqrt (Int.fdiv x.num x.den).toNat : ℚ) + 1 / 4 then
    isqrt (Int.fdiv x.num x.den).toNat
  else if (isqrt (Int.fdiv x.num x.den).toNat : ℚ) * (isqrt (Int.fdiv x.num x.den).toNat : ℚ)
      + (isqrt (Int.fdiv x.num x.den).toNat : ℚ) + 1 / 4 < x then
    isqrt (Int.fdiv x.num x.den).toNat + 1
  else if isqrt (Int.fdiv x.num x.den).toNat % 2 = 0 then isqrt (Int.fdiv x.num x.den).toNat
  else isqrt (Int.fdiv x.num x.den).toNat + 1

/-- The function `sqrt` on a `double` that is not negative: the binary64 value nearest to
the square root, a multiple of `2 ^ u` with `u = ⌊ilog2 q / 2⌋ - 52`. -/
def fl_sqrt (q : ℚ) : ℚ :=
  if q ≤ 0 then 0
  else (sqrt_significand (q / pow2 (2 * (Int.fdiv (ilog2 q) 2 - 52))) : ℚ)
    * pow2 (Int.fdiv (ilog2 q) 2 - 52)

/-- The function `distance` in double arithmetic at two points of one meridian: there
`b.lon - a.lon` is 0, the summand `(b.lon - a.lon) * lon_scale * (b.lon - a.lon) * lon_scale`
is 0 for the finite `lon_scale`, and the result is the rounded root of the rounded square of
the rounded difference of the latitudes. -/
def meridian_distance_double (a b : Coord) : ℚ :=
  fl_sqrt (fl_add (fl_mul (fl_sub b.lat a.lat) (fl_sub b.lat a.lat)) 0)

/-! ## The routing code in double arithmetic

Copies of the definitions above that do arithmetic on `double`, with every operation
rounded; all else is unchanged. -/

/-- One round of the trace loop of `edge_from_way`, as `trace_step`, with the rounded
`edge.valuation += distance(last_coord, coord)`. -/
def trace_step_double (distance : Coord → Coord → ℚ) (data : Parsing_State) (way : Way)
    (start : Nat) (st : List Coord × ℚ × Coord) (i : Nat) :
    Option (List Coord × ℚ × Coord) :=
  match way.nds[i]? with
  | none => none
  | some nd =>
    match data.nodes[lower_bound Node.id data.nodes nd]? with
    | none => some st
    | some n =>
      if n.id = nd then
        some (st.1 ++ [⟨n.lat, n.lon⟩],
          (if start < i then fl_add st.2.1 (distance st.2.2 ⟨n.lat, n.lon⟩) else st.2.1),
          ⟨n.lat, n.lon⟩)
      else some st

def edge_from_way_double (distance : Coord → Coord → ℚ) (nodes : List Routing_Node)
    (way : Way) (start end_ : Nat) (data : Parsing_State) : Option Routing_Edge :=
  match way.nds[start]? with
  | none => none
  | some first =>
    match way.nds[end_]? with
    | none => none
    | some last =>
      match (List.range' start (end_ + 1 - start)).foldlM
          (trace_step_double distance data way start) ([], 0, ⟨0, 0⟩) with
      | none => none
      | some st => some ⟨st.1, st.2.1, node_ptr nodes first, node_ptr nodes last⟩

def way_step_double (distance : Coord → Coord → ℚ) (node_count : List (Nat × Nat))
    (nodes : List Routing_Node) (data : Parsing_State) (way : Way)
    (st : Nat × List (Nat × Nat) × List Routing_Edge) (i : Nat) :
    Option (Nat × List (Nat × Nat) × List Routing_Edge) :=
  match way.nds[i]? with
  | none => none
  | some nd =>
    if 1 < node_count_get node_count nd then
      match edge_from_way_double distance nodes way st.1 i data with
      | none => none
      | some e => some (i, st.2.1 ++ [(st.1, st.2.2.length)], st.2.2 ++ [e])
    else some st

def process_way_double (distance : Coord → Coord → ℚ) (node_count : List (Nat × Nat))
    (nodes : List Routing_Node) (data : Parsing_State) (edges : List Routing_Edge) (way : Way) :
    Option (List (Nat × Nat) × List Routing_Edge) :=
  match (List.range' 1 (way.nds.length - 1)).foldlM
      (way_step_double distance node_count nodes data way) (0, [], edges) with
  | none => none
  | some st =>
    if st.1 < size_minus_one way.nds.length then
      match edge_from_way_double distance nodes way st.1
          (size_minus_one way.nds.length % 2 ^ 32) data with
      | none => none
      | some e => some (st.2.1 ++ [(st.1, st.2.2.length)], st.2.2 ++ [e])
    else some (st.2.1, st.2.2)

def ways_step_double (distance : Coord → Coord → ℚ) (node_count : List (Nat × Nat))
    (nodes : List Routing_Node) (data : Parsing_State)
    (st : List Routing_Edge × List (Nat × List (Nat × Nat))) (way : Way) :
    Option (List Routing_Edge × List (Nat × List (Nat × Nat))) :=
  match process_way_double distance node_count nodes data st.1 way with
  | none => none
  | some r => some (r.2, st.2 ++ [(way.id, r.1)])

/-- The constructor `Routing_Data::Routing_Data(const Parsing_State&)` in double
arithmetic. -/
def Routing_Data.build_double (distance : Coord → Coord → ℚ) (data : Parsing_State) :
    Option Routing_Data :=
  match data.ways.foldlM
      (ways_step_double distance (node_count_of data) (node_store data) data) ([], []) with
  | none => none
  | some st =>
    match (List.range st.1.length).foldlM (attach_edge st.1) (node_store data) with
    | none => none
    | some nodes => some ⟨nodes, st.1, st.2⟩

/-- The loop of `proportionate_valuation`, as `pv_loop`, with the rounded
`partial_length = total_length + pos` and `total_length += distance_`. -/
def pv_loop_double (distance : Coord → Coord → ℚ) (index : Nat) (pos : ℚ) :
    List Coord → Nat → ℚ × ℚ → ℚ × ℚ
  | a :: b :: rest, i, st =>
    pv_loop_double distance index pos (b :: rest) (i + 1)
      (fl_add st.1 (distance a b), if i = (index + 1) % 2 ^ 32 then fl_add st.1 pos else st.2)
  | _, _, st => st

/-- The body of `proportionate_valuation` for a non-null edge: the product
`edge->valuation * partial_length` is rounded, then the quotient. -/
def Routing_Edge.proportionate_valuation_double (distance : Coord → Coord → ℚ)
    (edge : Routing_Edge) (index : Nat) (pos : ℚ) : ℚ :=
  if (pv_loop_double distance index pos edge.trace 1 (0, 0)).1 = 0 then edge.valuation
  else fl_div (fl_mul edge.valuation (pv_loop_double distance index pos edge.trace 1 (0, 0)).2)
    (pv_loop_double distance index pos edge.trace 1 (0, 0)).1

/-- The function `Route_Ref::proportionate_valuation` in double arithmetic. -/
def Route_Ref.proportionate_valuation_double (distance : Coord → Coord → ℚ)
    (rd : Routing_Data) (r : Route_Ref) : Option ℚ :=
  match r.edge with
  | none => some 0
  | some ei =>
    match rd.edges[ei]? with
    | none => none
    | some e => some (e.proportionate_valuation_double distance r.index r.pos)

/-- The new content of a slot in `eval_edge_for_destinations`, as `eval_route`: the sums
`start_value + pv` and `end_value + edge.valuation - pv` are rounded operation by
operation, from left to right. -/
def eval_route_double (distance : Coord → Coord → ℚ) (ei : Nat) (edge : Routing_Edge)
    (origin : Route_Ref) (start_value end_value : ℚ) (d : Route_Ref) (r : Route) : Route :=
  if d.edge = some ei ∧ r.value = 180 then
    if fl_add start_value (edge.proportionate_valuation_double distance d.index d.pos)
        < fl_sub (fl_add end_value edge.valuation)
            (edge.proportionate_valuation_double distance d.index d.pos) then
      ⟨origin, d, [ei],
        fl_add start_value (edge.proportionate_valuation_double distance d.index d.pos)⟩
    else
      ⟨origin, d, [ei],
        fl_sub (fl_add end_value edge.valuation)
          (edge.proportionate_valuation_double distance d.index d.pos)⟩
  else r

def eval_edge_for_destinations_double (distance : Coord → Coord → ℚ) (ei : Nat)
    (edge : Routing_Edge) (destinations : List Route_Ref) (origin : Route_Ref)
    (start_value end_value : ℚ) (routes : List Route) : List Route :=
  List.zipWith (eval_route_double distance ei edge origin start_value end_value) destinations
    routes

/-- One round of the loop over the incident edges, as `visit_edge`, with the rounded
`current.value + (*it)->valuation`. -/
def visit_edge_double (distance : Coord → Coord → ℚ) (rd : Routing_Data)
    (destinations : List Route_Ref) (origin : Route_Ref)
    (final_tree : List (Nat × Closed_Node)) (cur : Nat) (cur_value : ℚ)
    (st : List Open_Node × List Route) (ei : Nat) : Option (List Open_Node × List Route) :=
  match rd.edges[ei]? with
  | none => none
  | some e =>
    if e.start = some cur then
      match final_tree_find final_tree e.end_ with
      | none => some (st.1 ++ [⟨e.end_, some ei, fl_add cur_value e.valuation⟩], st.2)
      | some c =>
        some (st.1, eval_edge_for_destinations_double distance ei e destinations origin
          cur_value c.value st.2)
    else if e.end_ = some cur then
      match final_tree_find final_tree e.start with
      | none => some (st.1 ++ [⟨e.start, some ei, fl_add cur_value e.valuation⟩], st.2)
      | some c =>
        some (st.1, eval_edge_for_destinations_double distance ei e destinations origin
          c.value cur_value st.2)
    else some st

/-- The main loop of `Route_Tree::Route_Tree` in double arithmetic, run for at most `fuel`
rounds. -/
def main_loop_double (sort : List Open_Node → List Open_Node) (distance : Coord → Coord → ℚ)
    (rd : Routing_Data) (destinations : List Route_Ref) (origin : Route_Ref) :
    Nat → List (Nat × Closed_Node) → List Open_Node → List Route → Option (List Route)
  | _, _, [], routes => some routes
  | 0, _, _ :: _, _ => none
  | fuel + 1, final_tree, o :: os, routes =>
    match (sort (o :: os)).getLast? with
    | none => none
    | some current =>
      match current.node with
      | none => none
      | some cur =>
        match final_tree.lookup cur with
        | some _ => main_loop_double sort distance rd destinations origin fuel final_tree
            (sort (o :: os)).dropLast routes
        | none =>
          match rd.nodes[cur]? with
          | none => none
          | some node =>
            match node.edges.foldlM
                (visit_edge_double distance rd destinations origin
                  ((cur, ⟨current.arrived_from, current.value⟩) :: final_tree)
                  cur current.value)
                ((sort (o :: os)).dropLast, routes) with
            | none => none
            | some st =>
              main_loop_double sort distance rd destinations origin fuel
                ((cur, ⟨current.arrived_from, current.value⟩) :: final_tree) st.1 st.2

/-- The vector `routes` after the first loop of the constructor, with the rounded
`fabs(it->pos - origin.pos)`. -/
def initial_routes_double (origin : Route_Ref) (destinations : List Route_Ref) : List Route :=
  destinations.map (fun d =>
    if d.edge = origin.edge ∧ d.index = origin.index then
      ⟨origin, d, [], |fl_sub d.pos origin.pos|⟩
    else ⟨origin, d, [], 180⟩)

/-- The constructor `Route_Tree::Route_Tree` in double arithmetic. -/
def Route_Tree_double (sort : List Open_Node → List Open_Node)
    (distance : Coord → Coord → ℚ) (rd : Routing_Data) (origin : Route_Ref)
    (destinations : List Route_Ref) (fuel : Nat) : Option (List Route) :=
  match origin.edge with
  | none => none
  | some oe =>
    match rd.edges[oe]? with
    | none => none
    | some e =>
      main_loop_double sort distance rd destinations origin fuel []
        [⟨e.start, some oe, e.proportionate_valuation_double distance origin.index origin.pos⟩,
         ⟨e.end_, some oe,
           fl_sub e.valuation
             (e.proportionate_valuation_double distance origin.index origin.pos)⟩]
        (initial_routes_double origin destinations)

/-! ## Concrete inputs in double arithmetic -/

/-- One way between the nodes at the latitudes 0 and 0.1 of one meridian. -/
def tenth_way : Parsing_State :=
  ⟨[⟨1, 0, 0⟩, ⟨2, round_double (1 / 10), 0⟩], [⟨5, [1, 2]⟩]⟩

/-- The `Routing_Data` the constructor builds from `tenth_way` in double arithmetic; the
valuation of the edge is the double 0.1. -/
def tenth_way_rd : Routing_Data :=
  ⟨[⟨1, [0]⟩, ⟨2, [0]⟩],
   [⟨[⟨0, 0⟩, ⟨round_double (1 / 10), 0⟩], round_double (1 / 10), some 0, some 1⟩],
   [(5, [(0, 0)])]⟩

/-- Four ways in a row along one meridian, between the nodes at the latitudes 0, 0.1, 0.3,
1 and 2. -/
def decimal_path : Parsing_State :=
  ⟨[⟨1, 0, 0⟩, ⟨2, round_double (1 / 10), 0⟩, ⟨3, round_double (3 / 10), 0⟩, ⟨4, 1, 0⟩,
    ⟨5, 2, 0⟩],
   [⟨5, [1, 2]⟩, ⟨6, [2, 3]⟩, ⟨7, [3, 4]⟩, ⟨8, [4, 5]⟩]⟩

/-- The `Routing_Data` the constructor builds from `decimal_path` in double arithmetic; the
valuations are the doubles 0.1, 0.19999999999999998, 0.7 and 1. -/
def decimal_path_rd : Routing_Data :=
  ⟨[⟨1, [0]⟩, ⟨2, [0, 1]⟩, ⟨3, [1, 2]⟩, ⟨4, [2, 3]⟩, ⟨5, [3]⟩],
   [⟨[⟨0, 0⟩, ⟨round_double (1 / 10), 0⟩], round_double (1 / 10), some 0, some 1⟩,
    ⟨[⟨round_double (1 / 10), 0⟩, ⟨round_double (3 / 10), 0⟩],
      fl_sub (round_double (3 / 10)) (round_double (1 / 10)), some 1, some 2⟩,
    ⟨[⟨round_double (3 / 10), 0⟩, ⟨1, 0⟩], round_double (7 / 10), some 2, some 3⟩,
    ⟨[⟨1, 0⟩, ⟨2, 0⟩], 1, some 3, some 4⟩],
   [(5, [(0, 0)]), (6, [(0, 1)]), (7, [(0, 2)]), (8, [(0, 3)])]⟩

/-! # Theorems -/

/-! ## Lemmas on `lower_bound` and `node_count` -/

theorem lower_bound_le {α : Type} (key : α → Nat) (l : List α) (v : Nat) :
    lower_bound key l v ≤ l.length := by
  induction l with
  | nil => simp [lower_bound]
  | cons x xs ih =>
    simp only [lower_bound]
    split
    · simpa using ih
    · simp

theorem lower_bound_eq_of_getElem {α : Type} (key : α → Nat) (l : List α)
    (hs : (l.map key).Pairwise (· < ·)) (i : Nat) (x : α) (hx : l[i]? = some x) :
    lower_bound key l (key x) = i := by
  induction l generalizing i with
  | nil => simp at hx
  | cons a t ih =>
    simp only [List.map_cons, List.pairwise_cons] at hs
    cases i with
    | zero =>
      simp at hx
      subst hx
      simp [lower_bound]
    | succ j =>
      simp at hx
      have hmem : key x ∈ t.map key := by
        apply List.mem_map_of_mem
        exact List.mem_iff_getElem?.mpr ⟨_, hx⟩
      have hlt : key a < key x := hs.1 _ hmem
      simp [lower_bound, hlt, ih hs.2 j hx]

theorem lower_bound_key_ge {α : Type} (key : α → Nat) (l : List α) (v : Nat) (x : α)
    (hx : l[lower_bound key l v]? = some x) : v ≤ key x := by
  induction l with
  | nil => simp at hx
  | cons a t ih =>
    simp only [lower_bound] at hx
    split at hx
    · simp at hx
      exact ih hx
    · simp at hx
      subst hx
      omega

theorem lower_bound_lt_of_lt {α : Type} (key : α → Nat) (l : List α) (v : Nat) (i : Nat)
    (hi : i < lower_bound key l v) : ∃ x, l[i]? = some x ∧ key x < v := by
  induction l generalizing i with
  | nil => simp [lower_bound] at hi
  | cons a t ih =>
    simp only [lower_bound] at hi
    split at hi
    · cases i with
      | zero => exact ⟨a, by simp, by assumption⟩
      | succ j =>
        have := ih j (by omega)
        simpa using this
    · omega

theorem node_count_add_keys (m : List (Nat × Nat)) (k d : Nat) (y : Nat) :
    y ∈ (node_count_add m k d).map Prod.fst ↔ y = k ∨ y ∈ m.map Prod.fst := by
  induction m with
  | nil => simp [node_count_add]
  | cons p rest ih =>
    obtain ⟨k', c⟩ := p
    simp only [node_count_add]
    split
    · simp
    · split
      · subst_vars
        simp
      · simp only [List.map_cons, List.mem_cons, ih]
        tauto

theorem node_count_add_sorted (m : List (Nat × Nat)) (k d : Nat)
    (hs : (m.map Prod.fst).Pairwise (· < ·)) :
    ((node_count_add m k d).map Prod.fst).Pairwise (· < ·) := by
  induction m with
  | nil => simp [node_count_add]
  | cons p rest ih =>
    obtain ⟨k', c⟩ := p
    simp only [List.map_cons, List.pairwise_cons] at hs
    simp only [node_count_add]
    split
    · rename_i hlt
      simp only [List.map_cons, List.pairwise_cons, List.mem_cons]
      refine ⟨?_, hs⟩
      intro a ha
      rcases ha with rfl | ha
      · exact hlt
      · exact lt_trans hlt (hs.1 a ha)
    · split
      · simpa using hs
      · rename_i h1 h2
        simp only [List.map_cons, List.pairwise_cons]
        refine ⟨?_, ih hs.2⟩
        intro a ha
        rw [node_count_add_keys] at ha
        rcases ha with rfl | ha
        · omega
        · exact hs.1 a ha

theorem node_count_get_eq_zero (m : List (Nat × Nat)) (y : Nat)
    (h : y ∉ m.map Prod.fst) : node_count_get m y = 0 := by
  induction m with
  | nil => simp [node_count_get]
  | cons p rest ih =>
    obtain ⟨k', c⟩ := p
    simp only [List.map_cons, List.mem_cons, not_or] at h
    simp only [node_count_get]
    rw [if_neg (fun hk => h.1 hk.symm)]
    exact ih h.2

theorem node_count_get_add (m : List (Nat × Nat)) (k d : Nat) (y : Nat)
    (hs : (m.map Prod.fst).Pairwise (· < ·)) :
    node_count_get (node_count_add m k d) y
      = node_count_get m y + (if k = y then d else 0) := by
  induction m with
  | nil => simp [node_count_add, node_count_get]
  | cons p rest ih =>
    obtain ⟨k', c⟩ := p
    simp only [List.map_cons, List.pairwise_cons] at hs
    simp only [node_count_add]
    split
    · rename_i hlt
      by_cases hky : k = y
      · subst hky
        have hnot : k ∉ ((k', c) :: rest).map Prod.fst := by
          simp only [List.map_cons, List.mem_cons, not_or]
          refine ⟨by omega, ?_⟩
          intro hmem
          have := hs.1 k hmem
          omega
        rw [node_count_get_eq_zero _ _ hnot]
        simp [node_count_get]
      · simp [node_count_get, hky]
    · split
      · rename_i h1 h2
        subst h2
        by_cases hky : k = y
        · simp [node_count_get, hky]
        · simp [node_count_get, hky]
      · rename_i h1 h2
        simp only [node_count_get]
        by_cases hk : k' = y
        · have : ¬ k = y := by omega
          simp [hk, this]
        · simp [hk, ih hs.2]

theorem node_count_get_of_mem (m : List (Nat × Nat)) (y c : Nat)
    (hs : (m.map Prod.fst).Pairwise (· < ·)) (h : (y, c) ∈ m) : node_count_get m y = c := by
  induction m with
  | nil => simp at h
  | cons p rest ih =>
    obtain ⟨k', c'⟩ := p
    simp only [List.map_cons, List.pairwise_cons] at hs
    simp only [List.mem_cons, Prod.mk.injEq] at h
    simp only [node_count_get]
    rcases h with ⟨rfl, rfl⟩ | h
    · simp
    · have hmem : y ∈ rest.map Prod.fst := List.mem_map_of_mem Prod.fst h
      have := hs.1 y hmem
      rw [if_neg (by omega)]
      exact ih hs.2 h

theorem node_count_mem_of_get_pos (m : List (Nat × Nat)) (y : Nat)
    (h : 0 < node_count_get m y) : (y, node_count_get m y) ∈ m := by
  induction m with
  | nil => simp [node_count_get] at h
  | cons p rest ih =>
    obtain ⟨k', c'⟩ := p
    simp only [node_count_get] at h ⊢
    split
    · rename_i hk
      subst hk
      simp
    · rename_i hk
      rw [if_neg hk] at h
      exact List.mem_cons_of_mem _ (ih h)

theorem foldl_add_one_sorted (l : List Nat) (m : List (Nat × Nat))
    (hs : (m.map Prod.fst).Pairwise (· < ·)) :
    ((l.foldl (fun acc nd => node_count_add acc nd 1) m).map Prod.fst).Pairwise (· < ·) := by
  induction l generalizing m with
  | nil => simpa using hs
  | cons a t ih => exact ih _ (node_count_add_sorted m a 1 hs)

theorem foldl_add_one_get (l : List Nat) (m : List (Nat × Nat)) (y : Nat)
    (hs : (m.map Prod.fst).Pairwise (· < ·)) :
    node_count_get (l.foldl (fun acc nd => node_count_add acc nd 1) m) y
      = node_count_get m y + l.count y := by
  induction l generalizing m with
  | nil => simp
  | cons a t ih =>
    simp only [List.foldl_cons]
    rw [ih _ (node_count_add_sorted m a 1 hs), node_count_get_add _ _ _ _ hs, List.count_cons]
    by_cases h : a = y
    · simp [h]
      omega
    · simp [h]

theorem count_way_sorted (m : List (Nat × Nat)) (nds : List Nat)
    (hs : (m.map Prod.fst).Pairwise (· < ·)) :
    ((count_way m nds).map Prod.fst).Pairwise (· < ·) := by
  cases nds with
  | nil => simpa [count_way] using hs
  | cons x xs =>
    simp only [count_way]
    exact node_count_add_sorted _ _ _
      (foldl_add_one_sorted _ _ (node_count_add_sorted m x 2 hs))

theorem count_way_get (m : List (Nat × Nat)) (nds : List Nat) (y : Nat)
    (hs : (m.map Prod.fst).Pairwise (· < ·)) :
    node_count_get (count_way m nds) y = node_count_get m y + way_tally y nds := by
  cases nds with
  | nil => simp [count_way, way_tally]
  | cons x xs =>
    simp only [count_way, way_tally]
    rw [node_count_get_add _ _ _ _ (foldl_add_one_sorted _ _ (node_count_add_sorted m x 2 hs)),
      foldl_add_one_get _ _ _ (node_count_add_sorted m x 2 hs), node_count_get_add _ _ _ _ hs]
    omega

theorem foldl_count_way_spec (ws : List Way) (m : List (Nat × Nat))
    (hs : (m.map Prod.fst).Pairwise (· < ·)) :
    (((ws.foldl (fun m w => count_way m w.nds) m).map Prod.fst).Pairwise (· < ·)) ∧
    ∀ y, node_count_get (ws.foldl (fun m w => count_way m w.nds) m) y
      = node_count_get m y + (ws.map (fun w => way_tally y w.nds)).sum := by
  induction ws generalizing m with
  | nil => simpa using hs
  | cons w t ih =>
    simp only [List.foldl_cons, List.map_cons, List.sum_cons]
    obtain ⟨h1, h2⟩ := ih _ (count_way_sorted m w.nds hs)
    refine ⟨h1, fun y => ?_⟩
    rw [h2 y, count_way_get _ _ _ hs]
    omega

theorem node_count_of_sorted (data : Parsing_State) :
    ((node_count_of data).map Prod.fst).Pairwise (· < ·) :=
  (foldl_count_way_spec data.ways [] (by simp)).1

theorem node_count_of_get (data : Parsing_State) (y : Nat) :
    node_count_get (node_count_of data) y = usage_tally data y := by
  have := (foldl_count_way_spec data.ways [] (by simp)).2 y
  simpa [node_count_of, usage_tally, node_count_get] using this

theorem node_store_ids_sorted (data : Parsing_State) :
    ((node_store data).map Routing_Node.id).Pairwise (· < ·) := by
  unfold node_store
  rw [List.map_map]
  have h := node_count_of_sorted data
  rw [List.pairwise_map] at h ⊢
  exact h.filter _

theorem mem_node_store_ids (data : Parsing_State) (y : Nat) :
    y ∈ (node_store data).map Routing_Node.id ↔ 1 < node_count_get (node_count_of data) y := by
  unfold node_store
  simp only [List.map_map, List.mem_map, List.mem_filter, Function.comp, decide_eq_true_eq]
  constructor
  · rintro ⟨⟨k, c⟩, ⟨hmem, hc⟩, rfl⟩
    rw [node_count_get_of_mem _ _ _ (node_count_of_sorted data) hmem]
    exact hc
  · intro h
    exact ⟨(y, node_count_get (node_count_of data) y),
      ⟨node_count_mem_of_get_pos _ _ (by omega), h⟩, rfl⟩

/-! ## Lemmas on `edge_from_way` and on the loop over one way -/

theorem lower_bound_map {α : Type} (key : α → Nat) (l : List α) (v : Nat) :
    lower_bound key l v = lower_bound id (l.map key) v := by
  induction l with
  | nil => simp [lower_bound]
  | cons a t ih => simp [lower_bound, ih]

theorem node_ptr_congr (nodes nodes1 : List Routing_Node)
    (h : nodes.map Routing_Node.id = nodes1.map Routing_Node.id) (x : Nat) :
    node_ptr nodes x = node_ptr nodes1 x := by
  have hl : nodes.length = nodes1.length := by
    simpa using congrArg List.length h
  unfold node_ptr
  rw [lower_bound_map Routing_Node.id nodes, lower_bound_map Routing_Node.id nodes1, h, hl]

theorem edge_from_way_congr (distance : Coord → Coord → ℚ) (nodes nodes1 : List Routing_Node)
    (h : nodes.map Routing_Node.id = nodes1.map Routing_Node.id) (way : Way) (s e : Nat)
    (data : Parsing_State) :
    edge_from_way distance nodes way s e data = edge_from_way distance nodes1 way s e data := by
  unfold edge_from_way
  simp only [node_ptr_congr nodes nodes1 h]

theorem node_ptr_of_getElem (nodes : List Routing_Node)
    (hs : (nodes.map Routing_Node.id).Pairwise (· < ·)) (a : Nat) (n : Routing_Node)
    (hn : nodes[a]? = some n) : node_ptr nodes n.id = some a := by
  unfold node_ptr
  rw [lower_bound_eq_of_getElem Routing_Node.id nodes hs a n hn]
  have : a < nodes.length := (List.getElem?_eq_some.mp hn).1
  simp [this]

theorem node_ptr_of_mem (nodes : List Routing_Node)
    (hs : (nodes.map Routing_Node.id).Pairwise (· < ·)) (x : Nat)
    (hx : x ∈ nodes.map Routing_Node.id) :
    ∃ a n, node_ptr nodes x = some a ∧ nodes[a]? = some n ∧ n.id = x := by
  obtain ⟨n, hn, rfl⟩ := List.mem_map.mp hx
  obtain ⟨a, ha⟩ := List.mem_iff_getElem?.mp hn
  exact ⟨a, n, node_ptr_of_getElem nodes hs a n ha, ha, rfl⟩

theorem trace_step_some (distance : Coord → Coord → ℚ) (data : Parsing_State) (way : Way)
    (start : Nat) (st : List Coord × ℚ × Coord) (i : Nat) (hi : i < way.nds.length) :
    ∃ st1, trace_step distance data way start st i = some st1 ∧
      ((∀ a b, 0 ≤ distance a b) → 0 ≤ st.2.1 → 0 ≤ st1.2.1) := by
  unfold trace_step
  rw [List.getElem?_eq_getElem hi]
  simp only
  split
  · exact ⟨st, rfl, fun _ h => h⟩
  · split
    · refine ⟨_, rfl, fun hd h => ?_⟩
      simp only
      split
      · exact add_nonneg h (hd _ _)
      · exact h
    · exact ⟨st, rfl, fun _ h => h⟩

theorem trace_fold_some (distance : Coord → Coord → ℚ) (data : Parsing_State) (way : Way)
    (start : Nat) (l : List Nat) (hl : ∀ i ∈ l, i < way.nds.length)
    (st : List Coord × ℚ × Coord) :
    ∃ st1, l.foldlM (trace_step distance data way start) st = some st1 ∧
      ((∀ a b, 0 ≤ distance a b) → 0 ≤ st.2.1 → 0 ≤ st1.2.1) := by
  induction l generalizing st with
  | nil => exact ⟨st, rfl, fun _ h => h⟩
  | cons i t ih =>
    obtain ⟨st1, h1, h1n⟩ := trace_step_some distance data way start st i
      (hl i (List.mem_cons_self _ _))
    obtain ⟨st2, h2, h2n⟩ := ih (fun j hj => hl j (List.mem_cons_of_mem _ hj)) st1
    refine ⟨st2, ?_, fun hd h => h2n hd (h1n hd h)⟩
    rw [List.foldlM_cons, h1]
    exact h2

theorem edge_from_way_some (distance : Coord → Coord → ℚ) (nodes : List Routing_Node)
    (way : Way) (s e : Nat) (data : Parsing_State) (first last : Nat)
    (hs : way.nds[s]? = some first) (he : way.nds[e]? = some last) :
    ∃ edge, edge_from_way distance nodes way s e data = some edge ∧
      edge.start = node_ptr nodes first ∧ edge.end_ = node_ptr nodes last ∧
      ((∀ a b, 0 ≤ distance a b) → 0 ≤ edge.valuation) := by
  have hel : e < way.nds.length := (List.getElem?_eq_some.mp he).1
  obtain ⟨st1, h1, h1n⟩ := trace_fold_some distance data way s
    (List.range' s (e + 1 - s)) (by
      intro i hi
      rw [List.mem_range'_1] at hi
      omega) ([], 0, ⟨0, 0⟩)
  refine ⟨⟨st1.1, st1.2.1, node_ptr nodes first, node_ptr nodes last⟩, ?_, rfl, rfl,
    fun hd => h1n hd (le_refl _)⟩
  unfold edge_from_way
  rw [hs, he]
  simp only [h1]

theorem edge_from_way_none_of_empty (distance : Coord → Coord → ℚ) (nodes : List Routing_Node)
    (way : Way) (s e : Nat) (data : Parsing_State) (h : way.nds = []) :
    edge_from_way distance nodes way s e data = none := by
  unfold edge_from_way
  simp [h]

theorem chain_snoc (a : Nat) (segs : List (Nat × Nat)) (b c : Nat) (h : Chain a segs b)
    (hbc : b < c) : Chain a (segs ++ [(b, c)]) c := by
  induction segs generalizing a with
  | nil =>
    simp only [Chain] at h
    subst h
    simp [Chain, hbc]
  | cons seg rest ih =>
    simp only [Chain] at h
    simp only [List.cons_append, Chain]
    exact ⟨h.1, h.2.1, ih _ h.2.2⟩

theorem chain_le (a : Nat) (segs : List (Nat × Nat)) (b : Nat) (h : Chain a segs b) :
    a ≤ b := by
  induction segs generalizing a with
  | nil =>
    simp only [Chain] at h
    omega
  | cons seg rest ih =>
    simp only [Chain] at h
    have := ih _ h.2.2
    omega

theorem entries_of_append (base : Nat) (l1 l2 : List (Nat × Nat)) :
    entries_of base (l1 ++ l2) = entries_of base l1 ++ entries_of (base + l1.length) l2 := by
  induction l1 generalizing base with
  | nil => simp [entries_of]
  | cons seg rest ih =>
    have h : base + 1 + rest.length = base + (rest.length + 1) := by omega
    show (seg.1, base) :: entries_of (base + 1) (rest ++ l2) = _
    rw [ih, h]
    simp [entries_of]

theorem entries_of_length (base : Nat) (l : List (Nat × Nat)) :
    (entries_of base l).length = l.length := by
  induction l generalizing base with
  | nil => simp [entries_of]
  | cons seg rest ih => simp [entries_of, ih]

theorem entries_of_getElem (base : Nat) (l : List (Nat × Nat)) (j : Nat) :
    (entries_of base l)[j]? = (l[j]?).map (fun seg => (seg.1, base + j)) := by
  induction l generalizing base j with
  | nil => simp [entries_of]
  | cons seg rest ih =>
    cases j with
    | zero => simp [entries_of]
    | succ k =>
      simp only [entries_of, List.getElem?_cons_succ, ih]
      congr 1
      funext seg
      congr 1
      omega

theorem segs_built_length {distance : Coord → Coord → ℚ} {nc : List (Nat × Nat)}
    {nodes : List Routing_Node} {data : Parsing_State} {way : Way}
    {segs : List (Nat × Nat)} {es : List Routing_Edge}
    (h : Segs_Built distance nc nodes data way segs es) : es.length = segs.length := by
  simpa using congrArg List.length h.1

theorem way_loop_spec (distance : Coord → Coord → ℚ) (nc : List (Nat × Nat))
    (nodes : List Routing_Node) (data : Parsing_State) (way : Way) (E0 : List Routing_Edge)
    (h0 : promoted_at nc way 0) (m : Nat) (hm : m < way.nds.length) :
    ∃ cur segs es,
      (List.range' 1 m).foldlM (way_step distance nc nodes data way) (0, [], E0)
        = some (cur, entries_of E0.length segs, E0 ++ es) ∧
      Chain 0 segs cur ∧ cur ≤ m ∧ promoted_at nc way cur ∧
      Segs_Built distance nc nodes data way segs es ∧
      (1 ≤ m → promoted_at nc way m → cur = m) := by
  induction m with
  | zero =>
    refine ⟨0, [], [], ?_, ?_, le_refl _, h0, ⟨by simp, by simp⟩, ?_⟩
    · simp [entries_of]
    · simp [Chain]
    · intro h
      omega
  | succ m ih =>
    obtain ⟨cur, segs, es, hfold, hchain, hcur, hpc, hbuilt, _⟩ := ih (by omega)
    have hlen := segs_built_length hbuilt
    rw [List.range'_1_concat, List.foldlM_append, hfold]
    simp only [Option.bind_eq_bind, Option.some_bind, List.foldlM_cons, List.foldlM_nil]
    obtain ⟨nd0, hnd⟩ : ∃ nd0, way.nds[1 + m]? = some nd0 :=
      ⟨_, List.getElem?_eq_getElem (by omega)⟩
    by_cases hp : 1 < node_count_get nc nd0
    · obtain ⟨first, hfirst, _⟩ := hpc
      obtain ⟨edge, hedge, _⟩ := edge_from_way_some distance nodes way cur (1 + m) data
        first _ hfirst hnd
      refine ⟨1 + m, segs ++ [(cur, 1 + m)], es ++ [edge], ?_, ?_, by omega, ⟨_, hnd, hp⟩,
        ⟨?_, ?_⟩, fun _ _ => by omega⟩
      · simp only [way_step, hnd, hp, if_true, hedge]
        simp [entries_of_append, entries_of, hlen]
      · exact chain_snoc 0 segs cur (1 + m) hchain (by omega)
      · simp [hbuilt.1, hedge]
      · intro seg hseg
        rw [List.mem_append] at hseg
        rcases hseg with hseg | hseg
        · exact hbuilt.2 seg hseg
        · simp only [List.mem_singleton] at hseg
          subst hseg
          exact ⟨⟨first, hfirst, by assumption⟩, ⟨_, hnd, hp⟩⟩
    · refine ⟨cur, segs, es, ?_, hchain, by omega, hpc, hbuilt, ?_⟩
      · simp [way_step, hnd, hp]
      · intro _ hpm
        obtain ⟨nd, hnd2, hgt⟩ := hpm
        have hnd3 : way.nds[m + 1]? = some nd0 := by
          rw [Nat.add_comm]
          exact hnd
        rw [hnd3] at hnd2
        simp only [Option.some.injEq] at hnd2
        rw [← hnd2] at hgt
        exact absurd hgt hp

theorem process_way_spec (distance : Coord → Coord → ℚ) (nc : List (Nat × Nat))
    (nodes : List Routing_Node) (data : Parsing_State) (way : Way) (E0 : List Routing_Edge)
    (hne : way.nds ≠ []) (h0 : promoted_at nc way 0)
    (hlast : promoted_at nc way (way.nds.length - 1)) :
    ∃ segs es,
      process_way distance nc nodes data E0 way
        = some (entries_of E0.length segs, E0 ++ es) ∧
      Chain 0 segs (way.nds.length - 1) ∧
      Segs_Built distance nc nodes data way segs es := by
  have hpos : 0 < way.nds.length := List.length_pos.mpr hne
  obtain ⟨cur, segs, es, hfold, hchain, hcur, _, hbuilt, hfin⟩ :=
    way_loop_spec distance nc nodes data way E0 h0 (way.nds.length - 1) (by omega)
  have hcur_eq : cur = way.nds.length - 1 := by
    by_cases h1 : 1 ≤ way.nds.length - 1
    · exact hfin h1 hlast
    · omega
  refine ⟨segs, es, ?_, hcur_eq ▸ hchain, hbuilt⟩
  unfold process_way
  rw [hfold]
  have hsz : size_minus_one way.nds.length = way.nds.length - 1 := by
    unfold size_minus_one
    rw [if_neg (by omega)]
  simp only [hsz]
  rw [if_neg (by omega)]

theorem process_way_none_of_empty (distance : Coord → Coord → ℚ) (nc : List (Nat × Nat))
    (nodes : List Routing_Node) (data : Parsing_State) (way : Way) (E0 : List Routing_Edge)
    (h : way.nds = []) : process_way distance nc nodes data E0 way = none := by
  unfold process_way
  simp [h, size_minus_one, edge_from_way_none_of_empty distance nodes way _ _ data h]

/-! ## The loop over the ways and the loop over the edges -/

theorem way_tally_le_usage (data : Parsing_State) (w : Way) (hw : w ∈ data.ways) (y : Nat) :
    way_tally y w.nds ≤ usage_tally data y := by
  unfold usage_tally
  generalize data.ways = ws at hw
  induction ws with
  | nil => simp at hw
  | cons a t ih =>
    simp only [List.map_cons, List.sum_cons]
    rcases List.mem_cons.mp hw with rfl | h
    · omega
    · have := ih h
      omega

theorem promoted_ends (data : Parsing_State) (w : Way) (hw : w ∈ data.ways)
    (hne : w.nds ≠ []) :
    promoted_at (node_count_of data) w 0 ∧
      promoted_at (node_count_of data) w (w.nds.length - 1) := by
  have hle := way_tally_le_usage data w hw
  cases hnds : w.nds with
  | nil => exact absurd hnds hne
  | cons x xs =>
    rw [hnds] at hle
    constructor
    · refine ⟨x, by rw [hnds]; simp, ?_⟩
      rw [node_count_of_get]
      have := hle x
      simp only [way_tally, if_true] at this
      omega
    · refine ⟨(x :: xs).getLast (List.cons_ne_nil x xs), ?_, ?_⟩
      · rw [hnds, List.getLast_eq_getElem]
        exact List.getElem?_eq_getElem _
      · rw [node_count_of_get]
        have := hle ((x :: xs).getLast (List.cons_ne_nil x xs))
        simp only [way_tally, if_true] at this
        omega

theorem way_built_mono {distance : Coord → Coord → ℚ} {nc : List (Nat × Nat)}
    {nodes : List Routing_Node} {data : Parsing_State} {edges : List Routing_Edge} {w : Way}
    {entry segs : List (Nat × Nat)} {base : Nat}
    (h : Way_Built distance nc nodes data edges w entry segs base) (more : List Routing_Edge) :
    Way_Built distance nc nodes data (edges ++ more) w entry segs base := by
  refine ⟨h.1, h.2.1, h.2.2.1, fun j seg hseg => ?_⟩
  obtain ⟨e, he, hb⟩ := h.2.2.2 j seg hseg
  refine ⟨e, ?_, hb⟩
  have hlt : base + j < edges.length := (List.getElem?_eq_some.mp he).1
  rw [List.getElem?_append_left hlt]
  exact he

theorem segs_built_getElem {distance : Coord → Coord → ℚ} {nc : List (Nat × Nat)}
    {nodes : List Routing_Node} {data : Parsing_State} {way : Way}
    {segs : List (Nat × Nat)} {es : List Routing_Edge}
    (h : Segs_Built distance nc nodes data way segs es) (j : Nat) (seg : Nat × Nat)
    (hseg : segs[j]? = some seg) :
    ∃ e, es[j]? = some e ∧ edge_from_way distance nodes way seg.1 seg.2 data = some e := by
  have h1 := congrArg (fun l => l[j]?) h.1
  simp only [List.getElem?_map, hseg, Option.map_some'] at h1
  cases hes : es[j]? with
  | none => simp [hes] at h1
  | some e =>
    rw [hes] at h1
    simp only [Option.map_some', Option.some.injEq] at h1
    exact ⟨e, rfl, h1.symm⟩

theorem ways_fold_spec (distance : Coord → Coord → ℚ) (nc : List (Nat × Nat))
    (nodes : List Routing_Node) (data : Parsing_State) (ws : List Way)
    (hws : ∀ w ∈ ws, w.nds ≠ [] ∧ promoted_at nc w 0 ∧ promoted_at nc w (w.nds.length - 1))
    (E : List Routing_Edge) (D : List (Nat × List (Nat × Nat))) :
    ∃ E1 D1, ws.foldlM (ways_step distance nc nodes data) (E, D) = some (E ++ E1, D ++ D1) ∧
      (∀ (k : Nat) (w : Way), ws[k]? = some w →
        ∃ (entry segs : List (Nat × Nat)) (base : Nat), D1[k]? = some (w.id, entry) ∧
        Way_Built distance nc nodes data (E ++ E1) w entry segs base) ∧
      (∀ ei, E.length ≤ ei → ei < (E ++ E1).length →
        ∃ (k : Nat) (w : Way) (entry segs : List (Nat × Nat)) (base j : Nat),
          ws[k]? = some w ∧ D1[k]? = some (w.id, entry) ∧
          Way_Built distance nc nodes data (E ++ E1) w entry segs base ∧
          j < segs.length ∧ ei = base + j) ∧
      D1.length = ws.length := by
  induction ws generalizing E D with
  | nil =>
    refine ⟨[], [], by simp, ?_, ?_, rfl⟩
    · intro k w hk
      simp at hk
    · intro ei h1 h2
      simp at h2
      omega
  | cons w t ih =>
    obtain ⟨hne, h0, hlast⟩ := hws w (List.mem_cons_self _ _)
    obtain ⟨segs, es, hpw, hchain, hbuilt⟩ :=
      process_way_spec distance nc nodes data w E hne h0 hlast
    obtain ⟨E1, D1, hfold, hA, hB, hlen⟩ :=
      ih (fun w1 hw1 => hws w1 (List.mem_cons_of_mem _ hw1)) (E ++ es)
        (D ++ [(w.id, entries_of E.length segs)])
    have hwb : Way_Built distance nc nodes data (E ++ es) w (entries_of E.length segs) segs
        E.length := by
      refine ⟨rfl, hchain, hbuilt.2, fun j seg hseg => ?_⟩
      obtain ⟨e, he, hb⟩ := segs_built_getElem hbuilt j seg hseg
      refine ⟨e, ?_, hb⟩
      rw [List.getElem?_append_right (by omega)]
      simpa using he
    refine ⟨es ++ E1, (w.id, entries_of E.length segs) :: D1, ?_, ?_, ?_, by simp [hlen]⟩
    · rw [List.foldlM_cons]
      simp only [ways_step, hpw, Option.bind_eq_bind, Option.some_bind]
      rw [hfold]
      simp
    · intro k w1 hk
      cases k with
      | zero =>
        simp only [List.getElem?_cons_zero, Option.some.injEq] at hk
        subst hk
        refine ⟨entries_of E.length segs, segs, E.length, by simp, ?_⟩
        rw [← List.append_assoc]
        exact way_built_mono hwb E1
      | succ k =>
        simp only [List.getElem?_cons_succ] at hk
        obtain ⟨entry, segs1, base, h1, h2⟩ := hA k w1 hk
        refine ⟨entry, segs1, base, by simpa using h1, ?_⟩
        rw [← List.append_assoc]
        exact h2
    · intro ei h1 h2
      by_cases hlt : ei < (E ++ es).length
      · refine ⟨0, w, entries_of E.length segs, segs, E.length, ei - E.length, by simp, by simp,
          ?_, ?_, by omega⟩
        · rw [← List.append_assoc]
          exact way_built_mono hwb E1
        · have := segs_built_length hbuilt
          simp only [List.length_append] at hlt
          omega
      · rw [← List.append_assoc] at h2
        obtain ⟨k, w1, entry, segs1, base, j, g1, g2, g3, g4, g5⟩ := hB ei (by omega) h2
        refine ⟨k + 1, w1, entry, segs1, base, j, by simpa using g1, by simpa using g2, ?_,
          g4, g5⟩
        rw [← List.append_assoc]
        exact g3

theorem foldlM_none_of_mem {α β : Type} (f : β → α → Option β) (l : List α) (x : α)
    (hx : x ∈ l) (hf : ∀ b, f b x = none) (b : β) : l.foldlM f b = none := by
  induction l generalizing b with
  | nil => simp at hx
  | cons a t ih =>
    rw [List.foldlM_cons]
    rcases List.mem_cons.mp hx with rfl | h
    · simp [hf]
    · cases hfa : f b a with
      | none => simp
      | some b1 =>
        simp only [Option.bind_eq_bind, Option.some_bind]
        exact ih h b1

theorem attach_end_spec (nodes : List Routing_Node)
    (hs : (nodes.map Routing_Node.id).Pairwise (· < ·)) (a : Nat) (ha : a < nodes.length)
    (ei : Nat) :
    ∃ nodes1, attach_end nodes (some a) ei = some nodes1 ∧
      nodes1.map Routing_Node.id = nodes.map Routing_Node.id ∧
      ∀ i n, nodes[i]? = some n →
        nodes1[i]? = some (Routing_Node.mk n.id (n.edges ++ (if a = i then [ei] else []))) := by
  obtain ⟨n, hn⟩ : ∃ n, nodes[a]? = some n := ⟨_, List.getElem?_eq_getElem ha⟩
  have hlb := lower_bound_eq_of_getElem Routing_Node.id nodes hs a n hn
  refine ⟨nodes.set a ⟨n.id, n.edges ++ [ei]⟩, ?_, ?_, ?_⟩
  · simp only [attach_end, hn, hlb]
  · apply List.ext_getElem?
    intro i
    simp only [List.getElem?_map, List.getElem?_set]
    by_cases hai : a = i
    · subst hai
      simp [ha, hn]
    · simp [hai]
  · intro i m hm
    simp only [List.getElem?_set]
    by_cases hai : a = i
    · subst hai
      rw [hn] at hm
      simp only [Option.some.injEq] at hm
      subst hm
      simp [ha]
    · simp [hai, hm]

theorem attach_edge_spec (edges : List Routing_Edge) (nodes : List Routing_Node)
    (hs : (nodes.map Routing_Node.id).Pairwise (· < ·)) (ei : Nat) (e : Routing_Edge)
    (he : edges[ei]? = some e) (a b : Nat) (hsa : e.start = some a) (hsb : e.end_ = some b)
    (ha : a < nodes.length) (hb : b < nodes.length) :
    ∃ nodes1, attach_edge edges nodes ei = some nodes1 ∧
      nodes1.map Routing_Node.id = nodes.map Routing_Node.id ∧
      ∀ i n, nodes[i]? = some n →
        nodes1[i]? = some (Routing_Node.mk n.id (n.edges ++ (if a = i then [ei] else [])
          ++ (if b = i then [ei] else []))) := by
  obtain ⟨n1, h1, h1id, h1g⟩ := attach_end_spec nodes hs a ha ei
  have hl1 : n1.length = nodes.length := by simpa using congrArg List.length h1id
  obtain ⟨n2, h2, h2id, h2g⟩ := attach_end_spec n1 (h1id ▸ hs) b (by omega) ei
  refine ⟨n2, ?_, h2id.trans h1id, fun i n hn => ?_⟩
  · simp only [attach_edge, he, hsa, hsb, h1, h2]
  · rw [h2g i _ (h1g i n hn)]

theorem count_if_singleton (c : Prop) [Decidable c] (m ei : Nat) :
    List.count ei (if c then [m] else []) = if c then (if m = ei then 1 else 0) else 0 := by
  split
  · by_cases h : m = ei
    · simp [h]
    · simp [h, List.count_cons]
  · simp

theorem attach_fold_spec (edges : List Routing_Edge) (nodes : List Routing_Node)
    (hs : (nodes.map Routing_Node.id).Pairwise (· < ·))
    (hed : ∀ (ei : Nat) (e : Routing_Edge), edges[ei]? = some e → ∃ a b, e.start = some a ∧ e.end_ = some b ∧
      a < nodes.length ∧ b < nodes.length) (m : Nat) (hm : m ≤ edges.length) :
    ∃ nodes1, (List.range m).foldlM (attach_edge edges) nodes = some nodes1 ∧
      nodes1.map Routing_Node.id = nodes.map Routing_Node.id ∧
      ∀ i n, nodes[i]? = some n → ∃ n1, nodes1[i]? = some n1 ∧ n1.id = n.id ∧
        ∀ ei, n1.edges.count ei
          = n.edges.count ei + (if ei < m then incidence edges i ei else 0) := by
  induction m with
  | zero =>
    refine ⟨nodes, by simp, rfl, fun i n hn => ⟨n, hn, rfl, fun ei => by simp⟩⟩
  | succ m ih =>
    obtain ⟨n1, hfold, hid, hg⟩ := ih (by omega)
    obtain ⟨e, he⟩ : ∃ e, edges[m]? = some e := ⟨_, List.getElem?_eq_getElem (by omega)⟩
    obtain ⟨a, b, hsa, hsb, ha, hb⟩ := hed m e he
    have hl1 : n1.length = nodes.length := by simpa using congrArg List.length hid
    obtain ⟨n2, h2, h2id, h2g⟩ := attach_edge_spec edges n1 (hid ▸ hs) m e he a b hsa hsb
      (by omega) (by omega)
    refine ⟨n2, ?_, h2id.trans hid, fun i n hn => ?_⟩
    · rw [List.range_succ, List.foldlM_append, hfold]
      simpa using h2
    · obtain ⟨m1, hm1, hm1id, hm1c⟩ := hg i n hn
      refine ⟨_, h2g i m1 hm1, hm1id, fun ei => ?_⟩
      simp only [List.count_append, hm1c ei, count_if_singleton]
      by_cases hlt : ei < m
      · have hne : ¬ m = ei := by omega
        have hlt1 : ei < m + 1 := by omega
        simp [hlt, hlt1, hne]
      · by_cases heq : m = ei
        · subst heq
          simp only [lt_irrefl, if_false, Nat.lt_succ_self, if_true, incidence, he, hsa, hsb,
            Option.some.injEq]
          omega
        · have h3 : ¬ ei < m + 1 := by omega
          simp [hlt, h3, heq]

/-! ## The finished `Routing_Data` -/

theorem way_built_congr {distance : Coord → Coord → ℚ} {nc : List (Nat × Nat)}
    {nodes nodes1 : List Routing_Node} {data : Parsing_State} {edges : List Routing_Edge}
    {w : Way} {entry segs : List (Nat × Nat)} {base : Nat}
    (hid : nodes.map Routing_Node.id = nodes1.map Routing_Node.id)
    (h : Way_Built distance nc nodes data edges w entry segs base) :
    Way_Built distance nc nodes1 data edges w entry segs base := by
  refine ⟨h.1, h.2.1, h.2.2.1, fun j seg hseg => ?_⟩
  obtain ⟨e, he, hb⟩ := h.2.2.2 j seg hseg
  exact ⟨e, he, by rw [← edge_from_way_congr distance nodes nodes1 hid]; exact hb⟩

theorem edge_ends_of_promoted (distance : Coord → Coord → ℚ) (data : Parsing_State)
    (nodes : List Routing_Node)
    (hid : nodes.map Routing_Node.id = (node_store data).map Routing_Node.id)
    (w : Way) (s t : Nat) (e : Routing_Edge)
    (he : edge_from_way distance nodes w s t data = some e)
    (hs : promoted_at (node_count_of data) w s) (ht : promoted_at (node_count_of data) w t) :
    ∃ a b na nb, e.start = some a ∧ e.end_ = some b ∧ nodes[a]? = some na ∧
      nodes[b]? = some nb ∧ w.nds[s]? = some na.id ∧ w.nds[t]? = some nb.id ∧
      ((∀ a b, 0 ≤ distance a b) → 0 ≤ e.valuation) := by
  obtain ⟨first, hfirst, hf2⟩ := hs
  obtain ⟨last, hlast, hl2⟩ := ht
  obtain ⟨e1, he1, hst, hen, hval⟩ := edge_from_way_some distance nodes w s t data first last
    hfirst hlast
  rw [he] at he1
  simp only [Option.some.injEq] at he1
  subst he1
  have hsorted : (nodes.map Routing_Node.id).Pairwise (· < ·) :=
    hid ▸ node_store_ids_sorted data
  obtain ⟨a, na, ha1, ha2, ha3⟩ := node_ptr_of_mem nodes hsorted first
    (hid ▸ (mem_node_store_ids data first).mpr hf2)
  obtain ⟨b, nb, hb1, hb2, hb3⟩ := node_ptr_of_mem nodes hsorted last
    (hid ▸ (mem_node_store_ids data last).mpr hl2)
  exact ⟨a, b, na, nb, hst.trans ha1, hen.trans hb1, ha2, hb2, by rw [ha3]; exact hfirst,
    by rw [hb3]; exact hlast, hval⟩

theorem build_of_nonempty (distance : Coord → Coord → ℚ) (data : Parsing_State)
    (hne : ∀ w ∈ data.ways, w.nds ≠ []) :
    ∃ rd, Routing_Data.build distance data = some rd ∧ Built distance data rd := by
  obtain ⟨E1, D1, hfold, hA, hB, hlen⟩ := ways_fold_spec distance (node_count_of data)
    (node_store data) data data.ways
    (fun w hw => ⟨hne w hw, promoted_ends data w hw (hne w hw)⟩) [] []
  simp only [List.nil_append, List.length_nil, Nat.zero_le, forall_true_left] at hfold hA hB
  have hed : ∀ (ei : Nat) (e : Routing_Edge), E1[ei]? = some e → ∃ a b, e.start = some a ∧
      e.end_ = some b ∧ a < (node_store data).length ∧ b < (node_store data).length := by
    intro ei e he
    obtain ⟨k, w, entry, segs, base, j, _, _, hwb, hj, rfl⟩ :=
      hB ei (List.getElem?_eq_some.mp he).1
    obtain ⟨seg, hseg⟩ : ∃ seg, segs[j]? = some seg := ⟨_, List.getElem?_eq_getElem hj⟩
    obtain ⟨e1, he1, hb1⟩ := hwb.2.2.2 j seg hseg
    rw [he] at he1
    simp only [Option.some.injEq] at he1
    subst he1
    have hp := hwb.2.2.1 seg (List.mem_iff_getElem?.mpr ⟨j, hseg⟩)
    obtain ⟨a, b, na, nb, h1, h2, h3, h4, _⟩ := edge_ends_of_promoted distance data
      (node_store data) rfl w seg.1 seg.2 e hb1 hp.1 hp.2
    exact ⟨a, b, h1, h2, (List.getElem?_eq_some.mp h3).1, (List.getElem?_eq_some.mp h4).1⟩
  obtain ⟨nodes1, hat, hid, hinc⟩ := attach_fold_spec E1 (node_store data)
    (node_store_ids_sorted data) hed E1.length (le_refl _)
  refine ⟨⟨nodes1, E1, D1⟩, ?_, ⟨hne, hid, hlen, ?_, ?_, ?_⟩⟩
  · simp only [Routing_Data.build, hfold, hat]
  · intro k w hk
    obtain ⟨entry, segs, base, h1, h2⟩ := hA k w hk
    exact ⟨entry, segs, base, h1, way_built_congr hid.symm h2⟩
  · intro ei hei
    obtain ⟨k, w, entry, segs, base, j, g1, g2, g3, g4, g5⟩ := hB ei hei
    exact ⟨k, w, entry, segs, base, j, g1, g2, way_built_congr hid.symm g3, g4, g5⟩
  · intro i n hn ei
    have hl : nodes1.length = (node_store data).length := by
      simpa using congrArg List.length hid
    have hi : i < (node_store data).length := hl ▸ (List.getElem?_eq_some.mp hn).1
    obtain ⟨n0, hn0⟩ : ∃ n0, (node_store data)[i]? = some n0 :=
      ⟨_, List.getElem?_eq_getElem hi⟩
    obtain ⟨n1, hn1, _, hc⟩ := hinc i n0 hn0
    rw [hn] at hn1
    simp only [Option.some.injEq] at hn1
    subst hn1
    rw [hc ei]
    have h0 : n0.edges = [] := by
      have hmem : n0 ∈ node_store data := List.mem_iff_getElem?.mpr ⟨i, hn0⟩
      unfold node_store at hmem
      obtain ⟨p, _, hp⟩ := List.mem_map.mp hmem
      rw [← hp]
    rw [h0]
    by_cases hlt : ei < E1.length
    · simp [hlt]
    · simp [hlt, incidence, List.getElem?_eq_none (Nat.le_of_not_lt hlt)]

theorem build_none_of_empty (distance : Coord → Coord → ℚ) (data : Parsing_State) (w : Way)
    (hw : w ∈ data.ways) (he : w.nds = []) : Routing_Data.build distance data = none := by
  unfold Routing_Data.build
  rw [foldlM_none_of_mem _ data.ways w hw]
  intro st
  simp [ways_step, process_way_none_of_empty distance _ _ data w st.1 he]

theorem build_spec (distance : Coord → Coord → ℚ) (data : Parsing_State) (rd : Routing_Data)
    (h : Routing_Data.build distance data = some rd) : Built distance data rd := by
  have hne : ∀ w ∈ data.ways, w.nds ≠ [] := by
    intro w hw he
    rw [build_none_of_empty distance data w hw he] at h
    exact absurd h (by simp)
  obtain ⟨rd1, h1, hb⟩ := build_of_nonempty distance data hne
  rw [h] at h1
  simp only [Option.some.injEq] at h1
  exact h1 ▸ hb

/-! ## Lemmas on chains of index ranges -/

theorem chain_starts (a : Nat) (segs : List (Nat × Nat)) (b : Nat) (h : Chain a segs b) :
    (∀ s ∈ segs.map Prod.fst, a ≤ s) ∧ (segs.map Prod.fst).Pairwise (· < ·) := by
  induction segs generalizing a with
  | nil => simp
  | cons seg rest ih =>
    simp only [Chain] at h
    obtain ⟨h1, h2⟩ := ih _ h.2.2
    simp only [List.map_cons, List.mem_cons, List.pairwise_cons]
    refine ⟨?_, ?_, h2⟩
    · intro s hs
      rcases hs with rfl | hs
      · omega
      · have := h1 s hs
        omega
    · intro s hs
      have := h1 s hs
      omega

theorem chain_next (a : Nat) (segs : List (Nat × Nat)) (b : Nat) (h : Chain a segs b)
    (j : Nat) (seg : Nat × Nat) (hseg : segs[j]? = some seg) :
    seg.1 < seg.2 ∧ seg.2 ≤ b ∧
      seg.2 = (match segs[j + 1]? with
        | some p => p.1
        | none => b) := by
  induction segs generalizing a j with
  | nil => simp at hseg
  | cons s0 rest ih =>
    simp only [Chain] at h
    cases j with
    | zero =>
      simp only [List.getElem?_cons_zero, Option.some.injEq] at hseg
      subst hseg
      refine ⟨by omega, chain_le _ _ _ h.2.2, ?_⟩
      cases rest with
      | nil =>
        simp only [Chain] at h
        simp [h.2.2]
      | cons s1 rest1 =>
        simp only [Chain] at h
        simp [h.2.2.1]
    | succ j =>
      simp only [List.getElem?_cons_succ] at hseg ⊢
      exact ih _ h.2.2 j hseg

theorem chain_cover (a : Nat) (segs : List (Nat × Nat)) (b : Nat) (h : Chain a segs b)
    (i : Nat) (hai : a ≤ i) (hib : i < b) :
    ∃ (j : Nat) (seg : Nat × Nat), segs[j]? = some seg ∧ seg.1 ≤ i ∧ i < seg.2 := by
  induction segs generalizing a with
  | nil =>
    simp only [Chain] at h
    omega
  | cons s0 rest ih =>
    simp only [Chain] at h
    by_cases hlt : i < s0.2
    · exact ⟨0, s0, List.getElem?_cons_zero, by omega, hlt⟩
    · obtain ⟨j, seg, h1, h2, h3⟩ := ih _ h.2.2 (by omega)
      exact ⟨j + 1, seg, by rw [List.getElem?_cons_succ]; exact h1, h2, h3⟩

theorem chain_apart (a : Nat) (segs : List (Nat × Nat)) (b : Nat) (h : Chain a segs b)
    (j k : Nat) (s1 s2 : Nat × Nat) (hj : segs[j]? = some s1) (hk : segs[k]? = some s2)
    (hjk : j < k) : s1.2 ≤ s2.1 := by
  induction segs generalizing a j k with
  | nil => simp at hj
  | cons s0 rest ih =>
    simp only [Chain] at h
    cases k with
    | zero => omega
    | succ k =>
      simp only [List.getElem?_cons_succ] at hk
      cases j with
      | zero =>
        simp only [List.getElem?_cons_zero, Option.some.injEq] at hj
        subst hj
        exact (chain_starts _ _ _ h.2.2).1 s2.1
          (List.mem_map_of_mem Prod.fst (List.mem_iff_getElem?.mpr ⟨k, hk⟩))
      | succ j =>
        simp only [List.getElem?_cons_succ] at hj
        exact ih _ h.2.2 j k hj hk (by omega)

theorem seg_end_entries_of (a : Nat) (segs : List (Nat × Nat)) (b : Nat) (h : Chain a segs b)
    (base j : Nat) (seg : Nat × Nat) (hseg : segs[j]? = some seg) :
    seg_end (entries_of base segs) j b = seg.2 := by
  rw [(chain_next a segs b h j seg hseg).2.2]
  unfold seg_end
  rw [entries_of_getElem]
  cases segs[j + 1]? <;> rfl

/-! ## The graph builder: claims C5, C6, C9, C10 -/

theorem tally_split (ws : List Way) (y : Nat) :
    (ws.map (fun w => ((w.nds.drop 1).dropLast).count y)).sum
        ≤ (ws.map (fun w => way_tally y w.nds)).sum ∧
    ((¬ ∃ w ∈ ws, w.nds.head? = some y ∨ w.nds.getLast? = some y) →
      (ws.map (fun w => way_tally y w.nds)).sum
        = (ws.map (fun w => ((w.nds.drop 1).dropLast).count y)).sum) ∧
    ((∃ w ∈ ws, w.nds.head? = some y ∨ w.nds.getLast? = some y) →
      2 ≤ (ws.map (fun w => way_tally y w.nds)).sum) := by
  induction ws with
  | nil => simp
  | cons w t ih =>
    obtain ⟨ih1, ih2, ih3⟩ := ih
    have hw : ((w.nds.drop 1).dropLast).count y ≤ way_tally y w.nds ∧
        ((w.nds.head? = some y ∨ w.nds.getLast? = some y) → 2 ≤ way_tally y w.nds) ∧
        (¬ (w.nds.head? = some y ∨ w.nds.getLast? = some y) →
          way_tally y w.nds = ((w.nds.drop 1).dropLast).count y) := by
      cases hnds : w.nds with
      | nil => simp [way_tally]
      | cons x xs =>
        simp only [way_tally, List.drop_succ_cons, List.drop_zero, List.head?_cons,
          Option.some.injEq, List.getLast?_eq_getLast _ (List.cons_ne_nil x xs)]
        refine ⟨by omega, ?_, ?_⟩
        · rintro (h | h)
          · simp only [h, if_true]
            omega
          · simp only [h, if_true]
            omega
        · intro h
          simp only [not_or] at h
          simp [h.1, h.2]
    simp only [List.map_cons, List.sum_cons, List.mem_cons, exists_eq_or_imp, not_or]
    refine ⟨by omega, ?_, ?_⟩
    · rintro ⟨h1, h2⟩
      rw [hw.2.2 (not_or.mpr h1), ih2 h2]
    · rintro (h | h)
      · have := hw.2.1 h
        omega
      · have := ih3 h
        omega

/-- C6 (junction promotion).  For every `Parsing_State` the node store written by the second
loop of the constructor is strictly ascending by id and holds exactly the ids whose usage
tally (2 for each way where the id is the first nd, 2 for each way where it is the last nd,
1 for each occurrence in between) is at least 2; the tally is at least 2 exactly when the id
is the first or last nd of some way or stands in at least two interior way positions; and a
finished `Routing_Data` has these ids, in this order, in its node store. -/
theorem junction_promotion (data : Parsing_State) :
    ((node_store data).map Routing_Node.id).Pairwise (· < ·) ∧
    (∀ y, y ∈ (node_store data).map Routing_Node.id ↔ 2 ≤ usage_tally data y) ∧
    (∀ y, 2 ≤ usage_tally data y ↔
      ((∃ w ∈ data.ways, w.nds.head? = some y ∨ w.nds.getLast? = some y) ∨
        2 ≤ interior_occurrences data y)) ∧
    (∀ (distance : Coord → Coord → ℚ) (rd : Routing_Data),
      Routing_Data.build distance data = some rd →
      rd.nodes.map Routing_Node.id = (node_store data).map Routing_Node.id) := by
  refine ⟨node_store_ids_sorted data, fun y => ?_, fun y => ?_, fun distance rd h => ?_⟩
  · rw [mem_node_store_ids, node_count_of_get]
    exact Iff.rfl
  · obtain ⟨h1, h2, h3⟩ := tally_split data.ways y
    unfold usage_tally interior_occurrences
    constructor
    · intro h
      by_cases hp : ∃ w ∈ data.ways, w.nds.head? = some y ∨ w.nds.getLast? = some y
      · exact Or.inl hp
      · right
        rw [← h2 hp]
        exact h
    · rintro (h | h)
      · exact h3 h
      · omega
  · exact (build_spec distance data rd h).ids

theorem way_entry_spec (distance : Coord → Coord → ℚ) (data : Parsing_State)
    (rd : Routing_Data) (hB : Built distance data rd)
    (k : Nat) (w : Way) (hw : data.ways[k]? = some w) :
    w.nds ≠ [] ∧
    ∃ entry : List (Nat × Nat), rd.way_dictionary[k]? = some (w.id, entry) ∧
      (entry.map Prod.fst).Pairwise (· < ·) ∧
      (2 ≤ w.nds.length → ∃ slot, entry[0]? = some (0, slot)) ∧
      (∀ (j : Nat) (p : Nat × Nat), entry[j]? = some p →
        p.1 < seg_end entry j (w.nds.length - 1) ∧
        seg_end entry j (w.nds.length - 1) ≤ w.nds.length - 1 ∧
        ∃ e, rd.edges[p.2]? = some e ∧
          edge_from_way distance rd.nodes w p.1 (seg_end entry j (w.nds.length - 1)) data
            = some e) ∧
      (∀ i, i < w.nds.length - 1 →
        ∃! j, ∃ p, entry[j]? = some p ∧ p.1 ≤ i ∧ i < seg_end entry j (w.nds.length - 1)) := by
  obtain ⟨entry, segs, base, hd, hentry, hchain, hprom, hedges⟩ :=
    hB.ways k w hw
  have hget : ∀ (j : Nat) (p : Nat × Nat), entry[j]? = some p →
      ∃ seg, segs[j]? = some seg ∧ p = (seg.1, base + j) ∧
        seg_end entry j (w.nds.length - 1) = seg.2 := by
    intro j p hp
    rw [hentry, entries_of_getElem] at hp
    cases hseg : segs[j]? with
    | none => simp [hseg] at hp
    | some seg =>
      rw [hseg] at hp
      simp only [Option.map_some', Option.some.injEq] at hp
      exact ⟨seg, rfl, hp.symm, hentry ▸ seg_end_entries_of 0 segs _ hchain base j seg hseg⟩
  refine ⟨hB.nonempty w (List.mem_iff_getElem?.mpr ⟨k, hw⟩),
    entry, hd, ?_, ?_, ?_, ?_⟩
  · have : entry.map Prod.fst = segs.map Prod.fst := by
      rw [hentry]
      apply List.ext_getElem?
      intro j
      simp only [List.getElem?_map, entries_of_getElem]
      cases segs[j]? <;> rfl
    rw [this]
    exact (chain_starts 0 segs _ hchain).2
  · intro hlen
    cases segs with
    | nil =>
      simp only [Chain] at hchain
      omega
    | cons seg rest =>
      simp only [Chain] at hchain
      refine ⟨base, ?_⟩
      rw [hentry]
      simp [entries_of, hchain.1]
  · intro j p hp
    obtain ⟨seg, hseg, hpe, hse⟩ := hget j p hp
    obtain ⟨h1, h2, _⟩ := chain_next 0 segs _ hchain j seg hseg
    obtain ⟨e, he1, he2⟩ := hedges j seg hseg
    rw [hse, hpe]
    exact ⟨h1, h2, e, he1, he2⟩
  · intro i hi
    obtain ⟨j, seg, hseg, h1, h2⟩ := chain_cover 0 segs _ hchain i (Nat.zero_le _) hi
    have hpj : entry[j]? = some (seg.1, base + j) := by
      rw [hentry, entries_of_getElem, hseg]
      rfl
    refine ⟨j, ⟨(seg.1, base + j), hpj, h1, ?_⟩, ?_⟩
    · obtain ⟨seg1, hseg1, _, hse⟩ := hget j _ hpj
      rw [hseg] at hseg1
      simp only [Option.some.injEq] at hseg1
      rw [hse, ← hseg1]
      exact h2
    · rintro j1 ⟨p, hp, hp1, hp2⟩
      obtain ⟨seg1, hseg1, hpe, hse⟩ := hget j1 p hp
      rw [hse] at hp2
      rw [hpe] at hp1
      simp only at hp1
      rcases Nat.lt_trichotomy j1 j with hlt | heq | hgt
      · have := chain_apart 0 segs _ hchain j1 j seg1 seg hseg1 hseg hlt
        omega
      · exact heq
      · have := chain_apart 0 segs _ hchain j j1 seg seg1 hseg hseg1 hgt
        omega

/-- C5 (coverage).  In a `Routing_Data` built from `data` every way has a non-empty nd list
(the constructor does not finish otherwise), and the dictionary entry list of a way
has strictly ascending segment starts, starts at 0 when the way
has at least two nds, records for each entry the edge built from the entry's segment start
to the next entry's segment start (to the last nd for the last entry), and every index
below `len(nds) - 1` lies in the range of exactly one entry. -/
theorem way_coverage (distance : Coord → Coord → ℚ) (data : Parsing_State)
    (rd : Routing_Data) (hb : Routing_Data.build distance data = some rd)
    (k : Nat) (w : Way) (hw : data.ways[k]? = some w) :
    w.nds ≠ [] ∧
    ∃ entry : List (Nat × Nat), rd.way_dictionary[k]? = some (w.id, entry) ∧
      (entry.map Prod.fst).Pairwise (· < ·) ∧
      (2 ≤ w.nds.length → ∃ slot, entry[0]? = some (0, slot)) ∧
      (∀ (j : Nat) (p : Nat × Nat), entry[j]? = some p →
        p.1 < seg_end entry j (w.nds.length - 1) ∧
        seg_end entry j (w.nds.length - 1) ≤ w.nds.length - 1 ∧
        ∃ e, rd.edges[p.2]? = some e ∧
          edge_from_way distance rd.nodes w p.1 (seg_end entry j (w.nds.length - 1)) data
            = some e) ∧
      (∀ i, i < w.nds.length - 1 →
        ∃! j, ∃ p, entry[j]? = some p ∧ p.1 ≤ i ∧ i < seg_end entry j (w.nds.length - 1)) :=
  way_entry_spec distance data rd (build_spec distance data rd hb) k w hw

theorem way_coverage_witness :
    Routing_Data.build meridian_distance t_junction = some t_junction_rd ∧
    ∃ entry : List (Nat × Nat), t_junction_rd.way_dictionary[0]? = some (7, entry) ∧
      (entry.map Prod.fst).Pairwise (· < ·) :=
  ⟨by decide!,
    (way_coverage meridian_distance t_junction t_junction_rd (by decide!) 0 ⟨7, [1, 2, 3]⟩
      (by decide)).2.imp (fun _ h => ⟨h.1, h.2.1⟩)⟩

/-- C9 (edge symmetry).  In a `Routing_Data` built from `data`, every member of a node's
incident-edge list is an edge of the edge store that has this node as start or as end, and
an edge of the edge store occurs in the list once for having the node as start plus once
for having it as end: once when exactly one end is the node, twice when both are, not at all
when neither is. -/
theorem edge_symmetry (distance : Coord → Coord → ℚ) (data : Parsing_State)
    (rd : Routing_Data) (hb : Routing_Data.build distance data = some rd)
    (i : Nat) (n : Routing_Node) (hn : rd.nodes[i]? = some n) :
    (∀ ei ∈ n.edges, ∃ e, rd.edges[ei]? = some e ∧ (e.start = some i ∨ e.end_ = some i)) ∧
    (∀ (ei : Nat) (e : Routing_Edge), rd.edges[ei]? = some e →
      n.edges.count ei
        = (if e.start = some i then 1 else 0) + (if e.end_ = some i then 1 else 0)) := by
  have hinc := (build_spec distance data rd hb).incident i n hn
  constructor
  · intro ei hei
    have hpos : 0 < n.edges.count ei := List.count_pos_iff.mpr hei
    rw [hinc ei] at hpos
    unfold incidence at hpos
    cases he : rd.edges[ei]? with
    | none => simp [he] at hpos
    | some e =>
      rw [he] at hpos
      refine ⟨e, rfl, ?_⟩
      by_contra hcon
      simp only [not_or] at hcon
      simp [hcon.1, hcon.2] at hpos
  · intro ei e he
    rw [hinc ei]
    simp [incidence, he]

theorem edge_symmetry_witness :
    Routing_Data.build meridian_distance t_junction = some t_junction_rd ∧
    t_junction_rd.nodes[1]? = some ⟨2, [0, 1, 2]⟩ ∧
    (∀ (ei : Nat) (e : Routing_Edge), t_junction_rd.edges[ei]? = some e →
      List.count ei [0, 1, 2]
        = (if e.start = some 1 then 1 else 0) + (if e.end_ = some 1 then 1 else 0)) :=
  ⟨by decide!, by decide,
    (edge_symmetry meridian_distance t_junction t_junction_rd (by decide!) 1 ⟨2, [0, 1, 2]⟩
      (by decide)).2⟩

/-- C10 (edge endpoints resolve).  In a `Routing_Data` built from `data`, every edge of the
edge store is the edge built by `edge_from_way` for some entry of the dictionary entry list
of some way, from the entry's segment start `s` to the end `t` of the entry's range, and its
`start` and `end` are non-null and point to the routing nodes whose ids are `way.nds[s]` and
`way.nds[t]`. -/
theorem edge_endpoints_resolve (distance : Coord → Coord → ℚ) (data : Parsing_State)
    (rd : Routing_Data) (hb : Routing_Data.build distance data = some rd)
    (ei : Nat) (e : Routing_Edge) (he : rd.edges[ei]? = some e) :
    ∃ (k : Nat) (w : Way) (entry : List (Nat × Nat)) (j s : Nat),
      data.ways[k]? = some w ∧ rd.way_dictionary[k]? = some (w.id, entry) ∧
      entry[j]? = some (s, ei) ∧
      edge_from_way distance rd.nodes w s (seg_end entry j (w.nds.length - 1)) data = some e ∧
      ∃ (a b : Nat) (na nb : Routing_Node), e.start = some a ∧ e.end_ = some b ∧
        rd.nodes[a]? = some na ∧ rd.nodes[b]? = some nb ∧
        w.nds[s]? = some na.id ∧
        w.nds[seg_end entry j (w.nds.length - 1)]? = some nb.id := by
  have hB := build_spec distance data rd hb
  obtain ⟨k, w, entry, segs, base, j, hk, hd, hwb, hj, rfl⟩ :=
    hB.slots ei (List.getElem?_eq_some.mp he).1
  obtain ⟨hentry, hchain, hprom, hedges⟩ := hwb
  obtain ⟨seg, hseg⟩ : ∃ seg, segs[j]? = some seg := ⟨_, List.getElem?_eq_getElem hj⟩
  obtain ⟨e1, he1, hb1⟩ := hedges j seg hseg
  rw [he] at he1
  simp only [Option.some.injEq] at he1
  subst he1
  have hse : seg_end entry j (w.nds.length - 1) = seg.2 :=
    hentry ▸ seg_end_entries_of 0 segs _ hchain base j seg hseg
  have hp := hprom seg (List.mem_iff_getElem?.mpr ⟨j, hseg⟩)
  obtain ⟨a, b, na, nb, h1, h2, h3, h4, h5, h6, _⟩ := edge_ends_of_promoted distance data
    rd.nodes hB.ids w seg.1 seg.2 e hb1 hp.1 hp.2
  refine ⟨k, w, entry, j, seg.1, hk, hd, ?_, ?_, a, b, na, nb, h1, h2, h3, h4, h5, ?_⟩
  · rw [hentry, entries_of_getElem, hseg]
    rfl
  · rw [hse]
    exact hb1
  · rw [hse]
    exact h6

theorem edge_endpoints_resolve_witness :
    Routing_Data.build meridian_distance t_junction = some t_junction_rd ∧
    ∃ (k : Nat) (w : Way) (entry : List (Nat × Nat)) (j s : Nat),
      t_junction.ways[k]? = some w ∧ t_junction_rd.way_dictionary[k]? = some (w.id, entry) ∧
      entry[j]? = some (s, 2) :=
  ⟨by decide!,
    (edge_endpoints_resolve meridian_distance t_junction t_junction_rd (by decide!) 2
      ⟨[⟨2, 0⟩, ⟨1, 0⟩], 1, some 3, some 1⟩ (by decide!)).imp
      (fun _ h => h.imp (fun _ h => h.imp (fun _ h => h.imp (fun _ h => h.imp
        (fun _ h => ⟨h.1, h.2.1, h.2.2.1⟩)))))⟩

/-! ## The way-position resolver: claims C7, C8 -/

theorem takeWhile_sorted_spec (l : List (Nat × Nat))
    (hs : (l.map Prod.fst).Pairwise (· < ·)) (idx : Nat) (j : Nat) (p : Nat × Nat)
    (hp : l[j]? = some p) :
    p.1 ≤ idx ↔ j < (l.takeWhile (fun q => q.1 ≤ idx)).length := by
  induction l generalizing j with
  | nil => simp at hp
  | cons a r ih =>
    simp only [List.map_cons, List.pairwise_cons] at hs
    rw [List.takeWhile_cons]
    by_cases ha : a.1 ≤ idx
    · simp only [ha, decide_True, if_true, List.length_cons]
      cases j with
      | zero =>
        simp only [List.getElem?_cons_zero, Option.some.injEq] at hp
        subst hp
        simp [ha]
      | succ j =>
        simp only [List.getElem?_cons_succ] at hp
        rw [ih hs.2 j hp]
        omega
    · simp only [ha, decide_False, Bool.false_eq_true, if_false, List.length_nil]
      cases j with
      | zero =>
        simp only [List.getElem?_cons_zero, Option.some.injEq] at hp
        subst hp
        simp [ha]
      | succ j =>
        simp only [List.getElem?_cons_succ] at hp
        have := hs.1 p.1 (List.mem_map_of_mem Prod.fst (List.mem_iff_getElem?.mpr ⟨j, hp⟩))
        constructor
        · intro h
          omega
        · intro h
          omega

theorem built_dictionary_ids (distance : Coord → Coord → ℚ) (data : Parsing_State)
    (rd : Routing_Data) (hB : Built distance data rd) :
    rd.way_dictionary.map Prod.fst = data.ways.map Way.id := by
  apply List.ext_getElem?
  intro k
  simp only [List.getElem?_map]
  cases hw : data.ways[k]? with
  | none =>
    have : data.ways.length ≤ k := by
      by_contra hlt
      rw [List.getElem?_eq_getElem (by omega)] at hw
      exact absurd hw (by simp)
    rw [List.getElem?_eq_none (hB.dict_length ▸ this)]
    rfl
  | some w =>
    obtain ⟨entry, _, _, hd, _⟩ := hB.ways k w hw
    rw [hd]
    rfl

/-- C7 (resolver hit).  In a `Routing_Data` built from ways whose ids are strictly
ascending, for a way with at least two nds and any segment index `idx`, `resolve_way_pos`
called with the id of the way returns the edge slot of the last entry of the way's
dictionary entry list whose segment start is at most `idx` (a slot of the edge store),
together with `idx` minus that segment start; for `idx < len(nds) - 1` the range of that
entry contains `idx` and the edge at the slot is the edge built for that range. -/
theorem resolver_hit (distance : Coord → Coord → ℚ) (data : Parsing_State)
    (rd : Routing_Data) (hb : Routing_Data.build distance data = some rd)
    (hasc : (data.ways.map Way.id).Pairwise (· < ·))
    (k : Nat) (w : Way) (hw : data.ways[k]? = some w) (hlen : 2 ≤ w.nds.length)
    (idx : Nat) :
    ∃ (entry : List (Nat × Nat)) (j s slot : Nat) (e : Routing_Edge),
      rd.way_dictionary[k]? = some (w.id, entry) ∧
      entry[j]? = some (s, slot) ∧ s ≤ idx ∧
      (∀ (j1 : Nat) (p : Nat × Nat), entry[j1]? = some p → p.1 ≤ idx → j1 ≤ j) ∧
      rd.edges[slot]? = some e ∧
      resolve_way_pos rd w.id idx = some (some slot, idx - s) ∧
      (idx < w.nds.length - 1 →
        idx < seg_end entry j (w.nds.length - 1) ∧
        edge_from_way distance rd.nodes w s (seg_end entry j (w.nds.length - 1)) data
          = some e) := by
  have hB := build_spec distance data rd hb
  obtain ⟨_, entry, hd, hsorted, hzero, hrec, hcov⟩ := way_entry_spec distance data rd hB k w hw
  obtain ⟨slot0, h0⟩ := hzero hlen
  have hdsorted : (rd.way_dictionary.map Prod.fst).Pairwise (· < ·) := by
    rw [built_dictionary_ids distance data rd hB]
    exact hasc
  have hlb : lower_bound Prod.fst rd.way_dictionary w.id = k :=
    lower_bound_eq_of_getElem Prod.fst rd.way_dictionary hdsorted k (w.id, entry) hd
  have hspec := takeWhile_sorted_spec entry hsorted idx
  have hpos : 0 < (entry.takeWhile (fun q => q.1 ≤ idx)).length :=
    (hspec 0 (0, slot0) h0).mp (Nat.zero_le _)
  obtain ⟨j, hj⟩ : ∃ j, (entry.takeWhile (fun q => q.1 ≤ idx)).length = j + 1 :=
    ⟨_, (Nat.succ_pred_eq_of_pos hpos).symm⟩
  have hjlt : j < entry.length := by
    have : (entry.takeWhile (fun q => q.1 ≤ idx)).length ≤ entry.length :=
      (List.takeWhile_sublist _).length_le
    omega
  obtain ⟨p, hp⟩ : ∃ p, entry[j]? = some p := ⟨_, List.getElem?_eq_getElem hjlt⟩
  obtain ⟨hp1, hp2, e, he1, he2⟩ := hrec j p hp
  have hps : p.1 ≤ idx := (hspec j p hp).mpr (by omega)
  refine ⟨entry, j, p.1, p.2, e, hd, hp, hps, ?_, he1, ?_, ?_⟩
  · intro j1 q hq hq1
    have := (hspec j1 q hq).mp hq1
    omega
  · have hslot : p.2 < rd.edges.length := (List.getElem?_eq_some.mp he1).1
    simp only [resolve_way_pos, hlb, hd, hj, hp, hslot, if_true]
  · intro hidx
    refine ⟨?_, he2⟩
    obtain ⟨j2, ⟨q, hq, hq1, hq2⟩, huniq⟩ := hcov idx hidx
    have hle : j2 ≤ j := by
      have := (hspec j2 q hq).mp hq1
      omega
    rcases Nat.lt_or_eq_of_le hle with hlt | heq
    · exfalso
      have hnext : j2 + 1 < (entry.takeWhile (fun q => q.1 ≤ idx)).length := by omega
      obtain ⟨r, hr⟩ : ∃ r, entry[j2 + 1]? = some r :=
        ⟨_, List.getElem?_eq_getElem (by omega)⟩
      have hr1 : r.1 ≤ idx := (hspec (j2 + 1) r hr).mpr hnext
      simp only [seg_end, hr] at hq2
      omega
    · rw [← heq]
      exact hq2

theorem resolver_hit_witness :
    Routing_Data.build meridian_distance t_junction = some t_junction_rd ∧
    ∃ (entry : List (Nat × Nat)) (j s slot : Nat),
      t_junction_rd.way_dictionary[0]? = some (7, entry) ∧
      entry[j]? = some (s, slot) ∧ s ≤ 1 ∧
      resolve_way_pos t_junction_rd 7 1 = some (some slot, 1 - s) :=
  ⟨by decide!,
    (resolver_hit meridian_distance t_junction t_junction_rd (by decide!) (by decide) 0
      ⟨7, [1, 2, 3]⟩ (by decide) (by decide) 1).imp
      (fun _ h => h.imp (fun _ h => h.imp (fun _ h => h.imp (fun _ h => h.elim
        (fun _ h => ⟨h.1, h.2.1, h.2.2.1, h.2.2.2.2.2.1⟩)))))⟩

/-- C8 (resolver miss) fails on the code: in the `Routing_Data` built from the single way
with id 5, no dictionary entry has the way id 3, yet `resolve_way_pos` called with way id 3
and segment index 0 returns a pointer to the edge in slot 0 instead of the null edge. -/
theorem resolver_miss_returns_edge :
    Routing_Data.build meridian_distance single_way = some single_way_rd ∧
    (∀ p ∈ single_way_rd.way_dictionary, p.1 ≠ 3) ∧
    resolve_way_pos single_way_rd 3 0 = some (some 0, 0) :=
  ⟨by decide!, by decide, by decide⟩

/-! ## Lemmas on paths -/

theorem connects_symm {e : Routing_Edge} {a b : Nat} (h : Connects e a b) : Connects e b a :=
  h.symm

theorem reaches_step_eq {rd : Routing_Data} {seeds : List (Nat × ℚ)} {a b : Nat} {v w : ℚ}
    {ei : Nat} {e : Routing_Edge} (h : Reaches rd seeds a v) (he : rd.edges[ei]? = some e)
    (hc : Connects e a b) (hw : w = v + e.valuation) : Reaches rd seeds b w :=
  hw ▸ Reaches.step a b v ei e h he hc

theorem reaches_seed_eq {rd : Routing_Data} {seeds : List (Nat × ℚ)} {n : Nat} {v w : ℚ}
    (h : (n, v) ∈ seeds) (hw : w = v) : Reaches rd seeds n w :=
  hw ▸ Reaches.seed n v h

theorem reaches_of_walk (rd : Routing_Data) (seeds : List (Nat × ℚ)) (x : Nat) (v0 : ℚ)
    (hx : (x, v0) ∈ seeds) (n : Nat) (c : ℚ) (h : Walk rd x n c) :
    Reaches rd seeds n (v0 + c) := by
  unfold Walk at h
  induction h with
  | seed n v hmem =>
    simp only [List.mem_singleton, Prod.mk.injEq] at hmem
    obtain ⟨rfl, rfl⟩ := hmem
    exact reaches_seed_eq hx (by ring)
  | step a b v ei e _ he hc ih =>
    exact reaches_step_eq ih he hc (by ring)

theorem walk_of_reaches (rd : Routing_Data) (seeds : List (Nat × ℚ)) (n : Nat) (w : ℚ)
    (h : Reaches rd seeds n w) :
    ∃ (x : Nat) (v0 c : ℚ), (x, v0) ∈ seeds ∧ Walk rd x n c ∧ w = v0 + c := by
  induction h with
  | seed n v hmem =>
    exact ⟨n, v, 0, hmem, Reaches.seed n 0 (by simp), by ring⟩
  | step a b v ei e _ he hc ih =>
    obtain ⟨x, v0, c, hx, hwalk, hv⟩ := ih
    exact ⟨x, v0, c + e.valuation, hx, Reaches.step a b c ei e hwalk he hc, by rw [hv]; ring⟩

theorem walk_refl (rd : Routing_Data) (a : Nat) : Walk rd a a 0 :=
  Reaches.seed a 0 (by simp)

theorem walk_trans (rd : Routing_Data) (a b d : Nat) (c1 c2 : ℚ) (h1 : Walk rd a b c1)
    (h2 : Walk rd b d c2) : Walk rd a d (c1 + c2) := by
  unfold Walk at h2
  induction h2 with
  | seed n v hmem =>
    simp only [List.mem_singleton, Prod.mk.injEq] at hmem
    obtain ⟨rfl, rfl⟩ := hmem
    rw [add_zero]
    exact h1
  | step x y v ei e _ he hc ih =>
    exact reaches_step_eq ih he hc (by ring)

theorem walk_edge (rd : Routing_Data) (ei : Nat) (e : Routing_Edge) (a b : Nat)
    (he : rd.edges[ei]? = some e) (hc : Connects e a b) : Walk rd a b e.valuation :=
  reaches_step_eq (walk_refl rd a) he hc (by ring)

theorem walk_symm (rd : Routing_Data) (a b : Nat) (c : ℚ) (h : Walk rd a b c) :
    Walk rd b a c := by
  unfold Walk at h
  induction h with
  | seed n v hmem =>
    simp only [List.mem_singleton, Prod.mk.injEq] at hmem
    obtain ⟨rfl, rfl⟩ := hmem
    exact walk_refl rd n
  | step x y v ei e _ he hc ih =>
    have h1 := walk_trans rd y x a e.valuation v (walk_edge rd ei e y x he hc.symm) ih
    rw [add_comm] at h1
    exact h1

theorem walk_nonneg (rd : Routing_Data) (hn : ∀ (ei : Nat) (e : Routing_Edge),
    rd.edges[ei]? = some e → 0 ≤ e.valuation) (a b : Nat) (c : ℚ) (h : Walk rd a b c) :
    0 ≤ c := by
  unfold Walk at h
  induction h with
  | seed n v hmem =>
    simp only [List.mem_singleton, Prod.mk.injEq] at hmem
    rw [hmem.2]
  | step x y v ei e _ he hc ih =>
    exact add_nonneg ih (hn ei e he)

/-! ## The loop over the incident edges of a closed node -/

theorem lookup_cons_eq (ft : List (Nat × Closed_Node)) (cur : Nat) (cc : Closed_Node)
    (n : Nat) : ((cur, cc) :: ft).lookup n = if n = cur then some cc else ft.lookup n := by
  rw [List.lookup_cons]
  by_cases h : n = cur
  · simp [h]
  · have hb : (n == cur) = false := by
      rw [beq_eq_false_iff_ne]
      exact h
    simp only [hb, if_neg h]

theorem eval_route_value (distance : Coord → Coord → ℚ) (ei : Nat) (e : Routing_Edge)
    (origin : Route_Ref) (sv ev : ℚ) (d : Route_Ref) (r : Route) :
    (eval_route distance ei e origin sv ev d r).value
      = if d.edge = some ei ∧ r.value = 180 then
          anchor_value sv ev (e.proportionate_valuation distance d.index d.pos) e.valuation
        else r.value := by
  unfold eval_route anchor_value
  split
  · split <;> rfl
  · rfl

theorem eval_edge_getElem (distance : Coord → Coord → ℚ) (ei : Nat) (e : Routing_Edge)
    (dests : List Route_Ref) (origin : Route_Ref) (sv ev : ℚ) (routes : List Route)
    (k : Nat) (d : Route_Ref) (r : Route) (hd : dests[k]? = some d)
    (hr : routes[k]? = some r) :
    (eval_edge_for_destinations distance ei e dests origin sv ev routes)[k]?
      = some (eval_route distance ei e origin sv ev d r) := by
  unfold eval_edge_for_destinations
  rw [List.getElem?_zipWith, hd, hr]

theorem eval_edge_length (distance : Coord → Coord → ℚ) (ei : Nat) (e : Routing_Edge)
    (dests : List Route_Ref) (origin : Route_Ref) (sv ev : ℚ) (routes : List Route)
    (h : routes.length = dests.length) :
    (eval_edge_for_destinations distance ei e dests origin sv ev routes).length
      = dests.length := by
  unfold eval_edge_for_destinations
  rw [List.length_zipWith, h]
  simp

theorem visit_edge_spec (distance : Coord → Coord → ℚ) (rd : Routing_Data)
    (dests : List Route_Ref) (origin : Route_Ref) (ft : List (Nat × Closed_Node))
    (cur : Nat) (cv : ℚ) (st : List Open_Node × List Route) (ei : Nat) (e : Routing_Edge)
    (he : rd.edges[ei]? = some e) (hinc : e.start = some cur ∨ e.end_ = some cur)
    (a b : Nat) (ha : e.start = some a) (hb : e.end_ = some b)
    (hcur : ∃ cc, ft.lookup cur = some cc ∧ cc.value = cv) :
    (∃ x, Connects e cur x ∧ ft.lookup x = none ∧ (∀ y, Connects e cur y → y = x) ∧
      visit_edge distance rd dests origin ft cur cv st ei
        = some (st.1 ++ [⟨some x, some ei, cv + e.valuation⟩], st.2)) ∨
    (∃ cs ce, ft.lookup a = some cs ∧ ft.lookup b = some ce ∧
      visit_edge distance rd dests origin ft cur cv st ei
        = some (st.1, eval_edge_for_destinations distance ei e dests origin cs.value
            ce.value st.2)) := by
  obtain ⟨cc, hcc, hccv⟩ := hcur
  by_cases hs : e.start = some cur
  · have hac : a = cur := by
      rw [ha] at hs
      exact Option.some.inj hs
    subst hac
    cases hfb : ft.lookup b with
    | none =>
      left
      refine ⟨b, Or.inl ⟨ha, hb⟩, hfb, ?_, ?_⟩
      · rintro y (⟨_, h2⟩ | ⟨_, h2⟩)
        · rw [hb] at h2
          exact (Option.some.inj h2).symm
        · rw [hb] at h2
          have : b = a := Option.some.inj h2
          rw [this, hcc] at hfb
          exact absurd hfb (by simp)
      · simp only [visit_edge, he, hs, if_true, hb, final_tree_find, hfb]
    | some c =>
      right
      refine ⟨cc, c, hcc, rfl, ?_⟩
      simp only [visit_edge, he, hs, if_true, hb, final_tree_find, hfb, hccv]
  · have hbc : b = cur := by
      rcases hinc with h | h
      · exact absurd h hs
      · rw [hb] at h
        exact Option.some.inj h
    subst hbc
    have hne : a ≠ b := by
      intro h
      rw [h] at ha
      exact hs ha
    cases hfa : ft.lookup a with
    | none =>
      left
      refine ⟨a, Or.inr ⟨ha, hb⟩, hfa, ?_, ?_⟩
      · rintro y (⟨h1, _⟩ | ⟨h1, _⟩)
        · exact absurd h1 hs
        · rw [ha] at h1
          exact (Option.some.inj h1).symm
      · simp only [visit_edge, he, ha, hb, Option.some.injEq, hne, if_false, if_true,
          final_tree_find, hfa]
    | some c =>
      right
      refine ⟨c, cc, rfl, hcc, ?_⟩
      simp only [visit_edge, he, ha, hb, Option.some.injEq, hne, if_false, if_true,
        final_tree_find, hfa, hccv]

theorem route_run_nil (settled : Option ℚ) (d : Route_Ref) (x : ℚ) :
    Route_Run [] settled d x x :=
  ⟨fun _ => rfl, fun _ => rfl, fun _ => rfl, fun _ _ _ h => absurd h (by simp),
    fun _ _ h => h⟩

theorem route_run_cons (ei : Nat) (t : List Nat) (settled : Option ℚ) (d : Route_Ref)
    (x y z : ℚ) (h1 : Route_Run [ei] settled d x y) (h2 : Route_Run t settled d y z) :
    Route_Run (ei :: t) settled d x z := by
  refine ⟨fun hx => ?_, fun hs => ?_, fun hoff => ?_, fun de v hde hmem hs hx => ?_,
    fun v hs hx => ?_⟩
  · have := h1.keep_other hx
    rw [h2.keep_other (this ▸ hx), this]
  · rw [h2.keep_unsettled hs, h1.keep_unsettled hs]
  · rw [h2.keep_off (fun de hde hm => hoff de hde (List.mem_cons_of_mem _ hm)),
      h1.keep_off (fun de hde hm => hoff de hde (by
        rw [List.mem_singleton] at hm
        rw [hm]
        exact List.mem_cons_self _ _))]
  · by_cases hei : de = ei
    · have hy : y = v := h1.assign de v hde (by simp [hei]) hs hx
      exact h2.stay v hs hy
    · have hy : y = x := h1.keep_off (fun de1 hde1 hm => by
        rw [hde] at hde1
        rw [List.mem_singleton] at hm
        exact hei ((Option.some.inj hde1).trans hm))
      have hmt : de ∈ t := by
        rcases List.mem_cons.mp hmem with h | h
        · exact absurd h hei
        · exact h
      exact h2.assign de v hde hmt hs (hy.trans hx)
  · exact h2.stay v hs (h1.stay v hs hx)

theorem visit_edge_round (distance : Coord → Coord → ℚ) (rd : Routing_Data)
    (hG : Graph_OK rd) (dests : List Route_Ref) (origin : Route_Ref)
    (ft : List (Nat × Closed_Node)) (cur : Nat) (cv : ℚ)
    (hcur : ∃ cc, ft.lookup cur = some cc ∧ cc.value = cv)
    (ei : Nat) (e : Routing_Edge) (he : rd.edges[ei]? = some e)
    (hinc : e.start = some cur ∨ e.end_ = some cur)
    (open0 : List Open_Node) (routes0 : List Route) (hlen : routes0.length = dests.length) :
    ∃ pushes routes1,
      visit_edge distance rd dests origin ft cur cv (open0, routes0) ei
        = some (open0 ++ pushes, routes1) ∧
      pushes.length ≤ 1 ∧
      (∀ o ∈ pushes, ∃ x, Connects e cur x ∧ ft.lookup x = none ∧ o.node = some x ∧
        o.value = cv + e.valuation) ∧
      (∀ x, Connects e cur x → ft.lookup x = none →
        ∃ o ∈ pushes, o.node = some x ∧ o.value = cv + e.valuation) ∧
      routes1.length = dests.length ∧
      (∀ (k : Nat) (d : Route_Ref) (r0 : Route), dests[k]? = some d → routes0[k]? = some r0 →
        ∃ r1, routes1[k]? = some r1 ∧
          Route_Run [ei] (settled_value distance rd ft d) d r0.value r1.value) := by
  obtain ⟨a, b, ha, hb, _, _⟩ := hG.ends ei e he
  rcases visit_edge_spec distance rd dests origin ft cur cv (open0, routes0) ei e he hinc a b
    ha hb hcur with ⟨x, hx1, hx2, hx3, hres⟩ | ⟨cs, ce, hcs, hce, hres⟩
  · refine ⟨[⟨some x, some ei, cv + e.valuation⟩], routes0, hres, by simp, ?_, ?_, hlen, ?_⟩
    · intro o ho
      rw [List.mem_singleton] at ho
      subst ho
      exact ⟨x, hx1, hx2, rfl, rfl⟩
    · intro y hy _
      rw [hx3 y hy]
      exact ⟨_, List.mem_singleton.mpr rfl, rfl, rfl⟩
    · intro k d r0 _ hr
      refine ⟨r0, hr, ⟨fun _ => rfl, fun _ => rfl, fun _ => rfl, ?_, fun _ _ h => h⟩⟩
      intro de v hde hmem hs _
      exfalso
      rw [List.mem_singleton] at hmem
      subst hmem
      have hxab : x = a ∨ x = b := by
        rcases hx1 with ⟨_, h⟩ | ⟨h, _⟩
        · rw [hb] at h
          exact Or.inr (Option.some.inj h).symm
        · rw [ha] at h
          exact Or.inl (Option.some.inj h).symm
      simp only [settled_value, hde, he, ha, hb, final_tree_find] at hs
      rcases hxab with h | h
      · rw [← h, hx2] at hs
        simp at hs
      · rw [← h, hx2] at hs
        cases ft.lookup a <;> simp at hs
  · refine ⟨[], eval_edge_for_destinations distance ei e dests origin cs.value ce.value
      routes0, by simpa using hres, by simp, by simp, ?_,
      eval_edge_length distance ei e dests origin _ _ routes0 hlen, ?_⟩
    · intro x hx hnone
      exfalso
      rcases hx with ⟨_, h⟩ | ⟨h, _⟩
      · rw [hb] at h
        rw [← Option.some.inj h, hce] at hnone
        exact absurd hnone (by simp)
      · rw [ha] at h
        rw [← Option.some.inj h, hcs] at hnone
        exact absurd hnone (by simp)
    · intro k d r0 hd hr
      refine ⟨_, eval_edge_getElem distance ei e dests origin _ _ routes0 k d r0 hd hr, ?_⟩
      rw [eval_route_value]
      have hset : d.edge = some ei → settled_value distance rd ft d
          = some (anchor_value cs.value ce.value
              (e.proportionate_valuation distance d.index d.pos) e.valuation) := by
        intro hde
        simp only [settled_value, hde, he, ha, hb, final_tree_find, hcs, hce]
      refine ⟨fun hx => ?_, fun hs => ?_, fun hoff => ?_, fun de v hde hmem hs hx => ?_,
        fun v hs hx => ?_⟩
      · rw [if_neg (fun h => hx h.2)]
      · rw [if_neg (fun h => by
          rw [hset h.1] at hs
          exact absurd hs (by simp))]
      · rw [if_neg (fun h => hoff ei h.1 (List.mem_singleton.mpr rfl))]
      · rw [List.mem_singleton] at hmem
        subst hmem
        rw [hset hde] at hs
        rw [if_pos ⟨hde, hx⟩]
        exact Option.some.inj hs
      · split
        · rename_i h
          rw [hset h.1] at hs
          exact Option.some.inj hs
        · exact hx

theorem visit_fold_spec (distance : Coord → Coord → ℚ) (rd : Routing_Data)
    (hG : Graph_OK rd) (dests : List Route_Ref) (origin : Route_Ref)
    (ft : List (Nat × Closed_Node)) (cur : Nat) (cv : ℚ)
    (hcur : ∃ cc, ft.lookup cur = some cc ∧ cc.value = cv) (L : List Nat)
    (hL : ∀ ei ∈ L, ∃ e, rd.edges[ei]? = some e ∧ (e.start = some cur ∨ e.end_ = some cur))
    (open0 : List Open_Node) (routes0 : List Route) (hlen : routes0.length = dests.length) :
    ∃ pushes routes1,
      L.foldlM (visit_edge distance rd dests origin ft cur cv) (open0, routes0)
        = some (open0 ++ pushes, routes1) ∧
      pushes.length ≤ L.length ∧
      (∀ o ∈ pushes, ∃ (ei : Nat) (e : Routing_Edge) (x : Nat), rd.edges[ei]? = some e ∧
        Connects e cur x ∧ ft.lookup x = none ∧ o.node = some x ∧
        o.value = cv + e.valuation) ∧
      (∀ ei ∈ L, ∀ (e : Routing_Edge) (x : Nat), rd.edges[ei]? = some e → Connects e cur x →
        ft.lookup x = none → ∃ o ∈ pushes, o.node = some x ∧ o.value = cv + e.valuation) ∧
      routes1.length = dests.length ∧
      (∀ (k : Nat) (d : Route_Ref) (r0 : Route), dests[k]? = some d → routes0[k]? = some r0 →
        ∃ r1, routes1[k]? = some r1 ∧
          Route_Run L (settled_value distance rd ft d) d r0.value r1.value) := by
  induction L generalizing open0 routes0 with
  | nil =>
    refine ⟨[], routes0, by simp, by simp, by simp, by simp, hlen, fun k d r0 _ hr => ?_⟩
    exact ⟨r0, hr, route_run_nil _ d _⟩
  | cons ei t ih =>
    obtain ⟨e, he, hinc⟩ := hL ei (List.mem_cons_self _ _)
    obtain ⟨p1, r1, hres1, hp1, hpa1, hpb1, hl1, hr1⟩ := visit_edge_round distance rd hG dests
      origin ft cur cv hcur ei e he hinc open0 routes0 hlen
    obtain ⟨p2, r2, hres2, hp2, hpa2, hpb2, hl2, hr2⟩ :=
      ih (fun ej hej => hL ej (List.mem_cons_of_mem _ hej)) (open0 ++ p1) r1 hl1
    refine ⟨p1 ++ p2, r2, ?_, ?_, ?_, ?_, hl2, ?_⟩
    · rw [List.foldlM_cons, hres1]
      simp only [Option.bind_eq_bind, Option.some_bind]
      rw [hres2, List.append_assoc]
    · simp only [List.length_append, List.length_cons]
      omega
    · intro o ho
      rcases List.mem_append.mp ho with h | h
      · obtain ⟨x, h1, h2, h3, h4⟩ := hpa1 o h
        exact ⟨ei, e, x, he, h1, h2, h3, h4⟩
      · exact hpa2 o h
    · intro ej hej e1 x he1 hc hx
      rcases List.mem_cons.mp hej with h | h
      · subst h
        rw [he] at he1
        obtain ⟨o, ho, h1, h2⟩ := hpb1 x (Option.some.inj he1 ▸ hc) hx
        exact ⟨o, List.mem_append_left _ ho, h1, Option.some.inj he1 ▸ h2⟩
      · obtain ⟨o, ho, h1, h2⟩ := hpb2 ej h e1 x he1 hc hx
        exact ⟨o, List.mem_append_right _ ho, h1, h2⟩
    · intro k d r0 hd hr0
      obtain ⟨ra, hra, hrun1⟩ := hr1 k d r0 hd hr0
      obtain ⟨rb, hrb, hrun2⟩ := hr2 k d ra hd hra
      exact ⟨rb, hrb, route_run_cons ei t _ d _ _ _ hrun1 hrun2⟩

/-! ## The main loop -/

theorem pending_mono (ft : List (Nat × Closed_Node)) (cur : Nat) (cc : Closed_Node)
    (ns : List Routing_Node) (i : Nat) :
    pending ((cur, cc) :: ft) i ns ≤ pending ft i ns := by
  induction ns generalizing i with
  | nil => simp [pending]
  | cons n t ih =>
    simp only [pending, lookup_cons_eq]
    have := ih (i + 1)
    by_cases h : i = cur
    · subst h
      simp only [if_true, Option.isSome_some]
      omega
    · simp only [h, if_false]
      omega

theorem pending_close (ft : List (Nat × Closed_Node)) (cur : Nat) (cc : Closed_Node)
    (hnone : ft.lookup cur = none) (ns : List Routing_Node) (i : Nat) (node : Routing_Node)
    (hi : i ≤ cur) (hnode : ns[cur - i]? = some node) :
    pending ((cur, cc) :: ft) i ns + node.edges.length ≤ pending ft i ns := by
  induction ns generalizing i with
  | nil => simp at hnode
  | cons n t ih =>
    simp only [pending, lookup_cons_eq]
    by_cases h : i = cur
    · subst h
      simp only [Nat.sub_self, List.getElem?_cons_zero, Option.some.injEq] at hnode
      subst hnode
      have := pending_mono ft i cc t (i + 1)
      simp only [if_true, Option.isSome_some, hnone, Option.isSome_none]
      simp only [Bool.false_eq_true, if_false]
      omega
    · have hlt : i + 1 ≤ cur := by omega
      have hidx : cur - i = (cur - (i + 1)) + 1 := by omega
      rw [hidx, List.getElem?_cons_succ] at hnode
      have := ih (i + 1) hlt hnode
      simp only [h, if_false]
      omega

theorem sort_pop (sort : List Open_Node → List Open_Node) (hsort : Sorts sort)
    (l : List Open_Node) (hne : l ≠ []) :
    ∃ current, (sort l).getLast? = some current ∧
      (∀ x, x ∈ l ↔ x ∈ (sort l).dropLast ∨ x = current) ∧
      (∀ x ∈ l, current.value ≤ x.value) ∧
      (sort l).dropLast.length + 1 = l.length := by
  obtain ⟨hperm, hpair⟩ := hsort l
  have hsne : sort l ≠ [] := by
    intro h
    rw [h] at hperm
    exact hne (List.Perm.nil_eq hperm).symm
  have hsplit : (sort l).dropLast ++ [(sort l).getLast hsne] = sort l :=
    List.dropLast_append_getLast hsne
  have hmem : ∀ x, x ∈ l ↔ x ∈ (sort l).dropLast ∨ x = (sort l).getLast hsne := by
    intro x
    have hm : x ∈ (sort l).dropLast ++ [(sort l).getLast hsne] ↔ x ∈ sort l := by
      rw [hsplit]
    rw [← hperm.mem_iff, ← hm]
    simp only [List.mem_append, List.mem_singleton]
  refine ⟨(sort l).getLast hsne, List.getLast?_eq_getLast _ hsne, hmem, ?_, ?_⟩
  · intro x hx
    rcases (hmem x).mp hx with h | h
    · have hp : ((sort l).dropLast ++ [(sort l).getLast hsne]).Pairwise
          (fun a b => b.value ≤ a.value) := by
        rw [hsplit]
        exact hpair
      rw [List.pairwise_append] at hp
      exact hp.2.2 x h _ (List.mem_singleton.mpr rfl)
    · rw [h]
  · rw [← hperm.length_eq]
    have hl := congrArg List.length hsplit
    simp only [List.length_append, List.length_singleton] at hl
    exact hl

theorem inv_lower_bound {distance : Coord → Coord → ℚ} {rd : Routing_Data}
    (hG : Graph_OK rd) {seeds : List (Nat × ℚ)} {origin : Route_Ref}
    {dests : List Route_Ref} {ft : List (Nat × Closed_Node)} {open_nodes : List Open_Node}
    {routes : List Route} (hinv : Inv distance rd seeds origin dests ft open_nodes routes)
    (n : Nat) (w : ℚ) (h : Reaches rd seeds n w) :
    (∃ c, ft.lookup n = some c ∧ c.value ≤ w) ∨ ∃ o ∈ open_nodes, o.value ≤ w := by
  induction h with
  | seed n v hmem =>
    rcases hinv.seeds_cov n v hmem with ⟨c, hc⟩ | ⟨o, ho, _, hv⟩
    · exact Or.inl ⟨c, hc, hinv.closed_least n c hc v (Reaches.seed n v hmem)⟩
    · exact Or.inr ⟨o, ho, hv⟩
  | step a b v ei e hr he hc ih =>
    have hval := hG.nonneg ei e he
    rcases ih with ⟨c, hca, hcv⟩ | ⟨o, ho, hv⟩
    · rcases hinv.frontier a c hca ei e b he hc with ⟨c1, hc1⟩ | ⟨o, ho, _, hv⟩
      · exact Or.inl ⟨c1, hc1, hinv.closed_least b c1 hc1 _ (Reaches.step a b v ei e hr he hc)⟩
      · exact Or.inr ⟨o, ho, by linarith⟩
    · exact Or.inr ⟨o, ho, by linarith⟩

theorem mem_incident {rd : Routing_Data} (hG : Graph_OK rd) (i : Nat) (node : Routing_Node)
    (hn : rd.nodes[i]? = some node) (ei : Nat) :
    ei ∈ node.edges ↔
      ∃ e, rd.edges[ei]? = some e ∧ (e.start = some i ∨ e.end_ = some i) := by
  rw [← List.count_pos_iff, hG.incident i node hn ei]
  unfold incidence
  cases he : rd.edges[ei]? with
  | none => simp
  | some e =>
    simp only [Option.some.injEq, exists_eq_left']
    by_cases h1 : e.start = some i
    · simp [h1]
    · by_cases h2 : e.end_ = some i
      · simp [h2]
      · simp [h1, h2]

theorem connects_end {e : Routing_Edge} {a b : Nat} (h : Connects e a b) :
    e.start = some a ∨ e.end_ = some a := by
  rcases h with ⟨h, _⟩ | ⟨_, h⟩
  · exact Or.inl h
  · exact Or.inr h

theorem connects_valid {rd : Routing_Data} (hG : Graph_OK rd) {ei : Nat} {e : Routing_Edge}
    (he : rd.edges[ei]? = some e) {a b : Nat} (h : Connects e a b) :
    b < rd.nodes.length := by
  obtain ⟨x, y, hx, hy, hxl, hyl⟩ := hG.ends ei e he
  rcases h with ⟨_, h⟩ | ⟨h, _⟩
  · rw [hy] at h
    exact Option.some.inj h ▸ hyl
  · rw [hx] at h
    exact Option.some.inj h ▸ hxl

theorem settled_value_cons (distance : Coord → Coord → ℚ) (rd : Routing_Data)
    (ft : List (Nat × Closed_Node)) (cur : Nat) (cc : Closed_Node)
    (hnone : ft.lookup cur = none) (d : Route_Ref) (v : ℚ)
    (h : settled_value distance rd ft d = some v) :
    settled_value distance rd ((cur, cc) :: ft) d = some v := by
  unfold settled_value at h ⊢
  cases hde : d.edge with
  | none => simp [hde] at h
  | some de =>
    simp only [hde] at h ⊢
    cases hed : rd.edges[de]? with
    | none => simp [hed] at h
    | some ed =>
      simp only [hed] at h ⊢
      have hfind : ∀ (p : Option Nat) (c : Closed_Node), final_tree_find ft p = some c →
          final_tree_find ((cur, cc) :: ft) p = some c := by
        intro p c hp
        cases p with
        | none => simp [final_tree_find] at hp
        | some n =>
          simp only [final_tree_find] at hp ⊢
          rw [lookup_cons_eq, if_neg]
          · exact hp
          · intro hn
            rw [hn, hnone] at hp
            exact absurd hp (by simp)
      cases hs : final_tree_find ft ed.start with
      | none => simp [hs] at h
      | some cs =>
        cases he : final_tree_find ft ed.end_ with
        | none => simp [hs, he] at h
        | some ce =>
          rw [hfind _ cs hs, hfind _ ce he]
          rw [hs, he] at h
          exact h

theorem settled_value_new (distance : Coord → Coord → ℚ) (rd : Routing_Data)
    (hG : Graph_OK rd) (ft : List (Nat × Closed_Node)) (cur : Nat) (cc : Closed_Node)
    (node : Routing_Node) (hnode : rd.nodes[cur]? = some node) (d : Route_Ref) (v : ℚ)
    (hnew : settled_value distance rd ((cur, cc) :: ft) d = some v)
    (hold : settled_value distance rd ft d = none) :
    ∃ de, d.edge = some de ∧ de ∈ node.edges := by
  unfold settled_value at hnew hold
  cases hde : d.edge with
  | none => simp [hde] at hnew
  | some de =>
    refine ⟨de, rfl, ?_⟩
    simp only [hde] at hnew hold
    cases hed : rd.edges[de]? with
    | none => simp [hed] at hnew
    | some ed =>
      simp only [hed] at hnew hold
      obtain ⟨a, b, ha, hb, _, _⟩ := hG.ends de ed hed
      rw [mem_incident hG cur node hnode de]
      refine ⟨ed, hed, ?_⟩
      by_contra hcon
      simp only [not_or, ha, hb, Option.some.injEq] at hcon
      simp only [ha, hb, final_tree_find, lookup_cons_eq, if_neg hcon.1, if_neg hcon.2]
        at hnew hold
      cases h1 : ft.lookup a with
      | none => simp [h1] at hnew
      | some cs =>
        cases h2 : ft.lookup b with
        | none => simp [h1, h2] at hnew
        | some ce => simp [h1, h2] at hold

theorem inv_skip {distance : Coord → Coord → ℚ} {rd : Routing_Data}
    {seeds : List (Nat × ℚ)} {origin : Route_Ref} {dests : List Route_Ref}
    {ft : List (Nat × Closed_Node)} {open_nodes rest : List Open_Node} {routes : List Route}
    (hinv : Inv distance rd seeds origin dests ft open_nodes routes)
    (current : Open_Node) (cur : Nat) (c : Closed_Node)
    (hmem : ∀ x, x ∈ open_nodes ↔ x ∈ rest ∨ x = current)
    (hcur : current.node = some cur) (hc : ft.lookup cur = some c) :
    Inv distance rd seeds origin dests ft rest routes := by
  refine ⟨hinv.closed_reach, hinv.closed_least, ?_, ?_, ?_, hinv.routes_length,
    hinv.routes_value⟩
  · intro o ho
    exact hinv.open_reach o ((hmem o).mpr (Or.inl ho))
  · intro n v hnv
    rcases hinv.seeds_cov n v hnv with h | ⟨o, ho, hn, hv⟩
    · exact Or.inl h
    · rcases (hmem o).mp ho with h | h
      · exact Or.inr ⟨o, h, hn, hv⟩
      · left
        rw [h, hcur] at hn
        exact ⟨c, Option.some.inj hn ▸ hc⟩
  · intro a ca hca ei e b he hcon
    rcases hinv.frontier a ca hca ei e b he hcon with h | ⟨o, ho, hn, hv⟩
    · exact Or.inl h
    · rcases (hmem o).mp ho with h | h
      · exact Or.inr ⟨o, h, hn, hv⟩
      · left
        rw [h, hcur] at hn
        exact ⟨c, Option.some.inj hn ▸ hc⟩

theorem inv_close {distance : Coord → Coord → ℚ} {rd : Routing_Data} (hG : Graph_OK rd)
    {seeds : List (Nat × ℚ)} {origin : Route_Ref} {dests : List Route_Ref}
    {ft : List (Nat × Closed_Node)} {open_nodes rest : List Open_Node} {routes : List Route}
    (hinv : Inv distance rd seeds origin dests ft open_nodes routes)
    (current : Open_Node) (cur : Nat)
    (hmem : ∀ x, x ∈ open_nodes ↔ x ∈ rest ∨ x = current)
    (hmin : ∀ x ∈ open_nodes, current.value ≤ x.value)
    (hcur : current.node = some cur) (hnone : ft.lookup cur = none)
    (node : Routing_Node) (hnode : rd.nodes[cur]? = some node)
    (pushes : List Open_Node) (routes1 : List Route)
    (hpa : ∀ o ∈ pushes, ∃ (ei : Nat) (e : Routing_Edge) (x : Nat), rd.edges[ei]? = some e ∧
      Connects e cur x ∧
      ((cur, (⟨current.arrived_from, current.value⟩ : Closed_Node)) :: ft).lookup x = none ∧
      o.node = some x ∧ o.value = current.value + e.valuation)
    (hpb : ∀ ei ∈ node.edges, ∀ (e : Routing_Edge) (x : Nat), rd.edges[ei]? = some e →
      Connects e cur x →
      ((cur, (⟨current.arrived_from, current.value⟩ : Closed_Node)) :: ft).lookup x = none →
      ∃ o ∈ pushes, o.node = some x ∧ o.value = current.value + e.valuation)
    (hlen : routes1.length = dests.length)
    (hrun : ∀ (k : Nat) (d : Route_Ref) (r0 : Route), dests[k]? = some d →
      routes[k]? = some r0 → ∃ r1, routes1[k]? = some r1 ∧
        Route_Run node.edges (settled_value distance rd
          ((cur, (⟨current.arrived_from, current.value⟩ : Closed_Node)) :: ft) d) d
          r0.value r1.value) :
    Inv distance rd seeds origin dests
      ((cur, (⟨current.arrived_from, current.value⟩ : Closed_Node)) :: ft)
      (rest ++ pushes) routes1 := by
  have hcin : current ∈ open_nodes := (hmem current).mpr (Or.inr rfl)
  obtain ⟨n0, hn0, _, hreach⟩ := hinv.open_reach current hcin
  rw [hcur] at hn0
  have hn0c : cur = n0 := Option.some.inj hn0
  subst hn0c
  have hleast : ∀ w, Reaches rd seeds cur w → current.value ≤ w := by
    intro w hw
    rcases inv_lower_bound hG hinv cur w hw with ⟨c, hc, _⟩ | ⟨o, ho, hv⟩
    · rw [hnone] at hc
      exact absurd hc (by simp)
    · exact le_trans (hmin o ho) hv
  refine ⟨?_, ?_, ?_, ?_, ?_, hlen, ?_⟩
  · intro n c hc
    rw [lookup_cons_eq] at hc
    by_cases h : n = cur
    · rw [if_pos h] at hc
      rw [← Option.some.inj hc, h]
      exact hreach
    · rw [if_neg h] at hc
      exact hinv.closed_reach n c hc
  · intro n c hc
    rw [lookup_cons_eq] at hc
    by_cases h : n = cur
    · rw [if_pos h] at hc
      rw [← Option.some.inj hc, h]
      exact hleast
    · rw [if_neg h] at hc
      exact hinv.closed_least n c hc
  · intro o ho
    rcases List.mem_append.mp ho with h | h
    · exact hinv.open_reach o ((hmem o).mpr (Or.inl h))
    · obtain ⟨ei, e, x, he, hcon, _, hx, hv⟩ := hpa o h
      refine ⟨x, hx, connects_valid hG he hcon, ?_⟩
      rw [hv]
      exact Reaches.step cur x current.value ei e hreach he hcon
  · intro n v hnv
    rcases hinv.seeds_cov n v hnv with ⟨c, hc⟩ | ⟨o, ho, hn, hv⟩
    · left
      rw [lookup_cons_eq]
      by_cases h : n = cur
      · exact ⟨_, if_pos h⟩
      · exact ⟨c, by rw [if_neg h]; exact hc⟩
    · rcases (hmem o).mp ho with h | h
      · exact Or.inr ⟨o, List.mem_append_left _ h, hn, hv⟩
      · left
        rw [h, hcur] at hn
        rw [lookup_cons_eq]
        exact ⟨_, if_pos (Option.some.inj hn).symm⟩
  · intro a c hc ei e b he hcon
    cases hb : ((cur, (⟨current.arrived_from, current.value⟩ : Closed_Node)) :: ft).lookup b
      with
    | some c1 => exact Or.inl ⟨c1, rfl⟩
    | none =>
      right
      rw [lookup_cons_eq] at hc
      by_cases h : a = cur
      · rw [if_pos h] at hc
        subst h
        have hei : ei ∈ node.edges :=
          (mem_incident hG a node hnode ei).mpr ⟨e, he, connects_end hcon⟩
        obtain ⟨o, ho, hn, hv⟩ := hpb ei hei e b he hcon hb
        refine ⟨o, List.mem_append_right _ ho, hn, ?_⟩
        rw [hv, ← Option.some.inj hc]
      · rw [if_neg h] at hc
        rw [lookup_cons_eq] at hb
        by_cases hbc : b = cur
        · rw [if_pos hbc] at hb
          exact absurd hb (by simp)
        · rw [if_neg hbc] at hb
          rcases hinv.frontier a c hc ei e b he hcon with ⟨c1, hc1⟩ | ⟨o, ho, hn, hv⟩
          · rw [hb] at hc1
            exact absurd hc1 (by simp)
          · rcases (hmem o).mp ho with h1 | h1
            · exact ⟨o, List.mem_append_left _ h1, hn, hv⟩
            · rw [h1, hcur] at hn
              exact absurd (Option.some.inj hn).symm hbc
  · intro k d r1 hd hr1
    have hk : k < routes.length := by
      rw [hinv.routes_length]
      exact (List.getElem?_eq_some.mp hd).1
    obtain ⟨r0, hr0⟩ : ∃ r0, routes[k]? = some r0 := ⟨_, List.getElem?_eq_getElem hk⟩
    obtain ⟨r1a, hr1a, hrr⟩ := hrun k d r0 hd hr0
    rw [hr1] at hr1a
    have hre : r1 = r1a := Option.some.inj hr1a
    subst hre
    have h0 := hinv.routes_value k d r0 hd hr0
    unfold route_value at h0 ⊢
    by_cases hinit : init_value origin d = 180
    · rw [if_pos hinit] at h0 ⊢
      cases hold : settled_value distance rd ft d with
      | some v =>
        rw [hold] at h0
        have hnew := settled_value_cons distance rd ft cur
          ⟨current.arrived_from, current.value⟩ hnone d v hold
        rw [hnew]
        exact hrr.stay v hnew h0
      | none =>
        rw [hold] at h0
        cases hnew : settled_value distance rd
            ((cur, (⟨current.arrived_from, current.value⟩ : Closed_Node)) :: ft) d with
        | none =>
          rw [hnew] at hrr
          simp only
          rw [hrr.keep_unsettled rfl]
          exact h0
        | some v =>
          rw [hnew] at hrr
          obtain ⟨de, hde, hdm⟩ := settled_value_new distance rd hG ft cur _ node hnode d v
            hnew hold
          exact hrr.assign de v hde hdm rfl h0
    · rw [if_neg hinit] at h0 ⊢
      rw [hrr.keep_other (h0 ▸ hinit)]
      exact h0

theorem main_loop_spec (sort : List Open_Node → List Open_Node) (hsort : Sorts sort)
    (distance : Coord → Coord → ℚ) (rd : Routing_Data) (hG : Graph_OK rd)
    (seeds : List (Nat × ℚ)) (origin : Route_Ref) (dests : List Route_Ref) (fuel : Nat)
    (ft : List (Nat × Closed_Node)) (open_nodes : List Open_Node) (routes : List Route)
    (hinv : Inv distance rd seeds origin dests ft open_nodes routes)
    (hfuel : open_nodes.length + pending ft 0 rd.nodes ≤ fuel) :
    ∃ ft1 routes1, main_loop sort distance rd dests origin fuel ft open_nodes routes
        = some routes1 ∧ Inv distance rd seeds origin dests ft1 [] routes1 := by
  induction fuel generalizing ft open_nodes routes with
  | zero =>
    cases open_nodes with
    | nil => exact ⟨ft, routes, by simp [main_loop], hinv⟩
    | cons o os =>
      simp only [List.length_cons] at hfuel
      omega
  | succ fuel ih =>
    cases open_nodes with
    | nil => exact ⟨ft, routes, by simp [main_loop], hinv⟩
    | cons o os =>
      obtain ⟨current, hlast, hmem, hmin, hlen⟩ :=
        sort_pop sort hsort (o :: os) (List.cons_ne_nil _ _)
      obtain ⟨cur, hcur, hvalid, _⟩ := hinv.open_reach current ((hmem current).mpr (Or.inr rfl))
      simp only [List.length_cons] at hfuel hlen
      cases hfind : ft.lookup cur with
      | some c =>
        have hinv1 := inv_skip hinv current cur c hmem hcur hfind
        obtain ⟨ft1, routes1, hres, hfin⟩ := ih ft (sort (o :: os)).dropLast routes hinv1
          (by omega)
        refine ⟨ft1, routes1, ?_, hfin⟩
        simp only [main_loop, hlast, hcur, hfind]
        exact hres
      | none =>
        obtain ⟨node, hnode⟩ : ∃ node, rd.nodes[cur]? = some node :=
          ⟨_, List.getElem?_eq_getElem hvalid⟩
        have hL : ∀ ei ∈ node.edges, ∃ e, rd.edges[ei]? = some e ∧
            (e.start = some cur ∨ e.end_ = some cur) :=
          fun ei hei => (mem_incident hG cur node hnode ei).mp hei
        obtain ⟨pushes, routes1, hfold, hplen, hpa, hpb, hrlen, hrun⟩ :=
          visit_fold_spec distance rd hG dests origin
            ((cur, (⟨current.arrived_from, current.value⟩ : Closed_Node)) :: ft) cur
            current.value ⟨_, by rw [lookup_cons_eq, if_pos rfl], rfl⟩ node.edges hL
            (sort (o :: os)).dropLast routes hinv.routes_length
        have hinv1 := inv_close hG hinv current cur hmem hmin hcur hfind node hnode pushes
          routes1 hpa hpb hrlen hrun
        have hpend := pending_close ft cur ⟨current.arrived_from, current.value⟩ hfind
          rd.nodes 0 node (Nat.zero_le _) (by simpa using hnode)
        obtain ⟨ft1, routes2, hres, hfin⟩ := ih _ _ _ hinv1 (by
          simp only [List.length_append]
          omega)
        refine ⟨ft1, routes2, ?_, hfin⟩
        simp only [main_loop, hlast, hcur, hfind, hnode, hfold]
        exact hres

theorem graph_ok_of_built (distance : Coord → Coord → ℚ) (hdist : ∀ a b, 0 ≤ distance a b)
    (data : Parsing_State) (rd : Routing_Data) (hB : Built distance data rd) :
    Graph_OK rd := by
  have hed : ∀ (ei : Nat) (e : Routing_Edge), rd.edges[ei]? = some e →
      (∃ a b, e.start = some a ∧ e.end_ = some b ∧ a < rd.nodes.length ∧
        b < rd.nodes.length) ∧ 0 ≤ e.valuation := by
    intro ei e he
    obtain ⟨k, w, entry, segs, base, j, _, _, hwb, hj, rfl⟩ :=
      hB.slots ei (List.getElem?_eq_some.mp he).1
    obtain ⟨seg, hseg⟩ : ∃ seg, segs[j]? = some seg := ⟨_, List.getElem?_eq_getElem hj⟩
    obtain ⟨e1, he1, hb1⟩ := hwb.2.2.2 j seg hseg
    rw [he] at he1
    have hee : e = e1 := Option.some.inj he1
    subst hee
    have hp := hwb.2.2.1 seg (List.mem_iff_getElem?.mpr ⟨j, hseg⟩)
    obtain ⟨a, b, na, nb, h1, h2, h3, h4, _, _, h7⟩ := edge_ends_of_promoted distance data
      rd.nodes hB.ids w seg.1 seg.2 e hb1 hp.1 hp.2
    exact ⟨⟨a, b, h1, h2, (List.getElem?_eq_some.mp h3).1, (List.getElem?_eq_some.mp h4).1⟩,
      h7 hdist⟩
  exact ⟨fun ei e he => (hed ei e he).1, fun ei e he => (hed ei e he).2, hB.incident⟩

theorem settled_value_nil (distance : Coord → Coord → ℚ) (rd : Routing_Data)
    (d : Route_Ref) : settled_value distance rd [] d = none := by
  unfold settled_value
  cases d.edge with
  | none => rfl
  | some de =>
    simp only
    cases rd.edges[de]? with
    | none => rfl
    | some ed =>
      simp only
      cases ed.start <;> simp [final_tree_find]

theorem inv_initial (distance : Coord → Coord → ℚ) (rd : Routing_Data) (hG : Graph_OK rd)
    (origin : Route_Ref) (dests : List Route_Ref) (oe : Nat) (eo : Routing_Edge)
    (heo : rd.edges[oe]? = some eo) (sa ta : Nat) (hsa0 : eo.start = some sa)
    (hta0 : eo.end_ = some ta) (pv : ℚ) :
    Inv distance rd (seeds_of sa ta eo pv) origin dests []
      [⟨eo.start, some oe, pv⟩, ⟨eo.end_, some oe, eo.valuation - pv⟩]
      (initial_routes origin dests) := by
  obtain ⟨a, b, ha, hb, hal, hbl⟩ := hG.ends oe eo heo
  rw [hsa0] at ha
  rw [hta0] at hb
  have hsa : sa = a := Option.some.inj ha
  have htb : ta = b := Option.some.inj hb
  subst hsa
  subst htb
  refine ⟨?_, ?_, ?_, ?_, ?_, by simp [initial_routes], ?_⟩
  · intro n c hc
    simp at hc
  · intro n c hc
    simp at hc
  · intro o ho
    simp only [List.mem_cons, List.mem_singleton, List.not_mem_nil, or_false] at ho
    rcases ho with rfl | rfl
    · exact ⟨sa, hsa0, hal, Reaches.seed sa pv (by simp [seeds_of])⟩
    · exact ⟨ta, hta0, hbl, Reaches.seed ta _ (by simp [seeds_of])⟩
  · intro n v hnv
    right
    simp only [seeds_of, List.mem_cons, List.mem_singleton, Prod.mk.injEq, List.not_mem_nil,
      or_false] at hnv
    rcases hnv with ⟨rfl, rfl⟩ | ⟨rfl, rfl⟩
    · exact ⟨_, List.mem_cons_self _ _, hsa0, le_refl _⟩
    · exact ⟨_, List.mem_cons_of_mem _ (List.mem_cons_self _ _), hta0, le_refl _⟩
  · intro a c hc
    simp at hc
  · intro k d r hd hr
    rw [settled_value_nil]
    simp only [initial_routes, List.getElem?_map, hd, Option.map_some', Option.some.injEq]
      at hr
    rw [← hr]
    unfold route_value init_value
    by_cases hc : d.edge = origin.edge ∧ d.index = origin.index
    · simp only [if_pos hc]
      by_cases h180 : |d.pos - origin.pos| = 180
      · rw [if_pos h180]
        exact h180
      · rw [if_neg h180]
    · simp only [if_neg hc, if_true]

theorem route_tree_done (sort : List Open_Node → List Open_Node) (hsort : Sorts sort)
    (distance : Coord → Coord → ℚ) (rd : Routing_Data) (hG : Graph_OK rd)
    (origin : Route_Ref) (dests : List Route_Ref) (oe : Nat) (eo : Routing_Edge)
    (ho : origin.edge = some oe) (heo : rd.edges[oe]? = some eo) (sa ta : Nat)
    (hsa0 : eo.start = some sa) (hta0 : eo.end_ = some ta) (fuel : Nat)
    (hfuel : fuel_bound rd ≤ fuel) :
    ∃ ft routes, Route_Tree sort distance rd origin dests fuel = some routes ∧
      Search_Done distance rd
        (seeds_of sa ta eo (eo.proportionate_valuation distance origin.index origin.pos))
        origin dests ft routes := by
  have hinit := inv_initial distance rd hG origin dests oe eo heo sa ta hsa0 hta0
    (eo.proportionate_valuation distance origin.index origin.pos)
  obtain ⟨ft, routes, hres, hfin⟩ := main_loop_spec sort hsort distance rd hG _ origin dests
    fuel [] _ _ hinit (by
      unfold fuel_bound at hfuel
      simp only [List.length_cons, List.length_nil]
      omega)
  refine ⟨ft, routes, ?_, hfin.routes_length, hfin.routes_value, hfin.closed_reach, ?_⟩
  · simp only [Route_Tree, ho, heo]
    exact hres
  · intro n w hw
    rcases inv_lower_bound hG hfin n w hw with h | ⟨o, ho, _⟩
    · exact h
    · simp at ho

/-! ## Values of finished runs -/

theorem through_symm (rd : Routing_Data) (seeds_a seeds_b : List (Nat × ℚ)) (w : ℚ)
    (h : Through rd seeds_a seeds_b w) : Through rd seeds_b seeds_a w := by
  obtain ⟨x, vx, y, vy, c, hx, hy, hw, heq⟩ := h
  exact ⟨y, vy, x, vx, c, hy, hx, walk_symm rd x y c hw, by rw [heq]; ring⟩

theorem anchor_value_eq_min (sv ev p val : ℚ) :
    anchor_value sv ev p val = min (sv + p) (ev + val - p) := by
  unfold anchor_value
  split
  · rename_i h
    exact (min_eq_left (le_of_lt h)).symm
  · rename_i h
    exact (min_eq_right (not_lt.mp h)).symm

theorem closed_unique {distance : Coord → Coord → ℚ} {rd : Routing_Data}
    {seeds : List (Nat × ℚ)} {origin : Route_Ref} {dests : List Route_Ref}
    {ft : List (Nat × Closed_Node)} {routes : List Route}
    (hdone : Search_Done distance rd seeds origin dests ft routes) (n : Nat)
    (c : Closed_Node) (hc : ft.lookup n = some c) (w : ℚ) (hw : Reaches rd seeds n w) :
    c.value ≤ w := by
  obtain ⟨c1, hc1, hle⟩ := hdone.closed_all n w hw
  rw [hc] at hc1
  rw [Option.some.inj hc1]
  exact hle

theorem settled_is_least {distance : Coord → Coord → ℚ} {rd : Routing_Data}
    {seeds : List (Nat × ℚ)} {origin : Route_Ref} {dests : List Route_Ref}
    {ft : List (Nat × Closed_Node)} {routes : List Route}
    (hdone : Search_Done distance rd seeds origin dests ft routes)
    (d : Route_Ref) (de : Nat) (ed : Routing_Edge) (hde : d.edge = some de)
    (hed : rd.edges[de]? = some ed) (sb tb : Nat) (hsb : ed.start = some sb)
    (htb : ed.end_ = some tb) (hrs : ∃ w, Reaches rd seeds sb w)
    (hrt : ∃ w, Reaches rd seeds tb w) :
    ∃ v, settled_value distance rd ft d = some v ∧
      Through rd seeds
        (seeds_of sb tb ed (ed.proportionate_valuation distance d.index d.pos)) v ∧
      ∀ w, Through rd seeds
        (seeds_of sb tb ed (ed.proportionate_valuation distance d.index d.pos)) w → v ≤ w := by
  obtain ⟨ws, hws⟩ := hrs
  obtain ⟨wt, hwt⟩ := hrt
  obtain ⟨cs, hcs, _⟩ := hdone.closed_all sb ws hws
  obtain ⟨ce, hce, _⟩ := hdone.closed_all tb wt hwt
  refine ⟨anchor_value cs.value ce.value
    (ed.proportionate_valuation distance d.index d.pos) ed.valuation,
    by simp only [settled_value, hde, hed, hsb, htb, final_tree_find, hcs, hce], ?_, ?_⟩
  · rw [anchor_value_eq_min]
    rcases min_choice (cs.value + ed.proportionate_valuation distance d.index d.pos)
      (ce.value + ed.valuation - ed.proportionate_valuation distance d.index d.pos)
      with h | h
    · rw [h]
      obtain ⟨x, vx, c, hx, hwalk, heq⟩ :=
        walk_of_reaches rd seeds sb cs.value (hdone.closed_reach sb cs hcs)
      exact ⟨x, vx, sb, ed.proportionate_valuation distance d.index d.pos, c, hx,
        by simp [seeds_of], hwalk, by rw [heq]⟩
    · rw [h]
      obtain ⟨x, vx, c, hx, hwalk, heq⟩ :=
        walk_of_reaches rd seeds tb ce.value (hdone.closed_reach tb ce hce)
      exact ⟨x, vx, tb, ed.valuation - ed.proportionate_valuation distance d.index d.pos, c,
        hx, by simp [seeds_of], hwalk, by rw [heq]; ring⟩
  · rintro w ⟨x, vx, y, vy, c, hx, hy, hwalk, heq⟩
    rw [anchor_value_eq_min, heq]
    simp only [seeds_of, List.mem_cons, List.mem_singleton, Prod.mk.injEq, List.not_mem_nil,
      or_false] at hy
    rcases hy with ⟨rfl, rfl⟩ | ⟨rfl, rfl⟩
    · have := closed_unique hdone y cs hcs (vx + c) (reaches_of_walk rd seeds x vx hx y c hwalk)
      exact le_trans (min_le_left _ _) (by linarith)
    · have := closed_unique hdone y ce hce (vx + c) (reaches_of_walk rd seeds x vx hx y c hwalk)
      exact le_trans (min_le_right _ _) (by linarith)

theorem closed_eq_min {distance : Coord → Coord → ℚ} {rd : Routing_Data}
    {origin : Route_Ref} {dests : List Route_Ref} {ft : List (Nat × Closed_Node)}
    {routes : List Route} (sa ta : Nat) (eo : Routing_Edge) (pv : ℚ)
    (hdone : Search_Done distance rd (seeds_of sa ta eo pv) origin dests ft routes)
    (n : Nat) (d1 d2 : ℚ) (h1 : Shortest rd sa n d1) (h2 : Shortest rd ta n d2) :
    ∃ c, ft.lookup n = some c ∧ c.value = min (pv + d1) (eo.valuation - pv + d2) := by
  have hr1 : Reaches rd (seeds_of sa ta eo pv) n (pv + d1) :=
    reaches_of_walk rd _ sa pv (by simp [seeds_of]) n d1 h1.1
  have hr2 : Reaches rd (seeds_of sa ta eo pv) n (eo.valuation - pv + d2) :=
    reaches_of_walk rd _ ta _ (by simp [seeds_of]) n d2 h2.1
  obtain ⟨c, hc, hle1⟩ := hdone.closed_all n _ hr1
  have hle2 := closed_unique hdone n c hc _ hr2
  refine ⟨c, hc, le_antisymm (le_min hle1 hle2) ?_⟩
  obtain ⟨x, vx, w, hx, hwalk, heq⟩ :=
    walk_of_reaches rd _ n c.value (hdone.closed_reach n c hc)
  simp only [seeds_of, List.mem_cons, List.mem_singleton, Prod.mk.injEq, List.not_mem_nil,
    or_false] at hx
  rcases hx with ⟨rfl, rfl⟩ | ⟨rfl, rfl⟩
  · have := h1.2 w hwalk
    exact le_trans (min_le_left _ _) (by linarith)
  · have := h2.2 w hwalk
    exact le_trans (min_le_right _ _) (by linarith)

theorem insertion_sort_sorts : Sorts insertion_sort := by
  intro l
  haveI : IsTotal Open_Node (fun a b => b.value ≤ a.value) :=
    ⟨fun a b => le_total b.value a.value⟩
  haveI : IsTrans Open_Node (fun a b => b.value ≤ a.value) :=
    ⟨fun a b c hab hbc => le_trans hbc hab⟩
  exact ⟨List.perm_insertionSort _ l, List.sorted_insertionSort _ l⟩

theorem shortest_exists (rd : Routing_Data) (hG : Graph_OK rd) (a b : Nat) (w : ℚ)
    (ha : a < rd.nodes.length) (hw : Walk rd a b w) : ∃ d, Shortest rd a b d := by
  have hinit : Inv (fun _ _ => 0) rd [(a, 0)] ⟨"", none, 0, 0⟩ [] []
      [⟨some a, none, 0⟩] [] := by
    refine ⟨?_, ?_, ?_, ?_, ?_, rfl, ?_⟩
    · intro n c hc
      simp at hc
    · intro n c hc
      simp at hc
    · intro o ho
      rw [List.mem_singleton] at ho
      subst ho
      exact ⟨a, rfl, ha, walk_refl rd a⟩
    · intro n v hnv
      rw [List.mem_singleton] at hnv
      right
      refine ⟨_, List.mem_singleton.mpr rfl, ?_, ?_⟩
      · rw [(Prod.mk.inj hnv).1]
      · rw [(Prod.mk.inj hnv).2]
    · intro x c hc
      simp at hc
    · intro k d r hd
      simp at hd
  obtain ⟨ft, routes, _, hfin⟩ := main_loop_spec insertion_sort insertion_sort_sorts
    (fun _ _ => 0) rd hG [(a, 0)] ⟨"", none, 0, 0⟩ [] (1 + pending [] 0 rd.nodes) []
    [⟨some a, none, 0⟩] [] hinit (by simp)
  rcases inv_lower_bound hG hfin b w hw with ⟨c, hc, _⟩ | ⟨o, ho, _⟩
  · exact ⟨c.value, hfin.closed_reach b c hc, hfin.closed_least b c hc⟩
  · simp at ho

theorem shortest_between_edges (rd : Routing_Data) (hG : Graph_OK rd)
    (ia ib : Nat) (ea eb : Routing_Edge) (hea : rd.edges[ia]? = some ea)
    (heb : rd.edges[ib]? = some eb) (sa ta sb tb : Nat) (hsa : ea.start = some sa)
    (hta : ea.end_ = some ta) (hsb : eb.start = some sb) (htb : eb.end_ = some tb)
    (hconn : ∃ (x y : Nat) (w : ℚ), (ea.start = some x ∨ ea.end_ = some x) ∧
      (eb.start = some y ∨ eb.end_ = some y) ∧ Walk rd x y w) :
    ∃ d1 d2 d3 d4, Shortest rd sa sb d1 ∧ Shortest rd ta sb d2 ∧ Shortest rd sa tb d3 ∧
      Shortest rd ta tb d4 := by
  obtain ⟨x, y, w, hx, hy, hw⟩ := hconn
  obtain ⟨a1, a2, ha1, ha2, hal1, hal2⟩ := hG.ends ia ea hea
  rw [hsa] at ha1
  rw [hta] at ha2
  have hsal : sa < rd.nodes.length := Option.some.inj ha1 ▸ hal1
  have htal : ta < rd.nodes.length := Option.some.inj ha2 ▸ hal2
  have hst_a : Walk rd sa ta ea.valuation := walk_edge rd ia ea sa ta hea (Or.inl ⟨hsa, hta⟩)
  have hst_b : Walk rd sb tb eb.valuation := walk_edge rd ib eb sb tb heb (Or.inl ⟨hsb, htb⟩)
  have hsx : ∃ c, Walk rd sa x c := by
    rcases hx with h | h
    · rw [hsa] at h
      exact ⟨0, Option.some.inj h ▸ walk_refl rd sa⟩
    · rw [hta] at h
      exact ⟨_, Option.some.inj h ▸ hst_a⟩
  have hysb : ∃ c, Walk rd y sb c := by
    rcases hy with h | h
    · rw [hsb] at h
      exact ⟨0, Option.some.inj h ▸ walk_refl rd sb⟩
    · rw [htb] at h
      exact ⟨_, Option.some.inj h ▸ walk_symm rd sb tb _ hst_b⟩
  obtain ⟨c1, hc1⟩ := hsx
  obtain ⟨c2, hc2⟩ := hysb
  have h_sa_sb : Walk rd sa sb (c1 + w + c2) :=
    walk_trans rd sa y sb _ _ (walk_trans rd sa x y _ _ hc1 hw) hc2
  have h_ta_sb := walk_trans rd ta sa sb _ _ (walk_symm rd sa ta _ hst_a) h_sa_sb
  have h_sa_tb := walk_trans rd sa sb tb _ _ h_sa_sb hst_b
  have h_ta_tb := walk_trans rd ta sb tb _ _ h_ta_sb hst_b
  obtain ⟨d1, hd1⟩ := shortest_exists rd hG sa sb _ hsal h_sa_sb
  obtain ⟨d2, hd2⟩ := shortest_exists rd hG ta sb _ htal h_ta_sb
  obtain ⟨d3, hd3⟩ := shortest_exists rd hG sa tb _ hsal h_sa_tb
  obtain ⟨d4, hd4⟩ := shortest_exists rd hG ta tb _ htal h_ta_tb
  exact ⟨d1, d2, d3, d4, hd1, hd2, hd3, hd4⟩

/-! ## Concrete runs of the search -/

theorem meridian_distance_nonneg (a b : Coord) : 0 ≤ meridian_distance a b :=
  abs_nonneg _

/-! ## The search: claims C1, C2, C3, C4 -/

theorem route_value_formula (sort : List Open_Node → List Open_Node)
    (hsort : Sorts sort) (distance : Coord → Coord → ℚ) (hdist : ∀ a b, 0 ≤ distance a b)
    (data : Parsing_State) (rd : Routing_Data)
    (hb : Routing_Data.build distance data = some rd)
    (origin : Route_Ref) (oe : Nat) (eo : Routing_Edge) (ho : origin.edge = some oe)
    (heo : rd.edges[oe]? = some eo) (sa ta : Nat) (hsa : eo.start = some sa)
    (hta : eo.end_ = some ta)
    (dests : List Route_Ref) (k : Nat) (d : Route_Ref) (hd : dests[k]? = some d)
    (de : Nat) (ed : Routing_Edge) (hde : d.edge = some de) (hed : rd.edges[de]? = some ed)
    (sb tb : Nat) (hsb : ed.start = some sb) (htb : ed.end_ = some tb)
    (hdiff : ¬ (d.edge = origin.edge ∧ d.index = origin.index))
    (hconn : ∃ (x y : Nat) (w : ℚ), (eo.start = some x ∨ eo.end_ = some x) ∧
      (ed.start = some y ∨ ed.end_ = some y) ∧ Walk rd x y w)
    (fuel : Nat) (hfuel : fuel_bound rd ≤ fuel) :
    ∃ d1 d2 d3 d4, Shortest rd sa sb d1 ∧ Shortest rd ta sb d2 ∧ Shortest rd sa tb d3 ∧
      Shortest rd ta tb d4 ∧
      ∃ routes r, Route_Tree sort distance rd origin dests fuel = some routes ∧
        routes.length = dests.length ∧ routes[k]? = some r ∧
        r.value =
          min
            (min (eo.proportionate_valuation distance origin.index origin.pos + d1)
                (eo.valuation - eo.proportionate_valuation distance origin.index origin.pos
                  + d2)
              + ed.proportionate_valuation distance d.index d.pos)
            (min (eo.proportionate_valuation distance origin.index origin.pos + d3)
                (eo.valuation - eo.proportionate_valuation distance origin.index origin.pos
                  + d4)
              + ed.valuation - ed.proportionate_valuation distance d.index d.pos) := by
  have hG := graph_ok_of_built distance hdist data rd (build_spec distance data rd hb)
  obtain ⟨d1, d2, d3, d4, h1, h2, h3, h4⟩ := shortest_between_edges rd hG oe de eo ed heo hed
    sa ta sb tb hsa hta hsb htb hconn
  refine ⟨d1, d2, d3, d4, h1, h2, h3, h4, ?_⟩
  obtain ⟨ft, routes, hres, hdone⟩ := route_tree_done sort hsort distance rd hG origin dests
    oe eo ho heo sa ta hsa hta fuel hfuel
  have hk : k < routes.length := by
    rw [hdone.length]
    exact (List.getElem?_eq_some.mp hd).1
  obtain ⟨r, hr⟩ : ∃ r, routes[k]? = some r := ⟨_, List.getElem?_eq_getElem hk⟩
  refine ⟨routes, r, hres, hdone.length, hr, ?_⟩
  obtain ⟨cs, hcs, hcsv⟩ := closed_eq_min sa ta eo _ hdone sb d1 d2 h1 h2
  obtain ⟨ce, hce, hcev⟩ := closed_eq_min sa ta eo _ hdone tb d3 d4 h3 h4
  rw [hdone.value k d r hd hr]
  have hinit : init_value origin d = 180 := by
    unfold init_value
    rw [if_neg hdiff]
  have hset : settled_value distance rd ft d = some (anchor_value cs.value ce.value
      (ed.proportionate_valuation distance d.index d.pos) ed.valuation) := by
    simp only [settled_value, hde, hed, hsb, htb, final_tree_find, hcs, hce]
  unfold route_value
  rw [if_pos hinit, hset]
  simp only
  rw [anchor_value_eq_min, hcsv, hcev]

/-- C1, amended (search postcondition, in exact arithmetic: every operation on `double` is
read as the exact operation).  Let `rd` be built by the constructor,
let the origin be anchored on the edge `eo` of `rd` with ends `sa` and `ta`, and let `d` be
a destination anchored on the edge `ed` with ends `sb` and `tb` that does not share both
edge and within-edge index with the origin, some end of `ed` being joined to some end of
`eo` by a node-to-node path.  Then the least sums `d1`, `d2`, `d3`, `d4` of edge valuations
over the node-to-node paths from `sa` and `ta` to `sb` and to `tb` exist, and for every
sorting function that meets the contract of `std::sort` (whatever it does with equal
values) and every fuel from `fuel_bound rd` on, the search finishes and the route value of
`d` is `min (D sb + p) (D tb + ed.valuation - p)` with
`D v = min (pv + δ(sa, v)) (eo.valuation - pv + δ(ta, v))`, where `pv` and `p` are the
proportionate valuations of the origin and of `d`. -/
theorem route_tree_postcondition (sort : List Open_Node → List Open_Node)
    (hsort : Sorts sort) (distance : Coord → Coord → ℚ) (hdist : ∀ a b, 0 ≤ distance a b)
    (data : Parsing_State) (rd : Routing_Data)
    (hb : Routing_Data.build distance data = some rd)
    (origin : Route_Ref) (oe : Nat) (eo : Routing_Edge) (ho : origin.edge = some oe)
    (heo : rd.edges[oe]? = some eo) (sa ta : Nat) (hsa : eo.start = some sa)
    (hta : eo.end_ = some ta)
    (dests : List Route_Ref) (k : Nat) (d : Route_Ref) (hd : dests[k]? = some d)
    (de : Nat) (ed : Routing_Edge) (hde : d.edge = some de) (hed : rd.edges[de]? = some ed)
    (sb tb : Nat) (hsb : ed.start = some sb) (htb : ed.end_ = some tb)
    (hdiff : ¬ (d.edge = origin.edge ∧ d.index = origin.index))
    (hconn : ∃ (x y : Nat) (w : ℚ), (eo.start = some x ∨ eo.end_ = some x) ∧
      (ed.start = some y ∨ ed.end_ = some y) ∧ Walk rd x y w)
    (fuel : Nat) (hfuel : fuel_bound rd ≤ fuel) :
    ∃ d1 d2 d3 d4, Shortest rd sa sb d1 ∧ Shortest rd ta sb d2 ∧ Shortest rd sa tb d3 ∧
      Shortest rd ta tb d4 ∧
      ∃ routes r, Route_Tree sort distance rd origin dests fuel = some routes ∧
        routes.length = dests.length ∧ routes[k]? = some r ∧
        r.value =
          min
            (min (eo.proportionate_valuation distance origin.index origin.pos + d1)
                (eo.valuation - eo.proportionate_valuation distance origin.index origin.pos
                  + d2)
              + ed.proportionate_valuation distance d.index d.pos)
            (min (eo.proportionate_valuation distance origin.index origin.pos + d3)
                (eo.valuation - eo.proportionate_valuation distance origin.index origin.pos
                  + d4)
              + ed.valuation - ed.proportionate_valuation distance d.index d.pos) :=
  route_value_formula sort hsort distance hdist data rd hb origin oe eo ho heo sa ta hsa hta
    dests k d hd de ed hde hed sb tb hsb htb hdiff hconn fuel hfuel

theorem route_tree_postcondition_witness :
    (Route_Tree insertion_sort meridian_distance t_junction_rd anchor_a [anchor_b] 10).map
      (List.map Route.value) = some [5 / 4] ∧
    ∃ d1 d2 d3 d4, Shortest t_junction_rd 0 3 d1 ∧ Shortest t_junction_rd 1 3 d2 ∧
      Shortest t_junction_rd 0 1 d3 ∧ Shortest t_junction_rd 1 1 d4 ∧
      ∃ routes r, Route_Tree insertion_sort meridian_distance t_junction_rd anchor_a
          [anchor_b] 10 = some routes ∧
        routes.length = [anchor_b].length ∧ routes[0]? = some r ∧
        r.value =
          min
            (min (t_edge_0.proportionate_valuation meridian_distance anchor_a.index
                  anchor_a.pos + d1)
                (t_edge_0.valuation - t_edge_0.proportionate_valuation meridian_distance
                  anchor_a.index anchor_a.pos + d2)
              + t_edge_2.proportionate_valuation meridian_distance anchor_b.index
                  anchor_b.pos)
            (min (t_edge_0.proportionate_valuation meridian_distance anchor_a.index
                  anchor_a.pos + d3)
                (t_edge_0.valuation - t_edge_0.proportionate_valuation meridian_distance
                  anchor_a.index anchor_a.pos + d4)
              + t_edge_2.valuation - t_edge_2.proportionate_valuation meridian_distance
                  anchor_b.index anchor_b.pos) :=
  ⟨by decide!,
    route_tree_postcondition insertion_sort insertion_sort_sorts meridian_distance
      meridian_distance_nonneg t_junction t_junction_rd (by decide!) anchor_a 0 t_edge_0 rfl
      (by decide) 0 1 rfl rfl [anchor_b] 0 anchor_b rfl 2 t_edge_2 rfl (by decide) 3 1 rfl
      rfl (by decide) ⟨1, 1, 0, Or.inr rfl, Or.inr rfl, walk_refl t_junction_rd 1⟩ 10
      (by decide)⟩

/-- C2 fails on the code.  On the single edge built from the way `[1, 2, 3]` (nodes one
degree apart on a meridian, node 2 no junction), the anchor in the middle of the first
segment lies 1/2 from the start of the edge and the anchor in the middle of the second
segment lies 3/2 from it, so the stretch of the edge between them has length 1; the search
from the first anchor returns the value 2 for the second. -/
theorem same_edge_other_segment_value :
    Routing_Data.build meridian_distance two_segment_way = some two_segment_rd ∧
    Route_Ref.make two_segment_rd ⟨5, 0, 1 / 2⟩ "A" = some ⟨"A", some 0, 0, 1 / 2⟩ ∧
    Route_Ref.make two_segment_rd ⟨5, 1, 1 / 2⟩ "B" = some ⟨"B", some 0, 1, 1 / 2⟩ ∧
    Route_Ref.proportionate_valuation meridian_distance two_segment_rd ⟨"A", some 0, 0, 1 / 2⟩
      = some (1 / 2) ∧
    Route_Ref.proportionate_valuation meridian_distance two_segment_rd ⟨"B", some 0, 1, 1 / 2⟩
      = some (3 / 2) ∧
    (Route_Tree insertion_sort meridian_distance two_segment_rd ⟨"A", some 0, 0, 1 / 2⟩
      [⟨"B", some 0, 1, 1 / 2⟩] (fuel_bound two_segment_rd)).map (List.map Route.value)
      = some [2] :=
  ⟨by decide!, by decide!, by decide!, by decide!, by decide!, by decide!⟩

theorem seeds_of_mem_start (sa ta : Nat) (e : Routing_Edge) (pv : ℚ) :
    (sa, pv) ∈ seeds_of sa ta e pv := by
  simp [seeds_of]

theorem seeds_of_mem_end (sa ta : Nat) (e : Routing_Edge) (pv : ℚ) :
    (ta, e.valuation - pv) ∈ seeds_of sa ta e pv := by
  simp [seeds_of]

theorem init_value_symm (a b : Route_Ref) : init_value a b = init_value b a := by
  unfold init_value
  by_cases h : b.edge = a.edge ∧ b.index = a.index
  · rw [if_pos h, if_pos ⟨h.1.symm, h.2.symm⟩, abs_sub_comm]
  · rw [if_neg h, if_neg (fun h1 => h ⟨h1.1.symm, h1.2.symm⟩)]

theorem reaches_both_ends (rd : Routing_Data) (seeds : List (Nat × ℚ)) (x : Nat) (vx : ℚ)
    (hx : (x, vx) ∈ seeds) (y : Nat) (w : ℚ) (hw : Walk rd x y w) (eb : Nat)
    (e : Routing_Edge) (he : rd.edges[eb]? = some e) (sb tb : Nat)
    (hsb : e.start = some sb) (htb : e.end_ = some tb)
    (hy : e.start = some y ∨ e.end_ = some y) :
    (∃ w1, Reaches rd seeds sb w1) ∧ ∃ w2, Reaches rd seeds tb w2 := by
  have hry := reaches_of_walk rd seeds x vx hx y w hw
  rcases hy with h | h
  · rw [hsb] at h
    have hys : sb = y := Option.some.inj h
    subst hys
    exact ⟨⟨_, hry⟩, ⟨_, Reaches.step sb tb _ eb e hry he (Or.inl ⟨hsb, htb⟩)⟩⟩
  · rw [htb] at h
    have hyt : tb = y := Option.some.inj h
    subst hyt
    exact ⟨⟨_, Reaches.step tb sb _ eb e hry he (Or.inr ⟨hsb, htb⟩)⟩, ⟨_, hry⟩⟩

/-- C4 (distance symmetry, in exact arithmetic).  Let `rd` be built by the constructor and
let the anchors `a` and `b` lie on edges of `rd` that are joined by some node-to-node path
from an end of the one to an end of the other.  Then the search from `a` and the search
from `b` (each with any sorting function that meets the contract and any fuel from
`fuel_bound rd` on) finish, and the value for `b` in the first equals the value for `a` in
the second. -/
theorem distance_symmetry (sort_a sort_b : List Open_Node → List Open_Node)
    (hsort_a : Sorts sort_a) (hsort_b : Sorts sort_b)
    (distance : Coord → Coord → ℚ) (hdist : ∀ x y, 0 ≤ distance x y)
    (data : Parsing_State) (rd : Routing_Data)
    (hb : Routing_Data.build distance data = some rd)
    (a b : Route_Ref) (ia ib : Nat) (ea eb : Routing_Edge)
    (ha : a.edge = some ia) (hea : rd.edges[ia]? = some ea)
    (hbe : b.edge = some ib) (heb : rd.edges[ib]? = some eb)
    (hconn : ∃ (x y : Nat) (w : ℚ), (ea.start = some x ∨ ea.end_ = some x) ∧
      (eb.start = some y ∨ eb.end_ = some y) ∧ Walk rd x y w)
    (dests_a dests_b : List Route_Ref) (i j : Nat) (hi : dests_a[i]? = some b)
    (hj : dests_b[j]? = some a)
    (fuel_a fuel_b : Nat) (hfa : fuel_bound rd ≤ fuel_a) (hfb : fuel_bound rd ≤ fuel_b) :
    ∃ routes_a routes_b ra rb,
      Route_Tree sort_a distance rd a dests_a fuel_a = some routes_a ∧
      Route_Tree sort_b distance rd b dests_b fuel_b = some routes_b ∧
      routes_a[i]? = some ra ∧ routes_b[j]? = some rb ∧ ra.value = rb.value := by
  have hG := graph_ok_of_built distance hdist data rd (build_spec distance data rd hb)
  obtain ⟨sa, ta, hsa, hta, _, _⟩ := hG.ends ia ea hea
  obtain ⟨sb, tb, hsb, htb, _, _⟩ := hG.ends ib eb heb
  obtain ⟨fta, routes_a, hres_a, hdone_a⟩ := route_tree_done sort_a hsort_a distance rd hG a
    dests_a ia ea ha hea sa ta hsa hta fuel_a hfa
  obtain ⟨ftb, routes_b, hres_b, hdone_b⟩ := route_tree_done sort_b hsort_b distance rd hG b
    dests_b ib eb hbe heb sb tb hsb htb fuel_b hfb
  have hki : i < routes_a.length := by
    rw [hdone_a.length]
    exact (List.getElem?_eq_some.mp hi).1
  have hkj : j < routes_b.length := by
    rw [hdone_b.length]
    exact (List.getElem?_eq_some.mp hj).1
  obtain ⟨ra, hra⟩ : ∃ r, routes_a[i]? = some r := ⟨_, List.getElem?_eq_getElem hki⟩
  obtain ⟨rb, hrb⟩ : ∃ r, routes_b[j]? = some r := ⟨_, List.getElem?_eq_getElem hkj⟩
  refine ⟨routes_a, routes_b, ra, rb, hres_a, hres_b, hra, hrb, ?_⟩
  rw [hdone_a.value i b ra hi hra, hdone_b.value j a rb hj hrb, init_value_symm b a]
  obtain ⟨x, y, w, hx, hy, hw⟩ := hconn
  have hxs : ∃ vx, (x, vx) ∈ seeds_of sa ta ea
      (ea.proportionate_valuation distance a.index a.pos) := by
    rcases hx with h | h
    · rw [hsa] at h
      rw [← Option.some.inj h]
      exact ⟨_, seeds_of_mem_start sa ta ea _⟩
    · rw [hta] at h
      rw [← Option.some.inj h]
      exact ⟨_, seeds_of_mem_end sa ta ea _⟩
  have hys : ∃ vy, (y, vy) ∈ seeds_of sb tb eb
      (eb.proportionate_valuation distance b.index b.pos) := by
    rcases hy with h | h
    · rw [hsb] at h
      rw [← Option.some.inj h]
      exact ⟨_, seeds_of_mem_start sb tb eb _⟩
    · rw [htb] at h
      rw [← Option.some.inj h]
      exact ⟨_, seeds_of_mem_end sb tb eb _⟩
  obtain ⟨vx, hvx⟩ := hxs
  obtain ⟨vy, hvy⟩ := hys
  obtain ⟨hr1, hr2⟩ := reaches_both_ends rd _ x vx hvx y w hw ib eb heb sb tb hsb htb hy
  obtain ⟨hr3, hr4⟩ := reaches_both_ends rd _ y vy hvy x w (walk_symm rd x y w hw) ia ea hea
    sa ta hsa hta hx
  obtain ⟨v1, hv1, hin1, hle1⟩ := settled_is_least hdone_a b ib eb hbe heb sb tb hsb htb
    hr1 hr2
  obtain ⟨v2, hv2, hin2, hle2⟩ := settled_is_least hdone_b a ia ea ha hea sa ta hsa hta
    hr3 hr4
  rw [hv1, hv2]
  have heq : v1 = v2 :=
    le_antisymm (hle1 v2 (through_symm rd _ _ v2 hin2)) (hle2 v1 (through_symm rd _ _ v1 hin1))
  rw [heq]

theorem distance_symmetry_witness :
    ∃ routes_a routes_b ra rb,
      Route_Tree insertion_sort meridian_distance t_junction_rd anchor_a [anchor_b] 10
        = some routes_a ∧
      Route_Tree insertion_sort meridian_distance t_junction_rd anchor_b [anchor_a] 10
        = some routes_b ∧
      routes_a[0]? = some ra ∧ routes_b[0]? = some rb ∧ ra.value = rb.value :=
  distance_symmetry insertion_sort insertion_sort insertion_sort_sorts insertion_sort_sorts
    meridian_distance meridian_distance_nonneg t_junction t_junction_rd (by decide!)
    anchor_a anchor_b 0 2 t_edge_0 t_edge_2 rfl (by decide) rfl (by decide)
    ⟨1, 1, 0, Or.inr rfl, Or.inr rfl, walk_refl t_junction_rd 1⟩ [anchor_b] [anchor_a] 0 0
    rfl rfl 10 10 (by decide) (by decide)

/-! ## Trace sums and proportionate valuations: claims C11, C12, C19 -/

theorem seg_sum_nonneg (distance : Coord → Coord → ℚ) (hdist : ∀ a b, 0 ≤ distance a b)
    (l : List Coord) : 0 ≤ seg_sum distance l := by
  induction l with
  | nil => simp [seg_sum]
  | cons a l ih =>
    cases l with
    | nil => simp [seg_sum]
    | cons b rest =>
      simp only [seg_sum]
      exact add_nonneg (hdist a b) ih

theorem seg_sum_take_le (distance : Coord → Coord → ℚ) (hdist : ∀ a b, 0 ≤ distance a b)
    (l : List Coord) (m : Nat) : seg_sum distance (l.take m) ≤ seg_sum distance l := by
  induction l generalizing m with
  | nil => simp [seg_sum]
  | cons a l ih =>
    cases m with
    | zero => simpa [seg_sum] using seg_sum_nonneg distance hdist (a :: l)
    | succ m =>
      cases l with
      | nil => simp [seg_sum]
      | cons b rest =>
        cases m with
        | zero =>
          simp only [List.take_succ_cons, List.take_zero, seg_sum]
          exact add_nonneg (hdist a b) (seg_sum_nonneg distance hdist _)
        | succ m =>
          have := ih (m + 1)
          simp only [List.take_succ_cons, seg_sum] at this ⊢
          linarith

theorem seg_sum_take_succ (distance : Coord → Coord → ℚ) (l : List Coord) (j : Nat)
    (a b : Coord) (ha : l[j]? = some a) (hb : l[j + 1]? = some b) :
    seg_sum distance (l.take (j + 2)) = seg_sum distance (l.take (j + 1)) + distance a b := by
  induction l generalizing j with
  | nil => simp at ha
  | cons x l ih =>
    cases l with
    | nil => simp at hb
    | cons y rest =>
      cases j with
      | zero =>
        simp only [List.getElem?_cons_zero, Option.some.injEq, zero_add,
          List.getElem?_cons_succ] at ha hb
        subst ha
        subst hb
        simp [seg_sum]
      | succ j =>
        rw [List.getElem?_cons_succ] at ha hb
        have := ih j ha hb
        simp only [List.take_succ_cons, seg_sum] at this ⊢
        rw [this]
        ring

theorem pv_loop_total (distance : Coord → Coord → ℚ) (index : Nat) (pos : ℚ)
    (l : List Coord) (i : Nat) (st : ℚ × ℚ) :
    (pv_loop distance index pos l i st).1 = st.1 + seg_sum distance l := by
  induction l generalizing i st with
  | nil => simp [pv_loop, seg_sum]
  | cons a l ih =>
    cases l with
    | nil => simp [pv_loop, seg_sum]
    | cons b rest =>
      rw [pv_loop, ih]
      simp only [seg_sum]
      ring

theorem pv_loop_part (distance : Coord → Coord → ℚ) (index : Nat) (pos : ℚ)
    (l : List Coord) (i : Nat) (st : ℚ × ℚ) :
    (pv_loop distance index pos l i st).2 =
      if i ≤ (index + 1) % 2 ^ 32 ∧ (index + 1) % 2 ^ 32 + 1 < i + l.length then
        st.1 + seg_sum distance (l.take ((index + 1) % 2 ^ 32 - i + 1)) + pos
      else st.2 := by
  generalize hk : (index + 1) % 2 ^ 32 = k
  induction l generalizing i st with
  | nil =>
    rw [if_neg (by simp only [List.length_nil]; omega)]
    simp [pv_loop]
  | cons a l ih =>
    cases l with
    | nil =>
      rw [if_neg (by simp only [List.length_cons, List.length_nil]; omega)]
      simp [pv_loop]
    | cons b rest =>
      rw [pv_loop, ih, hk]
      simp only [List.length_cons]
      by_cases h1 : i = k
      · subst h1
        rw [if_neg (by omega), if_pos rfl, if_pos (by omega)]
        simp [seg_sum]
      · by_cases h2 : i < k
        · by_cases h3 : k + 1 < i + (rest.length + 1 + 1)
          · rw [if_pos ⟨by omega, by omega⟩, if_pos ⟨by omega, h3⟩]
            obtain ⟨m, hm⟩ : ∃ m, k - i = m + 1 := ⟨k - i - 1, by omega⟩
            have hm1 : k - (i + 1) + 1 = m + 1 := by omega
            rw [hm, hm1]
            simp only [List.take_succ_cons, seg_sum]
            ring
          · rw [if_neg (by omega), if_neg h1, if_neg (fun h => h3 h.2)]
        · rw [if_neg (by omega), if_neg h1, if_neg (by omega)]

theorem proportionate_valuation_eq (distance : Coord → Coord → ℚ) (e : Routing_Edge)
    (index : Nat) (pos : ℚ) :
    e.proportionate_valuation distance index pos =
      if seg_sum distance e.trace = 0 then e.valuation
      else e.valuation *
        (if 1 ≤ (index + 1) % 2 ^ 32 ∧ (index + 1) % 2 ^ 32 < e.trace.length then
          seg_sum distance (e.trace.take ((index + 1) % 2 ^ 32)) + pos
        else 0) / seg_sum distance e.trace := by
  have hpart : (pv_loop distance index pos e.trace 1 (0, 0)).2 =
      if 1 ≤ (index + 1) % 2 ^ 32 ∧ (index + 1) % 2 ^ 32 < e.trace.length then
        seg_sum distance (e.trace.take ((index + 1) % 2 ^ 32)) + pos
      else 0 := by
    rw [pv_loop_part]
    by_cases h : 1 ≤ (index + 1) % 2 ^ 32 ∧ (index + 1) % 2 ^ 32 < e.trace.length
    · have h1 : (index + 1) % 2 ^ 32 - 1 + 1 = (index + 1) % 2 ^ 32 := by omega
      rw [if_pos h, if_pos ⟨h.1, by omega⟩, h1, zero_add]
    · rw [if_neg h, if_neg (fun h1 => h ⟨h1.1, by omega⟩)]
  unfold Routing_Edge.proportionate_valuation
  rw [hpart, pv_loop_total, zero_add]

theorem proportionate_valuation_in_range (distance : Coord → Coord → ℚ) (e : Routing_Edge)
    (index : Nat) (pos : ℚ) (htot : seg_sum distance e.trace ≠ 0)
    (hidx : index < e.trace.length - 1) (hfit : e.trace.length ≤ 2 ^ 32) :
    e.proportionate_valuation distance index pos =
      e.valuation * (seg_sum distance (e.trace.take (index + 1)) + pos)
        / seg_sum distance e.trace := by
  have hk : (index + 1) % 2 ^ 32 = index + 1 := Nat.mod_eq_of_lt (by omega)
  rw [proportionate_valuation_eq, if_neg htot, hk, if_pos ⟨by omega, by omega⟩]

theorem pv_bounds (distance : Coord → Coord → ℚ) (hdist : ∀ a b, 0 ≤ distance a b)
    (e : Routing_Edge) (hval : 0 ≤ e.valuation) (index : Nat) (pos : ℚ)
    (hidx : index < 2 ^ 32)
    (hpos : ∀ a b, e.trace[index]? = some a → e.trace[index + 1]? = some b →
      0 ≤ pos ∧ pos ≤ distance a b) :
    0 ≤ e.proportionate_valuation distance index pos ∧
      e.proportionate_valuation distance index pos ≤ e.valuation := by
  rw [proportionate_valuation_eq]
  by_cases htot : seg_sum distance e.trace = 0
  · rw [if_pos htot]
    exact ⟨hval, le_refl _⟩
  · rw [if_neg htot]
    have htp : 0 < seg_sum distance e.trace :=
      lt_of_le_of_ne (seg_sum_nonneg distance hdist _) (Ne.symm htot)
    have hp : 0 ≤ (if 1 ≤ (index + 1) % 2 ^ 32 ∧ (index + 1) % 2 ^ 32 < e.trace.length then
          seg_sum distance (e.trace.take ((index + 1) % 2 ^ 32)) + pos else 0) ∧
        (if 1 ≤ (index + 1) % 2 ^ 32 ∧ (index + 1) % 2 ^ 32 < e.trace.length then
          seg_sum distance (e.trace.take ((index + 1) % 2 ^ 32)) + pos else 0)
          ≤ seg_sum distance e.trace := by
      by_cases h : 1 ≤ (index + 1) % 2 ^ 32 ∧ (index + 1) % 2 ^ 32 < e.trace.length
      · rw [if_pos h]
        have hk : (index + 1) % 2 ^ 32 = index + 1 := by
          by_cases hlt : index + 1 < 2 ^ 32
          · exact Nat.mod_eq_of_lt hlt
          · have h0 : index + 1 = 2 ^ 32 := by omega
            rw [h0, Nat.mod_self] at h
            omega
        rw [hk] at h ⊢
        obtain ⟨a, ha⟩ : ∃ a, e.trace[index]? = some a :=
          ⟨_, List.getElem?_eq_getElem (by omega)⟩
        obtain ⟨b, hb⟩ : ∃ b, e.trace[index + 1]? = some b :=
          ⟨_, List.getElem?_eq_getElem h.2⟩
        have hab := hpos a b ha hb
        have h1 := seg_sum_take_succ distance e.trace index a b ha hb
        have h2 := seg_sum_take_le distance hdist e.trace (index + 2)
        have h3 := seg_sum_nonneg distance hdist (e.trace.take (index + 1))
        exact ⟨by linarith, by linarith⟩
      · rw [if_neg h]
        exact ⟨le_refl _, le_of_lt htp⟩
    refine ⟨div_nonneg (mul_nonneg hval hp.1) (le_of_lt htp), ?_⟩
    rw [div_le_iff₀ htp]
    exact mul_le_mul_of_nonneg_left hp.2 hval

theorem seg_sum_append_singleton (distance : Coord → Coord → ℚ) (l : List Coord)
    (x c : Coord) (h : l.getLast? = some x) :
    seg_sum distance (l ++ [c]) = seg_sum distance l + distance x c := by
  induction l with
  | nil => simp at h
  | cons a l ih =>
    cases l with
    | nil =>
      simp only [List.getLast?_singleton, Option.some.injEq] at h
      subst h
      simp [seg_sum]
    | cons b rest =>
      rw [List.getLast?_cons_cons] at h
      have := ih h
      simp only [List.cons_append] at this ⊢
      simp only [seg_sum, List.append_eq]
      rw [this]
      ring

theorem trace_step_inv (distance : Coord → Coord → ℚ) (data : Parsing_State) (way : Way)
    (start : Nat) (st st1 : List Coord × ℚ × Coord) (i : Nat) (hi : start < i)
    (hinv : st.1.getLast? = some st.2.2 ∧ st.2.1 = seg_sum distance st.1)
    (h : trace_step distance data way start st i = some st1) :
    st1.1.getLast? = some st1.2.2 ∧ st1.2.1 = seg_sum distance st1.1 := by
  unfold trace_step at h
  cases hnd : way.nds[i]? with
  | none => simp [hnd] at h
  | some nd =>
    simp only [hnd] at h
    cases hn : data.nodes[lower_bound Node.id data.nodes nd]? with
    | none =>
      simp only [hn, Option.some.injEq] at h
      rw [← h]
      exact hinv
    | some n =>
      simp only [hn] at h
      by_cases hid : n.id = nd
      · simp only [if_pos hid, if_pos hi, Option.some.injEq] at h
        rw [← h]
        refine ⟨by simp, ?_⟩
        simp only
        rw [seg_sum_append_singleton distance st.1 st.2.2 _ hinv.1, hinv.2]
      · simp only [if_neg hid, Option.some.injEq] at h
        rw [← h]
        exact hinv

theorem trace_fold_inv (distance : Coord → Coord → ℚ) (data : Parsing_State) (way : Way)
    (start : Nat) (l : List Nat) (hl : ∀ i ∈ l, start < i) (st st1 : List Coord × ℚ × Coord)
    (hinv : st.1.getLast? = some st.2.2 ∧ st.2.1 = seg_sum distance st.1)
    (h : l.foldlM (trace_step distance data way start) st = some st1) :
    st1.1.getLast? = some st1.2.2 ∧ st1.2.1 = seg_sum distance st1.1 := by
  induction l generalizing st with
  | nil =>
    simp only [List.foldlM_nil, Option.pure_def, Option.some.injEq] at h
    rw [← h]
    exact hinv
  | cons i t ih =>
    rw [List.foldlM_cons] at h
    cases hs : trace_step distance data way start st i with
    | none => simp [hs] at h
    | some st2 =>
      rw [hs] at h
      exact ih (fun j hj => hl j (List.mem_cons_of_mem _ hj)) st2
        (trace_step_inv distance data way start st st2 i (hl i (List.mem_cons_self _ _)) hinv
          hs) h

/-- When the first nd of the range resolves, the valuation of the edge `edge_from_way`
builds is the sum of the distances between the consecutive points of its trace, whichever
of the later nds resolve. -/
theorem edge_valuation_of_resolved_start (distance : Coord → Coord → ℚ)
    (nodes : List Routing_Node) (way : Way) (start end_ : Nat) (data : Parsing_State)
    (e : Routing_Edge) (h : edge_from_way distance nodes way start end_ data = some e)
    (hres : ∀ nd, way.nds[start]? = some nd →
      ∃ n, data.nodes[lower_bound Node.id data.nodes nd]? = some n ∧ n.id = nd) :
    e.valuation = seg_sum distance e.trace := by
  unfold edge_from_way at h
  cases hfirst : way.nds[start]? with
  | none => simp [hfirst] at h
  | some first =>
    cases hlast : way.nds[end_]? with
    | none => simp [hfirst, hlast] at h
    | some last =>
      simp only [hfirst, hlast] at h
      obtain ⟨n, hn, hid⟩ := hres first hfirst
      cases hcount : end_ + 1 - start with
      | zero =>
        simp only [hcount, List.range'_zero, List.foldlM_nil, Option.pure_def,
          Option.some.injEq] at h
        rw [← h]
        simp [seg_sum]
      | succ m =>
        rw [hcount, List.range'_succ, List.foldlM_cons] at h
        have hstep : trace_step distance data way start ([], 0, ⟨0, 0⟩) start
            = some ([⟨n.lat, n.lon⟩], 0, ⟨n.lat, n.lon⟩) := by
          simp [trace_step, hfirst, hn, hid]
        rw [hstep] at h
        cases hfold : (List.range' (start + 1) m).foldlM (trace_step distance data way start)
            ([⟨n.lat, n.lon⟩], 0, ⟨n.lat, n.lon⟩) with
        | none =>
          simp only [Option.bind_eq_bind, Option.some_bind] at h
          rw [hfold] at h
          exact absurd h (by simp)
        | some st1 =>
          simp only [Option.bind_eq_bind, Option.some_bind] at h
          rw [hfold] at h
          simp only [Option.some.injEq] at h
          rw [← h]
          exact (trace_fold_inv distance data way start (List.range' (start + 1) m)
            (fun i hi => by
              rw [List.mem_range'_1] at hi
              omega) _ st1 ⟨by simp, by simp [seg_sum]⟩ hfold).2

/-- C11 (edge valuation against the trace, on a way whose first nd does not resolve).  For
the way `[1, 2, 3]` with the nodes 2 and 3 on one meridian at the latitudes 1 and 2 and no
node 1, the constructor builds one edge whose trace holds the two resolved points, one
degree apart, and whose valuation is 2: at the first resolved nd the test `i > start`
holds and the distance from the initial `last_coord`, the point `(0, 0)`, is added. -/
theorem edge_valuation_unresolved_first :
    Routing_Data.build meridian_distance unresolved_first = some unresolved_first_rd ∧
    edge_from_way meridian_distance unresolved_first_rd.nodes ⟨5, [1, 2, 3]⟩ 0 2
      unresolved_first = some ⟨[⟨1, 0⟩, ⟨2, 0⟩], 2, some 0, some 1⟩ ∧
    seg_sum meridian_distance [⟨1, 0⟩, ⟨2, 0⟩] = 1 := by
  decide!

/-- C12 as stated fails, in two ways.  On the edge built from the way `[1, 2]` (nodes one
degree apart on a meridian, valuation 1) the anchor with `pos` 5 has proportionate
valuation 5, above the valuation, and the anchor with `pos` -1 has proportionate valuation
-1, below 0.  And in the arithmetic of the code the bound is missed also for a `pos` inside
its segment: on the edge between the latitudes 0 and 0.1, whose length and valuation are
the double 0.1, the anchor with `pos` 0.1 gets `0.1 * 0.1 / 0.1`, product and quotient
rounded, which is 0.10000000000000002, one unit in the last place above the valuation. -/
theorem proportionate_valuation_out_of_bounds :
    Routing_Data.build meridian_distance single_way = some single_way_rd ∧
    Route_Ref.proportionate_valuation meridian_distance single_way_rd ⟨"X", some 0, 0, 5⟩
      = some 5 ∧
    single_way_rd.edges[0]?.map Routing_Edge.valuation = some 1 ∧
    ¬ ((5 : ℚ) ≤ 1) ∧
    Route_Ref.proportionate_valuation meridian_distance single_way_rd ⟨"Y", some 0, 0, -1⟩
      = some (-1) ∧
    ¬ ((0 : ℚ) ≤ -1) ∧
    Routing_Data.build_double meridian_distance_double tenth_way = some tenth_way_rd ∧
    tenth_way_rd.edges[0]?.map Routing_Edge.valuation = some (round_double (1 / 10)) ∧
    meridian_distance_double ⟨0, 0⟩ ⟨round_double (1 / 10), 0⟩ = round_double (1 / 10) ∧
    Route_Ref.proportionate_valuation_double meridian_distance_double tenth_way_rd
      ⟨"Z", some 0, 0, round_double (1 / 10)⟩ = some (round_double (1 / 10) + 1 / 2 ^ 56) ∧
    ¬ (round_double (1 / 10) + 1 / 2 ^ 56 ≤ round_double (1 / 10)) :=
  ⟨by decide!, by decide!, by decide!, by decide!, by decide!, by decide!, by decide!,
    by decide!, by decide!, by decide!, by decide!⟩

/-- C12, amended (in exact arithmetic).  Let `rd` be built by the constructor and let the
`Route_Ref` `r` point to the edge `e` of `rd`, with any within-edge index (an
`unsigned int`).  If `pos` lies between 0 and the length of the trace segment the index
names (whenever the index names one, that is, `trace[index]` and `trace[index + 1]`
exist), then `0 ≤ proportionate_valuation() ≤ e.valuation`, every operation on `double`
being read as the exact operation. -/
theorem proportionate_valuation_bounds (distance : Coord → Coord → ℚ)
    (hdist : ∀ a b, 0 ≤ distance a b) (data : Parsing_State) (rd : Routing_Data)
    (hb : Routing_Data.build distance data = some rd)
    (r : Route_Ref) (ei : Nat) (e : Routing_Edge) (hr : r.edge = some ei)
    (he : rd.edges[ei]? = some e) (hidx : r.index < 2 ^ 32)
    (hpos : ∀ a b, e.trace[r.index]? = some a → e.trace[r.index + 1]? = some b →
      0 ≤ r.pos ∧ r.pos ≤ distance a b) :
    ∃ v, Route_Ref.proportionate_valuation distance rd r = some v ∧ 0 ≤ v ∧
      v ≤ e.valuation := by
  have hG := graph_ok_of_built distance hdist data rd (build_spec distance data rd hb)
  refine ⟨e.proportionate_valuation distance r.index r.pos, ?_,
    pv_bounds distance hdist e (hG.nonneg ei e he) r.index r.pos hidx hpos⟩
  simp only [Route_Ref.proportionate_valuation, hr, he]

theorem proportionate_valuation_bounds_witness :
    ∃ v, Route_Ref.proportionate_valuation meridian_distance t_junction_rd anchor_a = some v ∧
      0 ≤ v ∧ v ≤ t_edge_0.valuation :=
  proportionate_valuation_bounds meridian_distance meridian_distance_nonneg t_junction
    t_junction_rd (by decide!) anchor_a 0 t_edge_0 rfl (by decide) (by decide)
    (fun a b ha hb => by
      have h1 : a = ⟨0, 0⟩ := (Option.some.inj ha).symm
      have h2 : b = ⟨1, 0⟩ := (Option.some.inj hb).symm
      subst h1
      subst h2
      decide!)

/-- C19 (proportionate valuation as the distance from the start of the edge, in exact
arithmetic).  For a `Route_Ref` with a null edge, `proportionate_valuation` returns 0.  For
one that points to the edge `e`: when the consecutive distances of the trace of `e` sum to
0 it returns `e.valuation`; and when `e.valuation` equals that sum and is not 0, and the
index is below `len(trace) - 1` (the trace having at most 2^32 points, the range of the
loop variable), it returns the sum of the distances between the consecutive trace points
`0 .. index` plus `pos`. -/
theorem proportionate_valuation_spec (distance : Coord → Coord → ℚ) (rd : Routing_Data)
    (r : Route_Ref) :
    (r.edge = none → Route_Ref.proportionate_valuation distance rd r = some 0) ∧
    ∀ (ei : Nat) (e : Routing_Edge), r.edge = some ei → rd.edges[ei]? = some e →
      (seg_sum distance e.trace = 0 →
        Route_Ref.proportionate_valuation distance rd r = some e.valuation) ∧
      (e.valuation = seg_sum distance e.trace → e.valuation ≠ 0 →
        r.index < e.trace.length - 1 → e.trace.length ≤ 2 ^ 32 →
        Route_Ref.proportionate_valuation distance rd r
          = some (seg_sum distance (e.trace.take (r.index + 1)) + r.pos)) := by
  refine ⟨fun h => by simp only [Route_Ref.proportionate_valuation, h], ?_⟩
  intro ei e hr he
  refine ⟨fun h0 => ?_, fun hval hne hidx hfit => ?_⟩
  · simp only [Route_Ref.proportionate_valuation, hr, he]
    rw [proportionate_valuation_eq, if_pos h0]
  · simp only [Route_Ref.proportionate_valuation, hr, he]
    rw [proportionate_valuation_in_range distance e r.index r.pos (by rw [← hval]; exact hne)
      hidx hfit, ← hval, mul_div_assoc, mul_comm, div_mul_cancel₀ _ hne]

theorem proportionate_valuation_spec_witness :
    Route_Ref.proportionate_valuation meridian_distance two_segment_rd ⟨"B", some 0, 1, 1 / 2⟩
      = some (seg_sum meridian_distance
          (List.take 2 [(⟨0, 0⟩ : Coord), ⟨1, 0⟩, ⟨2, 0⟩]) + 1 / 2) ∧
    seg_sum meridian_distance (List.take 2 [(⟨0, 0⟩ : Coord), ⟨1, 0⟩, ⟨2, 0⟩]) + 1 / 2
      = 3 / 2 :=
  ⟨((proportionate_valuation_spec meridian_distance two_segment_rd
      ⟨"B", some 0, 1, 1 / 2⟩).2 0 ⟨[⟨0, 0⟩, ⟨1, 0⟩, ⟨2, 0⟩], 2, some 0, some 1⟩ rfl
      (by decide)).2 (by decide!) (by decide!) (by decide) (by decide), by decide!⟩

/-! ## Unreachable destinations: claim C13 -/

theorem walk_stays (rd : Routing_Data) (S : Nat → Bool)
    (hS : ∀ (ei : Nat) (e : Routing_Edge) (a b : Nat), rd.edges[ei]? = some e →
      Connects e a b → S a = S b)
    (a b : Nat) (w : ℚ) (h : Walk rd a b w) : S a = S b := by
  unfold Walk at h
  induction h with
  | seed n v hmem =>
    simp only [List.mem_singleton, Prod.mk.injEq] at hmem
    rw [hmem.1]
  | step x y v ei e _ he hc ih => rw [ih, hS ei e x y he hc]

theorem settled_value_none_of_apart {distance : Coord → Coord → ℚ} {rd : Routing_Data}
    {origin : Route_Ref} {dests : List Route_Ref} {ft : List (Nat × Closed_Node)}
    {routes : List Route} (hG : Graph_OK rd) (sa ta : Nat) (eo : Routing_Edge) (pv : ℚ)
    (hdone : Search_Done distance rd (seeds_of sa ta eo pv) origin dests ft routes)
    (d : Route_Ref) (de : Nat) (ed : Routing_Edge) (hde : d.edge = some de)
    (hed : rd.edges[de]? = some ed)
    (hun : ∀ (x y : Nat) (w : ℚ), (x = sa ∨ x = ta) →
      (ed.start = some y ∨ ed.end_ = some y) → ¬ Walk rd x y w) :
    settled_value distance rd ft d = none := by
  obtain ⟨sb, tb, hsb, htb, _, _⟩ := hG.ends de ed hed
  simp only [settled_value, hde, hed, hsb, final_tree_find]
  cases hcs : ft.lookup sb with
  | none => rfl
  | some cs =>
    exfalso
    obtain ⟨x, vx, c, hx, hwalk, _⟩ :=
      walk_of_reaches rd _ sb cs.value (hdone.closed_reach sb cs hcs)
    simp only [seeds_of, List.mem_cons, List.mem_singleton, Prod.mk.injEq, List.not_mem_nil,
      or_false] at hx
    exact hun x sb c (hx.imp (fun h => h.1) (fun h => h.1)) (Or.inl hsb) hwalk

/-- C13 (an unreachable destination keeps the sentinel).  Let `rd` be built by the
constructor and the origin be anchored on the edge `eo` of `rd`.  A destination whose edge
is null, or whose edge `ed` has no end joined by a node-to-node path to an end of `eo`,
has the value 180 in the finished search (any sorting function that meets the contract,
any fuel from `fuel_bound rd` on). -/
theorem unreachable_stays_sentinel (sort : List Open_Node → List Open_Node)
    (hsort : Sorts sort) (distance : Coord → Coord → ℚ) (hdist : ∀ a b, 0 ≤ distance a b)
    (data : Parsing_State) (rd : Routing_Data)
    (hb : Routing_Data.build distance data = some rd)
    (origin : Route_Ref) (oe : Nat) (eo : Routing_Edge) (ho : origin.edge = some oe)
    (heo : rd.edges[oe]? = some eo)
    (dests : List Route_Ref) (k : Nat) (d : Route_Ref) (hd : dests[k]? = some d)
    (hun : d.edge = none ∨ ∃ (de : Nat) (ed : Routing_Edge), d.edge = some de ∧
      rd.edges[de]? = some ed ∧
      ¬ ∃ (x y : Nat) (w : ℚ), (eo.start = some x ∨ eo.end_ = some x) ∧
        (ed.start = some y ∨ ed.end_ = some y) ∧ Walk rd x y w)
    (fuel : Nat) (hfuel : fuel_bound rd ≤ fuel) :
    ∃ routes r, Route_Tree sort distance rd origin dests fuel = some routes ∧
      routes.length = dests.length ∧ routes[k]? = some r ∧ r.value = 180 := by
  have hG := graph_ok_of_built distance hdist data rd (build_spec distance data rd hb)
  obtain ⟨sa, ta, hsa, hta, _, _⟩ := hG.ends oe eo heo
  obtain ⟨ft, routes, hres, hdone⟩ := route_tree_done sort hsort distance rd hG origin dests
    oe eo ho heo sa ta hsa hta fuel hfuel
  have hk : k < routes.length := by
    rw [hdone.length]
    exact (List.getElem?_eq_some.mp hd).1
  obtain ⟨r, hr⟩ : ∃ r, routes[k]? = some r := ⟨_, List.getElem?_eq_getElem hk⟩
  refine ⟨routes, r, hres, hdone.length, hr, ?_⟩
  rw [hdone.value k d r hd hr]
  have hinit : init_value origin d = 180 := by
    unfold init_value
    rw [if_neg]
    rintro ⟨hsame, _⟩
    rcases hun with hnull | ⟨de, ed, hde, hed, hno⟩
    · rw [hnull, ho] at hsame
      exact Option.noConfusion hsame
    · rw [hde, ho] at hsame
      have hee : de = oe := Option.some.inj hsame
      subst hee
      rw [heo] at hed
      have hee2 : eo = ed := Option.some.inj hed
      subst hee2
      exact hno ⟨sa, sa, 0, Or.inl hsa, Or.inl hsa, walk_refl rd sa⟩
  have hset : settled_value distance rd ft d = none := by
    rcases hun with hnull | ⟨de, ed, hde, hed, hno⟩
    · simp only [settled_value, hnull]
    · refine settled_value_none_of_apart hG sa ta eo _ hdone d de ed hde hed ?_
      intro x y w hx hy hw
      refine hno ⟨x, y, w, ?_, hy, hw⟩
      rcases hx with rfl | rfl
      · exact Or.inl hsa
      · exact Or.inr hta
  unfold route_value
  rw [if_pos hinit, hset]

theorem unreachable_stays_sentinel_witness :
    ∃ routes r, Route_Tree insertion_sort meridian_distance two_ways_rd
        ⟨"A", some 0, 0, 1 / 2⟩ [⟨"D", some 1, 0, 1 / 4⟩] 10 = some routes ∧
      routes.length = [(⟨"D", some 1, 0, 1 / 4⟩ : Route_Ref)].length ∧
      routes[0]? = some r ∧ r.value = 180 :=
  unreachable_stays_sentinel insertion_sort insertion_sort_sorts meridian_distance
    meridian_distance_nonneg two_ways two_ways_rd (by decide!) ⟨"A", some 0, 0, 1 / 2⟩ 0
    ⟨[⟨0, 0⟩, ⟨1, 0⟩], 1, some 0, some 1⟩ rfl (by decide) [⟨"D", some 1, 0, 1 / 4⟩] 0
    ⟨"D", some 1, 0, 1 / 4⟩ rfl
    (Or.inr ⟨1, ⟨[⟨5, 0⟩, ⟨6, 0⟩], 1, some 2, some 3⟩, rfl, by decide, by
      rintro ⟨x, y, w, hx, hy, hw⟩
      have hS := walk_stays two_ways_rd (fun n => decide (n < 2)) (by
        intro ei e a b he hc
        rcases ei with _ | _ | ei
        · have h1 : e = ⟨[⟨0, 0⟩, ⟨1, 0⟩], 1, some 0, some 1⟩ := (Option.some.inj he).symm
          subst h1
          rcases hc with ⟨h1, h2⟩ | ⟨h1, h2⟩ <;>
            · rw [← Option.some.inj h1, ← Option.some.inj h2]
              rfl
        · have h1 : e = ⟨[⟨5, 0⟩, ⟨6, 0⟩], 1, some 2, some 3⟩ := (Option.some.inj he).symm
          subst h1
          rcases hc with ⟨h1, h2⟩ | ⟨h1, h2⟩ <;>
            · rw [← Option.some.inj h1, ← Option.some.inj h2]
              rfl
        · simp [two_ways_rd] at he) x y w hw
      have hx2 : x < 2 := by
        rcases hx with h | h
        · rw [← Option.some.inj h]
          decide
        · rw [← Option.some.inj h]
          decide
      have hy2 : ¬ y < 2 := by
        rcases hy with h | h
        · rw [← Option.some.inj h]
          decide
        · rw [← Option.some.inj h]
          decide
      simp only [decide_eq_decide] at hS
      exact hy2 (hS.mp hx2)⟩) 10 (by decide)

/-! ## Degenerate inputs: claims C14, C15, C16, C20 -/

/-- C14 fails on the code.  A `Way_Reference` to a way id above every id of the dictionary
gives a `Route_Ref` with a null edge.  With an origin whose edge is null the constructor
evaluates `origin.edge->start` before the main loop: the run has no result, whatever the
`Routing_Data`, the destinations, the sorting function and the number of rounds. -/
theorem null_origin_edge_dereferenced (sort : List Open_Node → List Open_Node)
    (distance : Coord → Coord → ℚ) (rd : Routing_Data) (label : String) (index : Nat)
    (pos : ℚ) (dests : List Route_Ref) (fuel : Nat) :
    Route_Ref.make single_way_rd ⟨9, 0, 1 / 2⟩ "N" = some ⟨"N", none, 0, 1 / 2⟩ ∧
    Route_Tree sort distance rd ⟨label, none, index, pos⟩ dests fuel = none :=
  ⟨by decide!, rfl⟩

/-- C15 fails on the code.  For a way with an empty nd list `size() - 1` wraps to
`2^64 - 1`, the test `start < size() - 1` holds with `start = 0`, and `edge_from_way` reads
`nds[0]` of the empty list: the constructor has no result for any `Parsing_State` that
holds such a way, whatever its nodes and other ways. -/
theorem empty_way_read_out_of_bounds (distance : Coord → Coord → ℚ) (nodes : List Node)
    (before after : List Way) (id : Nat) (nc : List (Nat × Nat))
    (store : List Routing_Node) (edges : List Routing_Edge) :
    0 < size_minus_one ([] : List Nat).length ∧
    edge_from_way distance store ⟨id, []⟩ 0 (size_minus_one 0 % 2 ^ 32)
      ⟨nodes, before ++ ⟨id, []⟩ :: after⟩ = none ∧
    process_way distance nc store ⟨nodes, before ++ ⟨id, []⟩ :: after⟩ edges ⟨id, []⟩
      = none ∧
    Routing_Data.build distance ⟨nodes, before ++ ⟨id, []⟩ :: after⟩ = none :=
  ⟨by decide, edge_from_way_none_of_empty distance _ ⟨id, []⟩ _ _ _ rfl,
    process_way_none_of_empty distance _ _ _ ⟨id, []⟩ _ rfl,
    build_none_of_empty distance ⟨nodes, before ++ ⟨id, []⟩ :: after⟩ ⟨id, []⟩
      (List.mem_append_right _ (List.mem_cons_self _ _)) rfl⟩

/-- C16 as stated fails: from a way list that names way 8 before way 7 the constructor
builds the dictionary with the ids in that order, 8 before 7, and the lookup of way 7
returns the edge of way 8 (slot 0) instead of its own (slot 1). -/
theorem dictionary_not_sorted :
    Routing_Data.build meridian_distance descending_ways = some descending_ways_rd ∧
    descending_ways_rd.way_dictionary.map Prod.fst = [8, 7] ∧
    ¬ (descending_ways_rd.way_dictionary.map Prod.fst).Pairwise (fun a b => a < b) ∧
    resolve_way_pos descending_ways_rd 7 0 = some (some 0, 0) :=
  ⟨by decide!, by decide, by decide, by decide⟩

/-- C16, amended.  The way dictionary the constructor builds lists the way ids in the order
of the way list of the `Parsing_State`; it is strictly sorted by way id exactly when the
way list is. -/
theorem dictionary_order (distance : Coord → Coord → ℚ) (data : Parsing_State)
    (rd : Routing_Data) (hb : Routing_Data.build distance data = some rd) :
    rd.way_dictionary.map Prod.fst = data.ways.map Way.id ∧
    ((rd.way_dictionary.map Prod.fst).Pairwise (fun a b => a < b) ↔
      (data.ways.map Way.id).Pairwise (fun a b => a < b)) := by
  have h := built_dictionary_ids distance data rd (build_spec distance data rd hb)
  exact ⟨h, by rw [h]⟩

theorem dictionary_order_witness :
    t_junction_rd.way_dictionary.map Prod.fst = t_junction.ways.map Way.id ∧
    ((t_junction_rd.way_dictionary.map Prod.fst).Pairwise (fun a b => a < b) ↔
      (t_junction.ways.map Way.id).Pairwise (fun a b => a < b)) :=
  dictionary_order meridian_distance t_junction t_junction_rd (by decide!)

/-- C20 fails on the code.  A way with a single nd gets an empty entry list in the
dictionary the constructor builds; for its id `resolve_way_pos` finds that entry, the
`while` loop does not run, and `--entry_it` steps before the beginning of the empty list:
the call has no result. -/
theorem resolver_steps_before_begin :
    Routing_Data.build meridian_distance one_nd_way = some one_nd_way_rd ∧
    one_nd_way_rd.way_dictionary[lower_bound Prod.fst one_nd_way_rd.way_dictionary 5]?
      = some (5, []) ∧
    resolve_way_pos one_nd_way_rd 5 0 = none :=
  ⟨by decide!, by decide, by decide⟩

/-! ## Termination: claim C18 -/

theorem lookup_none_not_mem (ft : List (Nat × Closed_Node)) (n : Nat)
    (h : ft.lookup n = none) : n ∉ ft.map Prod.fst := by
  induction ft with
  | nil => simp
  | cons p t ih =>
    obtain ⟨m, c⟩ := p
    rw [lookup_cons_eq] at h
    by_cases hn : n = m
    · rw [if_pos hn] at h
      exact absurd h (by simp)
    · rw [if_neg hn] at h
      simp only [List.map_cons, List.mem_cons, not_or]
      exact ⟨hn, ih h⟩

theorem pending_nil (ns : List Routing_Node) (i : Nat) :
    pending [] i ns = (ns.map (fun n => n.edges.length)).sum := by
  induction ns generalizing i with
  | nil => simp [pending]
  | cons n t ih => simp [pending, ih]

theorem main_loop_counted_spec (sort : List Open_Node → List Open_Node) (hsort : Sorts sort)
    (distance : Coord → Coord → ℚ) (rd : Routing_Data) (hG : Graph_OK rd)
    (seeds : List (Nat × ℚ)) (origin : Route_Ref) (dests : List Route_Ref) (fuel : Nat)
    (ft : List (Nat × Closed_Node)) (open_nodes : List Open_Node) (routes : List Route)
    (pushes : Nat)
    (hinv : Inv distance rd seeds origin dests ft open_nodes routes)
    (hnd : (ft.map Prod.fst).Nodup)
    (hfuel : open_nodes.length + pending ft 0 rd.nodes ≤ fuel) :
    ∃ ft1 routes1 pushes1,
      main_loop_counted sort distance rd dests origin fuel ft open_nodes routes pushes
        = some (routes1, ft1, pushes1) ∧
      main_loop sort distance rd dests origin fuel ft open_nodes routes = some routes1 ∧
      (ft1.map Prod.fst).Nodup ∧ pushes1 ≤ pushes + pending ft 0 rd.nodes := by
  induction fuel generalizing ft open_nodes routes pushes with
  | zero =>
    cases open_nodes with
    | nil =>
      exact ⟨ft, routes, pushes, by simp [main_loop_counted], by simp [main_loop], hnd,
        Nat.le_add_right _ _⟩
    | cons o os =>
      simp only [List.length_cons] at hfuel
      omega
  | succ fuel ih =>
    cases open_nodes with
    | nil =>
      exact ⟨ft, routes, pushes, by simp [main_loop_counted], by simp [main_loop], hnd,
        Nat.le_add_right _ _⟩
    | cons o os =>
      obtain ⟨current, hlast, hmem, hmin, hlen⟩ :=
        sort_pop sort hsort (o :: os) (List.cons_ne_nil _ _)
      obtain ⟨cur, hcur, hvalid, _⟩ := hinv.open_reach current ((hmem current).mpr (Or.inr rfl))
      simp only [List.length_cons] at hfuel hlen
      cases hfind : ft.lookup cur with
      | some c =>
        have hinv1 := inv_skip hinv current cur c hmem hcur hfind
        obtain ⟨ft1, routes1, pushes1, hres, hres0, hnd1, hp1⟩ :=
          ih ft (sort (o :: os)).dropLast routes pushes hinv1 hnd (by omega)
        refine ⟨ft1, routes1, pushes1, ?_, ?_, hnd1, hp1⟩
        · simp only [main_loop_counted, hlast, hcur, hfind]
          exact hres
        · simp only [main_loop, hlast, hcur, hfind]
          exact hres0
      | none =>
        obtain ⟨node, hnode⟩ : ∃ node, rd.nodes[cur]? = some node :=
          ⟨_, List.getElem?_eq_getElem hvalid⟩
        have hL : ∀ ei ∈ node.edges, ∃ e, rd.edges[ei]? = some e ∧
            (e.start = some cur ∨ e.end_ = some cur) :=
          fun ei hei => (mem_incident hG cur node hnode ei).mp hei
        obtain ⟨pushed, routes1, hfold, hplen, hpa, hpb, hrlen, hrun⟩ :=
          visit_fold_spec distance rd hG dests origin
            ((cur, (⟨current.arrived_from, current.value⟩ : Closed_Node)) :: ft) cur
            current.value ⟨_, by rw [lookup_cons_eq, if_pos rfl], rfl⟩ node.edges hL
            (sort (o :: os)).dropLast routes hinv.routes_length
        have hinv1 := inv_close hG hinv current cur hmem hmin hcur hfind node hnode pushed
          routes1 hpa hpb hrlen hrun
        have hpend := pending_close ft cur ⟨current.arrived_from, current.value⟩ hfind
          rd.nodes 0 node (Nat.zero_le _) (by simpa using hnode)
        have hnd1 : (((cur, (⟨current.arrived_from, current.value⟩ : Closed_Node)) :: ft).map
            Prod.fst).Nodup := by
          simp only [List.map_cons, List.nodup_cons]
          exact ⟨lookup_none_not_mem ft cur hfind, hnd⟩
        obtain ⟨ft1, routes2, pushes1, hres, hres0, hnd2, hp1⟩ := ih _ _ _
          (pushes + (((sort (o :: os)).dropLast ++ pushed).length
            - (sort (o :: os)).dropLast.length)) hinv1 hnd1 (by
          simp only [List.length_append]
          omega)
        refine ⟨ft1, routes2, pushes1, ?_, ?_, hnd2, ?_⟩
        · simp only [main_loop_counted, hlast, hcur, hfind, hnode, hfold]
          exact hres
        · simp only [main_loop, hlast, hcur, hfind, hnode, hfold]
          exact hres0
        · simp only [List.length_append] at hp1
          omega

/-- C18 (termination).  Let `rd` be built by the constructor and the origin be anchored on
an edge of `rd`.  For every destination list, every sorting function that meets the
contract of `std::sort` and every number of rounds from 2 plus the sum of the lengths of
the incident lists on, the main loop runs to the end: the counted run and the plain run
return the same `routes`, no node was inserted into `final_tree` twice, and the number of
`push_back` calls on `open_nodes`, the two seeds included, is at most 2 plus the sum of the
lengths of the incident lists. -/
theorem search_terminates (sort : List Open_Node → List Open_Node) (hsort : Sorts sort)
    (distance : Coord → Coord → ℚ) (hdist : ∀ a b, 0 ≤ distance a b)
    (data : Parsing_State) (rd : Routing_Data)
    (hb : Routing_Data.build distance data = some rd)
    (origin : Route_Ref) (oe : Nat) (eo : Routing_Edge) (ho : origin.edge = some oe)
    (heo : rd.edges[oe]? = some eo) (dests : List Route_Ref) (fuel : Nat)
    (hfuel : 2 + (rd.nodes.map (fun n => n.edges.length)).sum ≤ fuel) :
    ∃ routes ft pushes,
      Route_Tree_counted sort distance rd origin dests fuel = some (routes, ft, pushes) ∧
      Route_Tree sort distance rd origin dests fuel = some routes ∧
      (ft.map Prod.fst).Nodup ∧
      pushes ≤ 2 + (rd.nodes.map (fun n => n.edges.length)).sum := by
  have hG := graph_ok_of_built distance hdist data rd (build_spec distance data rd hb)
  obtain ⟨sa, ta, hsa, hta, _, _⟩ := hG.ends oe eo heo
  have hinit := inv_initial distance rd hG origin dests oe eo heo sa ta hsa hta
    (eo.proportionate_valuation distance origin.index origin.pos)
  obtain ⟨ft, routes, pushes, hres, hres0, hnd, hp⟩ := main_loop_counted_spec sort hsort
    distance rd hG _ origin dests fuel [] _ _ 2 hinit (by simp) (by
      rw [pending_nil]
      simp only [List.length_cons, List.length_nil]
      omega)
  rw [pending_nil] at hp
  refine ⟨routes, ft, pushes, ?_, ?_, hnd, hp⟩
  · simp only [Route_Tree_counted, ho, heo]
    exact hres
  · simp only [Route_Tree, ho, heo]
    exact hres0

theorem search_terminates_witness :
    ∃ routes ft pushes,
      Route_Tree_counted insertion_sort meridian_distance t_junction_rd anchor_a [anchor_b] 8
        = some (routes, ft, pushes) ∧
      Route_Tree insertion_sort meridian_distance t_junction_rd anchor_a [anchor_b] 8
        = some routes ∧
      (ft.map Prod.fst).Nodup ∧
      pushes ≤ 2 + (t_junction_rd.nodes.map (fun n => n.edges.length)).sum :=
  search_terminates insertion_sort insertion_sort_sorts meridian_distance
    meridian_distance_nonneg t_junction t_junction_rd (by decide!) anchor_a 0 t_edge_0 rfl
    (by decide) [anchor_b] 8 (by decide)

/-! ## The triangle inequality: claim C17 -/

theorem pv_diff_le (distance : Coord → Coord → ℚ) (e : Routing_Edge) (index : Nat)
    (p1 p2 : ℚ) (hval : e.valuation = seg_sum distance e.trace) :
    |e.proportionate_valuation distance index p1 - e.proportionate_valuation distance index p2|
      ≤ |p1 - p2| := by
  rw [proportionate_valuation_eq, proportionate_valuation_eq]
  by_cases htot : seg_sum distance e.trace = 0
  · rw [if_pos htot, if_pos htot, sub_self, abs_zero]
    exact abs_nonneg _
  · rw [if_neg htot, if_neg htot, hval]
    by_cases h : 1 ≤ (index + 1) % 2 ^ 32 ∧ (index + 1) % 2 ^ 32 < e.trace.length
    · rw [if_pos h, if_pos h, mul_div_cancel_left₀ _ htot, mul_div_cancel_left₀ _ htot]
      rw [add_sub_add_left_eq_sub]
    · rw [if_neg h, if_neg h, sub_self, abs_zero]
      exact abs_nonneg _

theorem settled_of_connected {distance : Coord → Coord → ℚ} {rd : Routing_Data}
    {origin : Route_Ref} {dests : List Route_Ref} {ft : List (Nat × Closed_Node)}
    {routes : List Route} (ea : Routing_Edge)
    (sa ta : Nat) (hsa : ea.start = some sa) (hta : ea.end_ = some ta) (pv : ℚ)
    (hdone : Search_Done distance rd (seeds_of sa ta ea pv) origin dests ft routes)
    (d : Route_Ref) (de : Nat) (ed : Routing_Edge) (hde : d.edge = some de)
    (hed : rd.edges[de]? = some ed) (sb tb : Nat) (hsb : ed.start = some sb)
    (htb : ed.end_ = some tb)
    (hconn : ∃ (x y : Nat) (w : ℚ), (ea.start = some x ∨ ea.end_ = some x) ∧
      (ed.start = some y ∨ ed.end_ = some y) ∧ Walk rd x y w) :
    ∃ v, settled_value distance rd ft d = some v ∧
      Through rd (seeds_of sa ta ea pv)
        (seeds_of sb tb ed (ed.proportionate_valuation distance d.index d.pos)) v ∧
      ∀ w, Through rd (seeds_of sa ta ea pv)
        (seeds_of sb tb ed (ed.proportionate_valuation distance d.index d.pos)) w → v ≤ w := by
  obtain ⟨x, y, w, hx, hy, hw⟩ := hconn
  have hxs : ∃ vx, (x, vx) ∈ seeds_of sa ta ea pv := by
    rcases hx with h | h
    · rw [hsa] at h
      rw [← Option.some.inj h]
      exact ⟨_, seeds_of_mem_start sa ta ea _⟩
    · rw [hta] at h
      rw [← Option.some.inj h]
      exact ⟨_, seeds_of_mem_end sa ta ea _⟩
  obtain ⟨vx, hvx⟩ := hxs
  obtain ⟨hr1, hr2⟩ := reaches_both_ends rd _ x vx hvx y w hw de ed hed sb tb hsb htb hy
  exact settled_is_least hdone d de ed hde hed sb tb hsb htb hr1 hr2

theorem through_triangle (rd : Routing_Data) (seeds_a seeds_c : List (Nat × ℚ)) (ib : Nat)
    (eb : Routing_Edge) (heb : rd.edges[ib]? = some eb) (sb tb : Nat)
    (hsb : eb.start = some sb) (htb : eb.end_ = some tb) (pvb : ℚ) (h0 : 0 ≤ pvb)
    (h1 : pvb ≤ eb.valuation) (v1 v2 : ℚ)
    (hab : Through rd seeds_a (seeds_of sb tb eb pvb) v1)
    (hbc : Through rd (seeds_of sb tb eb pvb) seeds_c v2) :
    ∃ w, Through rd seeds_a seeds_c w ∧ w ≤ v1 + v2 := by
  obtain ⟨x, vx, y, vy, c1, hx, hy, hw1, heq1⟩ := hab
  obtain ⟨y2, vy2, z, vz, c2, hy2, hz, hw2, heq2⟩ := hbc
  have hst : Walk rd sb tb eb.valuation := walk_edge rd ib eb sb tb heb (Or.inl ⟨hsb, htb⟩)
  have hts : Walk rd tb sb eb.valuation := walk_edge rd ib eb tb sb heb (Or.inr ⟨hsb, htb⟩)
  simp only [seeds_of, List.mem_cons, List.mem_singleton, Prod.mk.injEq, List.not_mem_nil,
    or_false] at hy hy2
  rcases hy with ⟨rfl, rfl⟩ | ⟨rfl, rfl⟩ <;> rcases hy2 with ⟨rfl, rfl⟩ | ⟨rfl, rfl⟩
  · exact ⟨vx + (c1 + c2) + vz, ⟨x, vx, z, vz, c1 + c2, hx, hz,
      walk_trans rd x _ z c1 c2 hw1 hw2, rfl⟩, by linarith⟩
  · exact ⟨vx + (c1 + eb.valuation + c2) + vz, ⟨x, vx, z, vz, c1 + eb.valuation + c2, hx, hz,
      walk_trans rd x _ z _ c2 (walk_trans rd x _ _ c1 _ hw1 hst) hw2, rfl⟩, by linarith⟩
  · exact ⟨vx + (c1 + eb.valuation + c2) + vz, ⟨x, vx, z, vz, c1 + eb.valuation + c2, hx, hz,
      walk_trans rd x _ z _ c2 (walk_trans rd x _ _ c1 _ hw1 hts) hw2, rfl⟩, by linarith⟩
  · exact ⟨vx + (c1 + c2) + vz, ⟨x, vx, z, vz, c1 + c2, hx, hz,
      walk_trans rd x _ z c1 c2 hw1 hw2, rfl⟩, by linarith⟩

theorem through_shift (rd : Routing_Data) (seeds_c : List (Nat × ℚ)) (sa ta : Nat)
    (e : Routing_Edge) (pva pvb : ℚ) (v : ℚ)
    (h : Through rd (seeds_of sa ta e pvb) seeds_c v) :
    ∃ w, Through rd (seeds_of sa ta e pva) seeds_c w ∧ w ≤ |pva - pvb| + v := by
  obtain ⟨x, vx, z, vz, c, hx, hz, hw, heq⟩ := h
  simp only [seeds_of, List.mem_cons, List.mem_singleton, Prod.mk.injEq, List.not_mem_nil,
    or_false] at hx
  have h1 := le_abs_self (pva - pvb)
  have h2 := neg_abs_le (pva - pvb)
  rcases hx with ⟨rfl, rfl⟩ | ⟨rfl, rfl⟩
  · exact ⟨pva + c + vz, ⟨x, pva, z, vz, c, seeds_of_mem_start x ta e pva, hz, hw, rfl⟩,
      by linarith⟩
  · exact ⟨e.valuation - pva + c + vz,
      ⟨x, e.valuation - pva, z, vz, c, seeds_of_mem_end sa x e pva, hz, hw, rfl⟩, by linarith⟩

theorem ends_connected_trans (rd : Routing_Data) (hG : Graph_OK rd) (ib : Nat)
    (ea eb ec : Routing_Edge) (heb : rd.edges[ib]? = some eb)
    (hab : ∃ (x y : Nat) (w : ℚ), (ea.start = some x ∨ ea.end_ = some x) ∧
      (eb.start = some y ∨ eb.end_ = some y) ∧ Walk rd x y w)
    (hbc : ∃ (x y : Nat) (w : ℚ), (eb.start = some x ∨ eb.end_ = some x) ∧
      (ec.start = some y ∨ ec.end_ = some y) ∧ Walk rd x y w) :
    ∃ (x y : Nat) (w : ℚ), (ea.start = some x ∨ ea.end_ = some x) ∧
      (ec.start = some y ∨ ec.end_ = some y) ∧ Walk rd x y w := by
  obtain ⟨x, y, w1, hx, hy, hw1⟩ := hab
  obtain ⟨y2, z, w2, hy2, hz, hw2⟩ := hbc
  obtain ⟨sb, tb, hsb, htb, _, _⟩ := hG.ends ib eb heb
  have hmid : ∃ w, Walk rd y y2 w := by
    rw [hsb, htb] at hy hy2
    rcases hy with h | h <;> rcases hy2 with h2 | h2
    · rw [← Option.some.inj h, ← Option.some.inj h2]
      exact ⟨0, walk_refl rd sb⟩
    · rw [← Option.some.inj h, ← Option.some.inj h2]
      exact ⟨_, walk_edge rd ib eb sb tb heb (Or.inl ⟨hsb, htb⟩)⟩
    · rw [← Option.some.inj h, ← Option.some.inj h2]
      exact ⟨_, walk_edge rd ib eb tb sb heb (Or.inr ⟨hsb, htb⟩)⟩
    · rw [← Option.some.inj h, ← Option.some.inj h2]
      exact ⟨0, walk_refl rd tb⟩
  obtain ⟨wm, hwm⟩ := hmid
  exact ⟨x, z, _, hx, hz, walk_trans rd x y2 z _ w2 (walk_trans rd x y y2 w1 wm hw1 hwm) hw2⟩

theorem route_value_some (init v : ℚ) (h : init = 180) : route_value init (some v) = v := by
  unfold route_value
  rw [if_pos h]

theorem route_value_keep (init : ℚ) (s : Option ℚ) (h : init ≠ 180) :
    route_value init s = init := by
  unfold route_value
  rw [if_neg h]

theorem init_value_shared (origin d : Route_Ref)
    (h : d.edge = origin.edge ∧ d.index = origin.index) :
    init_value origin d = |d.pos - origin.pos| := by
  unfold init_value
  rw [if_pos h]

theorem init_value_apart (origin d : Route_Ref)
    (h : ¬ (d.edge = origin.edge ∧ d.index = origin.index)) : init_value origin d = 180 := by
  unfold init_value
  rw [if_neg h]

/-- C17 as stated fails: on a segment of length 200 (along the parallel of 60 degrees) take
the anchors A, B and C at the offsets 10, 100 and 190.  The searches give `d(A,B) = 90` and
`d(B,C) = 90`, but `d(A,C)`, whose local value `|190 - 10|` is the sentinel 180, is
overwritten with 200, more than `90 + 90`. -/
theorem triangle_sentinel_clash :
    Routing_Data.build parallel_60_distance long_segment = some long_segment_rd ∧
    parallel_60_distance ⟨60, -50⟩ ⟨60, 50⟩ = 200 ∧
    (Route_Tree insertion_sort parallel_60_distance long_segment_rd long_a [long_b, long_c]
      (fuel_bound long_segment_rd)).map (List.map Route.value) = some [90, 200] ∧
    (Route_Tree insertion_sort parallel_60_distance long_segment_rd long_b [long_c]
      (fuel_bound long_segment_rd)).map (List.map Route.value) = some [90] ∧
    ¬ ((200 : ℚ) ≤ 90 + 90) :=
  ⟨by decide!, by decide!, by decide!, by decide!, by decide!⟩

/-- C17, amended (in exact arithmetic).  Let `rd` be built by the constructor and let the
anchors `a`, `b`, `c` lie on edges of `rd`, the edge of `b` being joined by node-to-node
paths to those of `a` and `c`, with `b.pos` between 0 and the length of the trace segment
the index of `b` names.  The searches from `a` and from `b` finish and
`d(a,c) ≤ d(a,b) + d(b,c)` holds in each of two cases: `a` and `c` do not share both edge
and within-edge index, and, when `b` shares them with `a` or with `c`, the valuation of
that edge equals the sum of its trace distances; or all three share edge and within-edge
index and no two of them are 180 apart. -/
theorem triangle_inequality (sort_a sort_b : List Open_Node → List Open_Node)
    (hsort_a : Sorts sort_a) (hsort_b : Sorts sort_b)
    (distance : Coord → Coord → ℚ) (hdist : ∀ x y, 0 ≤ distance x y)
    (data : Parsing_State) (rd : Routing_Data)
    (hb : Routing_Data.build distance data = some rd)
    (a b c : Route_Ref) (ia ib ic : Nat) (ea eb ec : Routing_Edge)
    (ha : a.edge = some ia) (hea : rd.edges[ia]? = some ea)
    (hbe : b.edge = some ib) (heb : rd.edges[ib]? = some eb)
    (hce : c.edge = some ic) (hec : rd.edges[ic]? = some ec)
    (hab : ∃ (x y : Nat) (w : ℚ), (ea.start = some x ∨ ea.end_ = some x) ∧
      (eb.start = some y ∨ eb.end_ = some y) ∧ Walk rd x y w)
    (hbc : ∃ (x y : Nat) (w : ℚ), (eb.start = some x ∨ eb.end_ = some x) ∧
      (ec.start = some y ∨ ec.end_ = some y) ∧ Walk rd x y w)
    (hidx : b.index < 2 ^ 32)
    (hpos : ∀ p q, eb.trace[b.index]? = some p → eb.trace[b.index + 1]? = some q →
      0 ≤ b.pos ∧ b.pos ≤ distance p q)
    (hcase :
      (¬ (c.edge = a.edge ∧ c.index = a.index) ∧
        ((b.edge = a.edge ∧ b.index = a.index) ∨ (c.edge = b.edge ∧ c.index = b.index) →
          eb.valuation = seg_sum distance eb.trace)) ∨
      ((b.edge = a.edge ∧ b.index = a.index) ∧ (c.edge = a.edge ∧ c.index = a.index) ∧
        |b.pos - a.pos| ≠ 180 ∧ |c.pos - b.pos| ≠ 180 ∧ |c.pos - a.pos| ≠ 180))
    (dests_a dests_b : List Route_Ref) (i j k : Nat) (hi : dests_a[i]? = some b)
    (hj : dests_a[j]? = some c) (hk : dests_b[k]? = some c)
    (fuel_a fuel_b : Nat) (hfa : fuel_bound rd ≤ fuel_a) (hfb : fuel_bound rd ≤ fuel_b) :
    ∃ routes_a routes_b rab rac rbc,
      Route_Tree sort_a distance rd a dests_a fuel_a = some routes_a ∧
      Route_Tree sort_b distance rd b dests_b fuel_b = some routes_b ∧
      routes_a[i]? = some rab ∧ routes_a[j]? = some rac ∧ routes_b[k]? = some rbc ∧
      rac.value ≤ rab.value + rbc.value := by
  have hG := graph_ok_of_built distance hdist data rd (build_spec distance data rd hb)
  obtain ⟨sa, ta, hsa, hta, _, _⟩ := hG.ends ia ea hea
  obtain ⟨sb, tb, hsb, htb, _, _⟩ := hG.ends ib eb heb
  obtain ⟨sc, tc, hsc, htc, _, _⟩ := hG.ends ic ec hec
  obtain ⟨fta, routes_a, hres_a, hdone_a⟩ := route_tree_done sort_a hsort_a distance rd hG a
    dests_a ia ea ha hea sa ta hsa hta fuel_a hfa
  obtain ⟨ftb, routes_b, hres_b, hdone_b⟩ := route_tree_done sort_b hsort_b distance rd hG b
    dests_b ib eb hbe heb sb tb hsb htb fuel_b hfb
  obtain ⟨rab, hrab⟩ : ∃ r, routes_a[i]? = some r :=
    ⟨_, List.getElem?_eq_getElem (by
      rw [hdone_a.length]
      exact (List.getElem?_eq_some.mp hi).1)⟩
  obtain ⟨rac, hrac⟩ : ∃ r, routes_a[j]? = some r :=
    ⟨_, List.getElem?_eq_getElem (by
      rw [hdone_a.length]
      exact (List.getElem?_eq_some.mp hj).1)⟩
  obtain ⟨rbc, hrbc⟩ : ∃ r, routes_b[k]? = some r :=
    ⟨_, List.getElem?_eq_getElem (by
      rw [hdone_b.length]
      exact (List.getElem?_eq_some.mp hk).1)⟩
  refine ⟨routes_a, routes_b, rab, rac, rbc, hres_a, hres_b, hrab, hrac, hrbc, ?_⟩
  rw [hdone_a.value i b rab hi hrab, hdone_a.value j c rac hj hrac,
    hdone_b.value k c rbc hk hrbc]
  rcases hcase with ⟨hnac, hval⟩ | ⟨hsab, hsac, n1, n2, n3⟩
  · have hac := ends_connected_trans rd hG ib ea eb ec heb hab hbc
    obtain ⟨vab, hsetab, htab, _⟩ := settled_of_connected ea sa ta hsa hta _ hdone_a b ib eb
      hbe heb sb tb hsb htb hab
    obtain ⟨vac, hsetac, _, hlac⟩ := settled_of_connected ea sa ta hsa hta _ hdone_a c ic ec
      hce hec sc tc hsc htc hac
    obtain ⟨vbc, hsetbc, htbc, _⟩ := settled_of_connected eb sb tb hsb htb _ hdone_b c ic ec
      hce hec sc tc hsc htc hbc
    obtain ⟨hb0, hb1⟩ := pv_bounds distance hdist eb (hG.nonneg ib eb heb) b.index b.pos hidx
      hpos
    have htri : vac ≤ vab + vbc := by
      obtain ⟨w, hw, hle⟩ := through_triangle rd _ _ ib eb heb sb tb hsb htb _ hb0 hb1 vab vbc
        htab htbc
      exact le_trans (hlac w hw) hle
    rw [hsetab, hsetac, hsetbc, route_value_some _ vac (init_value_apart a c hnac)]
    by_cases hsab : b.edge = a.edge ∧ b.index = a.index
    · have hnbc : ¬ (c.edge = b.edge ∧ c.index = b.index) :=
        fun h => hnac ⟨h.1.trans hsab.1, h.2.trans hsab.2⟩
      rw [route_value_some _ vbc (init_value_apart b c hnbc)]
      by_cases h180 : |b.pos - a.pos| = 180
      · rw [route_value_some _ vab (by rw [init_value_shared a b hsab]; exact h180)]
        exact htri
      · rw [route_value_keep _ _ (by rw [init_value_shared a b hsab]; exact h180),
          init_value_shared a b hsab]
        have hie : ib = ia := by
          have h := hsab.1
          rw [hbe, ha] at h
          exact Option.some.inj h
        subst hie
        rw [hea] at heb
        have hee : ea = eb := Option.some.inj heb
        subst hee
        rw [hsa] at hsb
        rw [hta] at htb
        have hs : sa = sb := Option.some.inj hsb
        have ht : ta = tb := Option.some.inj htb
        subst hs
        subst ht
        obtain ⟨w, hw, hle⟩ := through_shift rd _ sa ta ea
          (ea.proportionate_valuation distance a.index a.pos) _ vbc htbc
        have hd := pv_diff_le distance ea a.index a.pos b.pos (hval (Or.inl hsab))
        rw [hsab.2] at hle
        rw [abs_sub_comm b.pos a.pos]
        have := hlac w hw
        linarith
    · rw [route_value_some _ vab (init_value_apart a b hsab)]
      by_cases hsbc : c.edge = b.edge ∧ c.index = b.index
      · by_cases h180 : |c.pos - b.pos| = 180
        · rw [route_value_some _ vbc (by rw [init_value_shared b c hsbc]; exact h180)]
          exact htri
        · rw [route_value_keep _ _ (by rw [init_value_shared b c hsbc]; exact h180),
            init_value_shared b c hsbc]
          have hie : ic = ib := by
            have h := hsbc.1
            rw [hce, hbe] at h
            exact Option.some.inj h
          subst hie
          rw [heb] at hec
          have hee : eb = ec := Option.some.inj hec
          subst hee
          rw [hsb] at hsc
          rw [htb] at htc
          have hs : sb = sc := Option.some.inj hsc
          have ht : tb = tc := Option.some.inj htc
          subst hs
          subst ht
          obtain ⟨w, hw, hle⟩ := through_shift rd _ sb tb eb
            (eb.proportionate_valuation distance c.index c.pos) _ vab
            (through_symm rd _ _ vab htab)
          have hd := pv_diff_le distance eb b.index c.pos b.pos (hval (Or.inr hsbc))
          rw [hsbc.2] at hle
          have := hlac w (through_symm rd _ _ w hw)
          linarith
      · rw [route_value_some _ vbc (init_value_apart b c hsbc)]
        exact htri
  · have hsbc : c.edge = b.edge ∧ c.index = b.index :=
      ⟨hsac.1.trans hsab.1.symm, hsac.2.trans hsab.2.symm⟩
    rw [route_value_keep _ _ (by rw [init_value_shared a c hsac]; exact n3),
      route_value_keep _ _ (by rw [init_value_shared a b hsab]; exact n1),
      route_value_keep _ _ (by rw [init_value_shared b c hsbc]; exact n2),
      init_value_shared a b hsab, init_value_shared a c hsac, init_value_shared b c hsbc]
    have := abs_sub_le c.pos b.pos a.pos
    linarith

theorem triangle_inequality_witness :
    ∃ routes_a routes_b rab rac rbc,
      Route_Tree insertion_sort meridian_distance t_junction_rd anchor_a
        [anchor_a2, anchor_b] 10 = some routes_a ∧
      Route_Tree insertion_sort meridian_distance t_junction_rd anchor_a2 [anchor_b] 10
        = some routes_b ∧
      routes_a[0]? = some rab ∧ routes_a[1]? = some rac ∧ routes_b[0]? = some rbc ∧
      rac.value ≤ rab.value + rbc.value :=
  triangle_inequality insertion_sort insertion_sort insertion_sort_sorts insertion_sort_sorts
    meridian_distance meridian_distance_nonneg t_junction t_junction_rd (by decide!)
    anchor_a anchor_a2 anchor_b 0 0 2 t_edge_0 t_edge_0 t_edge_2 rfl (by decide) rfl
    (by decide) rfl (by decide)
    ⟨0, 0, 0, Or.inl rfl, Or.inl rfl, walk_refl t_junction_rd 0⟩
    ⟨1, 1, 0, Or.inr rfl, Or.inr rfl, walk_refl t_junction_rd 1⟩ (by decide)
    (fun p q hp hq => by
      have h1 : p = ⟨0, 0⟩ := (Option.some.inj hp).symm
      have h2 : q = ⟨1, 0⟩ := (Option.some.inj hq).symm
      subst h1
      subst h2
      decide!)
    (Or.inl ⟨by decide, fun _ => by decide!⟩)
    [anchor_a2, anchor_b] [anchor_b] 0 1 0 rfl rfl rfl 10 10 (by decide) (by decide)

/-- The planar approximation of `distance` is no metric, so the triangle inequality is not
stated for two anchors on one segment with the third elsewhere.  The segment along the
parallel of 60 degrees from longitude -65 to 65 has length 260, the way between the same
nodes by the equator has length 250.  For A and C at the two ends of the segment and B in
the middle of the equator `d(A,C) = 260`, `d(A,B) = 125` and `d(B,C) = 125`. -/
theorem triangle_detour_shorter :
    Routing_Data.build grid_distance detour = some detour_rd ∧
    (Route_Tree insertion_sort grid_distance detour_rd ⟨"A", some 0, 0, 0⟩
      [⟨"B", some 1, 1, 65⟩, ⟨"C", some 0, 0, 260⟩] (fuel_bound detour_rd)).map
        (List.map Route.value) = some [125, 260] ∧
    (Route_Tree insertion_sort grid_distance detour_rd ⟨"B", some 1, 1, 65⟩
      [⟨"C", some 0, 0, 260⟩] (fuel_bound detour_rd)).map (List.map Route.value)
        = some [125] ∧
    ¬ ((260 : ℚ) ≤ 125 + 125) :=
  ⟨by decide!, by decide!, by decide!, by decide!⟩

/-! ## Double arithmetic against exact arithmetic -/

theorem pow2_nonneg (e : Int) : 0 ≤ pow2 e := by
  cases e with
  | ofNat k => exact Nat.cast_nonneg _
  | negSucc k => exact div_nonneg zero_le_one (Nat.cast_nonneg _)

theorem fl_sqrt_nonneg (q : ℚ) : 0 ≤ fl_sqrt q := by
  unfold fl_sqrt
  split
  · exact le_refl _
  · exact mul_nonneg (Nat.cast_nonneg _) (pow2_nonneg _)

theorem meridian_distance_double_nonneg (a b : Coord) : 0 ≤ meridian_distance_double a b :=
  fl_sqrt_nonneg _

/-- C1 as stated fails in the arithmetic of the code.  Four ways in a row join the nodes at
the latitudes 0, 0.1, 0.3, 1 and 2 of one meridian; the edge valuations are the doubles
0.1, 0.19999999999999998, 0.7 and 1.  The origin lies at the start of the first edge and
the destination at the start of the last, so both proportionate valuations are 0.  The
search adds the valuations one by one and rounds each sum: it closes the start of the last
edge with `(0.1 + 0.19999999999999998) + 0.7`, rounded twice, which is 1, and that is the
route value.  The least sums of edge valuations give `1 - 2^-54` for the formula of the
claim, and the formula with its sums rounded, `0.1 + (0.19999999999999998 + 0.7)` for the
path from the end of the origin's edge, gives `1 - 2^-53`. -/
theorem route_value_rounded :
    Routing_Data.build_double meridian_distance_double decimal_path = some decimal_path_rd ∧
    Route_Ref.make decimal_path_rd ⟨5, 0, 0⟩ "A" = some ⟨"A", some 0, 0, 0⟩ ∧
    Route_Ref.make decimal_path_rd ⟨8, 0, 0⟩ "B" = some ⟨"B", some 3, 0, 0⟩ ∧
    Route_Ref.proportionate_valuation_double meridian_distance_double decimal_path_rd
      ⟨"A", some 0, 0, 0⟩ = some 0 ∧
    Route_Ref.proportionate_valuation_double meridian_distance_double decimal_path_rd
      ⟨"B", some 3, 0, 0⟩ = some 0 ∧
    (Route_Tree_double insertion_sort meridian_distance_double decimal_path_rd
      ⟨"A", some 0, 0, 0⟩ [⟨"B", some 3, 0, 0⟩] (fuel_bound decimal_path_rd)).map
        (List.map Route.value) = some [1] ∧
    (∃ d1 d2 d3 d4, Shortest decimal_path_rd 0 3 d1 ∧ Shortest decimal_path_rd 1 3 d2 ∧
      Shortest decimal_path_rd 0 4 d3 ∧ Shortest decimal_path_rd 1 4 d4 ∧
      min (min (0 + d1) (round_double (1 / 10) - 0 + d2) + 0)
          (min (0 + d3) (round_double (1 / 10) - 0 + d4) + 1 - 0) = 1 - 1 / 2 ^ 54 ∧
      (1 : ℚ) ≠ 1 - 1 / 2 ^ 54) ∧
    min (fl_add 0 (fl_add (fl_add (round_double (1 / 10))
            (fl_sub (round_double (3 / 10)) (round_double (1 / 10)))) (round_double (7 / 10))))
        (fl_add (fl_sub (round_double (1 / 10)) 0)
          (fl_add (fl_sub (round_double (3 / 10)) (round_double (1 / 10)))
            (round_double (7 / 10)))) = 1 - 1 / 2 ^ 53 := by
  refine ⟨by decide!, by decide!, by decide!, by decide!, by decide!, by decide!, ?_,
    by decide!⟩
  have hw12 : Walk decimal_path_rd 1 2 _ :=
    walk_edge decimal_path_rd 1 _ 1 2 (rfl : decimal_path_rd.edges[1]? = some
      ⟨[⟨round_double (1 / 10), 0⟩, ⟨round_double (3 / 10), 0⟩],
        fl_sub (round_double (3 / 10)) (round_double (1 / 10)), some 1, some 2⟩)
      (Or.inl ⟨rfl, rfl⟩)
  have hw23 : Walk decimal_path_rd 2 3 _ :=
    walk_edge decimal_path_rd 2 _ 2 3 (rfl : decimal_path_rd.edges[2]? = some
      ⟨[⟨round_double (3 / 10), 0⟩, ⟨1, 0⟩], round_double (7 / 10), some 2, some 3⟩)
      (Or.inl ⟨rfl, rfl⟩)
  obtain ⟨d1, d2, d3, d4, h1, h2, h3, h4, routes, r, hres, _, hr, hval⟩ :=
    route_value_formula insertion_sort insertion_sort_sorts meridian_distance_double
      meridian_distance_double_nonneg decimal_path decimal_path_rd (by decide!)
      ⟨"A", some 0, 0, 0⟩ 0 ⟨[⟨0, 0⟩, ⟨round_double (1 / 10), 0⟩], round_double (1 / 10),
        some 0, some 1⟩ rfl rfl 0 1 rfl rfl [⟨"B", some 3, 0, 0⟩] 0
      ⟨"B", some 3, 0, 0⟩ rfl 3 ⟨[⟨1, 0⟩, ⟨2, 0⟩], 1, some 3, some 4⟩ rfl rfl 3 4 rfl
      rfl (by decide)
      ⟨1, 3, _, Or.inr rfl, Or.inl rfl, walk_trans decimal_path_rd 1 2 3 _ _ hw12 hw23⟩
      (fuel_bound decimal_path_rd) (le_refl _)
  have heval : (Route_Tree insertion_sort meridian_distance_double decimal_path_rd
      ⟨"A", some 0, 0, 0⟩ [⟨"B", some 3, 0, 0⟩] (fuel_bound decimal_path_rd)).map
        (List.map Route.value) = some [1 - 1 / 2 ^ 54] := by decide!
  rw [hres] at heval
  simp only [Option.map_some', Option.some.injEq] at heval
  have hrv : r.value = 1 - 1 / 2 ^ 54 := by
    have h0 : (routes.map Route.value)[0]? = some r.value := by
      rw [List.getElem?_map, hr]
      rfl
    rw [heval] at h0
    exact (Option.some.inj h0).symm
  have hpa : Routing_Edge.proportionate_valuation meridian_distance_double
      ⟨[⟨0, 0⟩, ⟨round_double (1 / 10), 0⟩], round_double (1 / 10), some 0, some 1⟩ 0 0
      = 0 := by decide!
  have hpb : Routing_Edge.proportionate_valuation meridian_distance_double
      ⟨[⟨1, 0⟩, ⟨2, 0⟩], 1, some 3, some 4⟩ 0 0 = 0 := by decide!
  simp only [hpa, hpb] at hval
  refine ⟨d1, d2, d3, d4, h1, h2, h3, h4, ?_, by decide!⟩
  rw [← hval, hrv]

end ChangingTrains
